import Mathlib

/-
Verification of the maze-generation core of the grid-maze-editor repository.

Embedding conventions:
* A cell value is a natural number: 0 encodes Wall, 1 encodes Walkable
  (the source uses the literals 0 and 1).
* A position is a (row, col) pair of naturals; the source guards every
  negative candidate index (such as row - 2) with an explicit bound check
  before using it, so natural-number coordinates with explicit lower-bound
  guards reproduce the source behaviour exactly.
* The JavaScript call Math.floor(Math.random() * n) yields an arbitrary
  element of {0, ..., n-1}; it is embedded as stream k % n where
  stream : Nat -> Nat is an arbitrary choice stream and k counts the
  Math.random() call sites executed so far.  Quantifying over all streams
  covers exactly the possible behaviours of the source.
* Math.random() results compared against the wall density are embedded as an
  arbitrary stream of rationals, one per cell in row-major order, matching
  the single call per cell in the source.
* The mutable CellValue[][] grid of the perfect-maze generators is embedded
  as a total function from positions to cell values together with the two
  dimensions; in-place writes become pointwise functional overrides.  The
  helper functions of gridUtils operate on List (List Nat), mirroring the
  nested-array shape directly.
-/

namespace GridMaze

/-- Cell values; 0 encodes Wall and 1 encodes Walkable. -/
abbrev CellValue := ℕ

/-- Positions as (row, col) pairs. -/
abbrev Pos := ℕ × ℕ

/-- Grid sizes as requested by the caller. -/
structure GridSize where
  rows : ℕ
  cols : ℕ

/-- Dimension adjustment shared by the four perfect-maze generators:
an even requested dimension is decremented by one, an odd one is kept.
The source computes size.rows % 2 === 0 ? size.rows - 1 : size.rows. -/
def adjDim (n : ℕ) : ℕ := if n % 2 = 0 then n - 1 else n

/-- Grids produced by the perfect-maze generators: the dimensions of the
allocated nested array together with the cell contents. -/
structure Grid where
  rows : ℕ
  cols : ℕ
  cell : Pos → CellValue

/-- View of a functional grid as the nested array the source returns. -/
def Grid.toLists (g : Grid) : List (List CellValue) :=
  (List.range g.rows).map fun r => (List.range g.cols).map fun c => g.cell (r, c)

/-- Pointwise override of one grid cell, embedding grid[p.1][p.2] = v. -/
def setCell (g : Pos → CellValue) (p : Pos) (v : CellValue) : Pos → CellValue :=
  fun q => if q = p then v else g q

theorem setCell_same (g : Pos → CellValue) (p : Pos) (v : CellValue) :
    setCell g p v p = v := by
  simp [setCell]

theorem setCell_other (g : Pos → CellValue) (p q : Pos) (v : CellValue) (h : q ≠ p) :
    setCell g p v q = g q := by
  simp [setCell, h]

/-! ## The density-random generator (generateRandomMaze) -/

/-- Embedding of generateRandomMaze from mazeGenerators.ts: one uniform
sample per cell in row-major order; a cell becomes 0 (Wall) when its sample
is strictly below the density and 1 (Walkable) otherwise. -/
def generateRandomMaze (size : GridSize) (wallDensity : ℚ) (rand : ℕ → ℚ) :
    List (List CellValue) :=
  (List.range size.rows).map fun row =>
    (List.range size.cols).map fun col =>
      if rand (row * size.cols + col) < wallDensity then 0 else 1

theorem generateRandomMaze_length (size : GridSize) (d : ℚ) (rand : ℕ → ℚ) :
    (generateRandomMaze size d rand).length = size.rows := by
  simp [generateRandomMaze]

theorem generateRandomMaze_row_length (size : GridSize) (d : ℚ) (rand : ℕ → ℚ) :
    ∀ row ∈ generateRandomMaze size d rand, row.length = size.cols := by
  intro row hrow
  simp only [generateRandomMaze, List.mem_map, List.mem_range] at hrow
  obtain ⟨r, -, rfl⟩ := hrow
  simp

theorem generateRandomMaze_cell (size : GridSize) (d : ℚ) (rand : ℕ → ℚ)
    (r c : ℕ) (hr : r < size.rows) (hc : c < size.cols) :
    ((generateRandomMaze size d rand).getD r []).getD c 2 =
      if rand (r * size.cols + c) < d then 0 else 1 := by
  have hr2 : r < (generateRandomMaze size d rand).length := by
    simpa [generateRandomMaze] using hr
  rw [List.getD_eq_getElem _ _ hr2]
  have h3 : (generateRandomMaze size d rand)[r] =
      (List.range size.cols).map
        (fun col => if rand (r * size.cols + col) < d then 0 else 1) := by
    simp [generateRandomMaze]
  rw [h3]
  have hc2 : c < ((List.range size.cols).map
      (fun col => if rand (r * size.cols + col) < d then 0 else 1)).length := by
    simpa using hc
  rw [List.getD_eq_getElem _ _ hc2]
  simp

/-! ## gridUtils helpers -/

/-- Embedding of updateCell from gridUtils: rebuilds the nested array,
replacing the single addressed cell.  The row and column arguments are
integers because the public interface accepts any index. -/
def updateCell (grid : List (List CellValue)) (row col : ℤ) (value : CellValue) :
    List (List CellValue) :=
  grid.mapIdx fun rowIndex r =>
    r.mapIdx fun colIndex cell =>
      if (rowIndex : ℤ) = row ∧ (colIndex : ℤ) = col then value else cell

theorem updateCell_length (grid : List (List CellValue)) (row col : ℤ) (v : CellValue) :
    (updateCell grid row col v).length = grid.length := by
  simp [updateCell]

theorem getElem_mapIdx (l : List α) (f : ℕ → α → β) (i : ℕ) (h : i < l.length)
    (h2 : i < (l.mapIdx f).length) : (l.mapIdx f)[i] = f i l[i] := by
  have := List.get_mapIdx l f i h
  simp only [List.get_eq_getElem] at this
  exact this

theorem updateCell_get (grid : List (List CellValue)) (row col : ℤ) (v : CellValue)
    (i : ℕ) (hi : i < grid.length) (j : ℕ) (hj : j < (grid.getD i []).length) :
    ((updateCell grid row col v).getD i []).getD j 2 =
      if (i : ℤ) = row ∧ (j : ℤ) = col then v else (grid.getD i []).getD j 2 := by
  rw [List.getD_eq_getElem _ _ hi] at hj ⊢
  have hi2 : i < (updateCell grid row col v).length := by
    simpa [updateCell_length] using hi
  rw [List.getD_eq_getElem _ _ hi2]
  have h3 : (updateCell grid row col v)[i] =
      grid[i].mapIdx fun colIndex cell =>
        if (i : ℤ) = row ∧ (colIndex : ℤ) = col then v else cell := by
    unfold updateCell
    exact getElem_mapIdx grid _ i hi hi2
  rw [h3]
  have hj2 : j < (grid[i].mapIdx fun colIndex cell =>
      if (i : ℤ) = row ∧ (colIndex : ℤ) = col then v else cell).length := by
    simpa [List.length_mapIdx] using hj
  rw [List.getD_eq_getElem _ _ hj2, List.getD_eq_getElem _ _ hj]
  exact getElem_mapIdx grid[i] _ j hj hj2

theorem updateCell_row_length (grid : List (List CellValue)) (row col : ℤ) (v : CellValue)
    (i : ℕ) (hi : i < grid.length) :
    ((updateCell grid row col v).getD i []).length = (grid.getD i []).length := by
  unfold updateCell
  rw [List.getD_eq_getElem _ _ (by simpa using hi), List.getD_eq_getElem _ _ hi,
    List.getElem_mapIdx]
  simp

/-! ## Maze-cell sublattice, midpoints, and the cell graph -/

/-- Maze cells: in-bounds positions with both coordinates even. -/
def cellFinset (rows cols : ℕ) : Finset Pos :=
  (Finset.range rows ×ˢ Finset.range cols).filter fun p => p.1 % 2 = 0 ∧ p.2 % 2 = 0

/-- Midpoint positions: in-bounds positions with exactly one odd coordinate. -/
def midFinset (rows cols : ℕ) : Finset Pos :=
  (Finset.range rows ×ˢ Finset.range cols).filter fun p =>
    (p.1 % 2 = 0 ∧ p.2 % 2 = 1) ∨ (p.1 % 2 = 1 ∧ p.2 % 2 = 0)

/-- Opened midpoint cells of a grid function: midpoint positions holding 1. -/
def openedMids (rows cols : ℕ) (g : Pos → CellValue) : Finset Pos :=
  (midFinset rows cols).filter fun p => g p = 1

theorem mem_cellFinset {rows cols : ℕ} {p : Pos} :
    p ∈ cellFinset rows cols ↔
      p.1 < rows ∧ p.2 < cols ∧ p.1 % 2 = 0 ∧ p.2 % 2 = 0 := by
  simp [cellFinset, and_assoc]

theorem mem_midFinset {rows cols : ℕ} {p : Pos} :
    p ∈ midFinset rows cols ↔
      p.1 < rows ∧ p.2 < cols ∧
        ((p.1 % 2 = 0 ∧ p.2 % 2 = 1) ∨ (p.1 % 2 = 1 ∧ p.2 % 2 = 0)) := by
  simp [midFinset, and_assoc]

/-- Lattice adjacency of maze cells: two grid steps apart along one axis. -/
def Adj2 (p q : Pos) : Prop :=
  (p.1 = q.1 ∧ (p.2 + 2 = q.2 ∨ q.2 + 2 = p.2)) ∨
  (p.2 = q.2 ∧ (p.1 + 2 = q.1 ∨ q.1 + 2 = p.1))

instance (p q : Pos) : Decidable (Adj2 p q) := by unfold Adj2; infer_instance

theorem Adj2.symm {p q : Pos} (h : Adj2 p q) : Adj2 q p := by
  unfold Adj2 at h ⊢; omega

theorem Adj2.ne {p q : Pos} (h : Adj2 p q) : p ≠ q := by
  rintro rfl; unfold Adj2 at h; omega

/-- Midpoint of two positions, embedding Math.floor((a + b) / 2) coordinatewise. -/
def midOf (p q : Pos) : Pos := ((p.1 + q.1) / 2, (p.2 + q.2) / 2)

theorem midOf_comm (p q : Pos) : midOf p q = midOf q p := by
  simp [midOf, Nat.add_comm]

theorem midOf_mem_midFinset {rows cols : ℕ} {p q : Pos}
    (hp : p ∈ cellFinset rows cols) (hq : q ∈ cellFinset rows cols) (h : Adj2 p q) :
    midOf p q ∈ midFinset rows cols := by
  rw [mem_cellFinset] at hp hq
  rw [mem_midFinset]
  unfold Adj2 at h
  unfold midOf
  omega

theorem midOf_odd_coord {p q : Pos}
    (hp1 : p.1 % 2 = 0) (hp2 : p.2 % 2 = 0) (hq1 : q.1 % 2 = 0) (hq2 : q.2 % 2 = 0)
    (h : Adj2 p q) :
    ((midOf p q).1 % 2 = 0 ∧ (midOf p q).2 % 2 = 1) ∨
      ((midOf p q).1 % 2 = 1 ∧ (midOf p q).2 % 2 = 0) := by
  unfold Adj2 at h
  unfold midOf
  omega

theorem midOf_inj {p q a b : Pos}
    (hp1 : p.1 % 2 = 0) (hp2 : p.2 % 2 = 0) (hq1 : q.1 % 2 = 0) (hq2 : q.2 % 2 = 0)
    (ha1 : a.1 % 2 = 0) (ha2 : a.2 % 2 = 0) (hb1 : b.1 % 2 = 0) (hb2 : b.2 % 2 = 0)
    (hpq : Adj2 p q) (hab : Adj2 a b) (hmid : midOf p q = midOf a b) :
    (a = p ∧ b = q) ∨ (a = q ∧ b = p) := by
  unfold Adj2 at hpq hab
  unfold midOf at hmid
  rw [Prod.mk.injEq] at hmid
  rcases p with ⟨p1, p2⟩
  rcases q with ⟨q1, q2⟩
  rcases a with ⟨a1, a2⟩
  rcases b with ⟨b1, b2⟩
  simp only [Prod.mk.injEq]
  simp only at hmid hpq hab hp1 hp2 hq1 hq2 ha1 ha2 hb1 hb2
  rcases hpq with ⟨h1, h2 | h2⟩ | ⟨h1, h2 | h2⟩ <;>
    rcases hab with ⟨h3, h4 | h4⟩ | ⟨h3, h4 | h4⟩ <;>
    omega

/-- Vertex type of the cell graph: maze cells of a rows-by-cols grid. -/
def CellV (rows cols : ℕ) : Type := {p : Pos // p ∈ cellFinset rows cols}

instance (rows cols : ℕ) : Fintype (CellV rows cols) := by unfold CellV; infer_instance

instance (rows cols : ℕ) : DecidableEq (CellV rows cols) := by
  unfold CellV; infer_instance

/-- The subgraph of a grid spanned by the maze cells and the opened midpoints:
two maze cells are adjacent when they are lattice-adjacent and the midpoint
between them holds 1 (Walkable). -/
def mazeGraph (rows cols : ℕ) (g : Pos → CellValue) : SimpleGraph (CellV rows cols) where
  Adj a b := Adj2 a.1 b.1 ∧ g (midOf a.1 b.1) = 1
  symm := by
    rintro a b ⟨h1, h2⟩
    exact ⟨h1.symm, by rwa [midOf_comm]⟩
  loopless := by
    rintro a ⟨h1, -⟩
    exact h1.ne rfl

theorem mazeGraph_adj {rows cols : ℕ} {g : Pos → CellValue} {a b : CellV rows cols} :
    (mazeGraph rows cols g).Adj a b ↔ Adj2 a.1 b.1 ∧ g (midOf a.1 b.1) = 1 :=
  Iff.rfl

/-- Writing any value at an even-even position never changes the cell graph,
because adjacency reads the grid only at midpoint positions, which each have
an odd coordinate. -/
theorem mazeGraph_setCell_cell (rows cols : ℕ) (g : Pos → CellValue) {p : Pos}
    (hp1 : p.1 % 2 = 0) (hp2 : p.2 % 2 = 0) (v : CellValue) :
    mazeGraph rows cols (setCell g p v) = mazeGraph rows cols g := by
  ext a b
  rw [mazeGraph_adj, mazeGraph_adj]
  constructor <;> rintro ⟨h1, h2⟩ <;> refine ⟨h1, ?_⟩
  · have hodd := midOf_odd_coord (mem_cellFinset.1 a.2).2.2.1 (mem_cellFinset.1 a.2).2.2.2
      (mem_cellFinset.1 b.2).2.2.1 (mem_cellFinset.1 b.2).2.2.2 h1
    have hne : midOf a.1 b.1 ≠ p := by
      intro he
      rw [he] at hodd
      omega
    rwa [setCell_other _ _ _ _ hne] at h2
  · have hodd := midOf_odd_coord (mem_cellFinset.1 a.2).2.2.1 (mem_cellFinset.1 a.2).2.2.2
      (mem_cellFinset.1 b.2).2.2.1 (mem_cellFinset.1 b.2).2.2.2 h1
    have hne : midOf a.1 b.1 ≠ p := by
      intro he
      rw [he] at hodd
      omega
    rwa [setCell_other _ _ _ _ hne]

/-- Opening the midpoint between two lattice-adjacent maze cells adds exactly
the edge between them to the cell graph. -/
theorem mazeGraph_setCell_mid (rows cols : ℕ) (g : Pos → CellValue)
    (a b : CellV rows cols) (hab : Adj2 a.1 b.1) :
    mazeGraph rows cols (setCell g (midOf a.1 b.1) 1) =
      mazeGraph rows cols g ⊔ SimpleGraph.fromEdgeSet {s(a, b)} := by
  ext x y
  rw [SimpleGraph.sup_adj, mazeGraph_adj, mazeGraph_adj, SimpleGraph.fromEdgeSet_adj]
  have hax := mem_cellFinset.1 a.2
  have hbx := mem_cellFinset.1 b.2
  constructor
  · rintro ⟨h1, h2⟩
    by_cases hm : midOf x.1 y.1 = midOf a.1 b.1
    · right
      have hxx := mem_cellFinset.1 x.2
      have hyx := mem_cellFinset.1 y.2
      have := midOf_inj hax.2.2.1 hax.2.2.2 hbx.2.2.1 hbx.2.2.2
        hxx.2.2.1 hxx.2.2.2 hyx.2.2.1 hyx.2.2.2 hab h1 hm.symm
      have hxy : x ≠ y := by
        intro he
        exact h1.ne (congrArg Subtype.val he)
      refine ⟨?_, hxy⟩
      rcases this with ⟨h3, h4⟩ | ⟨h3, h4⟩
      · have hx : x = a := Subtype.ext h3
        have hy : y = b := Subtype.ext h4
        rw [hx, hy]
        simp
      · have hx : x = b := Subtype.ext h3
        have hy : y = a := Subtype.ext h4
        rw [hx, hy]
        simp [Sym2.eq_swap]
    · left
      rw [setCell_other _ _ _ _ hm] at h2
      exact ⟨h1, h2⟩
  · rintro (⟨h1, h2⟩ | ⟨h1, h2⟩)
    · refine ⟨h1, ?_⟩
      by_cases hm : midOf x.1 y.1 = midOf a.1 b.1
      · rw [hm, setCell_same]
      · rwa [setCell_other _ _ _ _ hm]
    · simp only [Set.mem_singleton_iff, Sym2.eq_iff] at h1
      rcases h1 with ⟨rfl, rfl⟩ | ⟨rfl, rfl⟩
      · exact ⟨hab, by rw [setCell_same]⟩
      · exact ⟨hab.symm, by rw [midOf_comm, setCell_same]⟩

/-! ## Generic tree-growing machinery -/

/-- A walk out of a vertex not touched by any edge goes nowhere. -/
theorem reachable_eq_of_no_incident {V : Type _} {G : SimpleGraph V} {S : Finset V}
    (hG : ∀ a b, G.Adj a b → a ∈ S ∧ b ∈ S) {x y : V} (hx : x ∉ S)
    (h : G.Reachable x y) : y = x := by
  obtain ⟨w⟩ := h
  cases w with
  | nil => rfl
  | cons hadj w => exact absurd (hG _ _ hadj).1 hx

/-- Adding an edge between two vertices not yet connected preserves acyclicity. -/
theorem addEdge_isAcyclic {V : Type _} {G : SimpleGraph V} {p q : V}
    (hpq : ¬G.Reachable p q) (hG : G.IsAcyclic) :
    (G ⊔ SimpleGraph.fromEdgeSet {s(p, q)}).IsAcyclic := by
  intro v c hc
  by_cases he : s(p, q) ∈ c.edges
  · have hcyc : ∃ u, ∃ cw : (G ⊔ SimpleGraph.fromEdgeSet {s(p, q)}).Walk u u,
        cw.IsCycle ∧ s(p, q) ∈ cw.edges := ⟨v, c, hc, he⟩
    have h2 := (SimpleGraph.adj_and_reachable_delete_edges_iff_exists_cycle).2 hcyc
    have hle : (G ⊔ SimpleGraph.fromEdgeSet {s(p, q)}) \
        SimpleGraph.fromEdgeSet {s(p, q)} ≤ G := by
      intro a b hab
      rw [SimpleGraph.sdiff_adj, SimpleGraph.sup_adj] at hab
      rcases hab with ⟨h3 | h3, h4⟩
      · exact h3
      · exact absurd h3 h4
    exact hpq (h2.2.mono hle)
  · have hsub : ∀ e ∈ c.edges, e ∈ G.edgeSet := by
      intro e hec
      have h1 := c.edges_subset_edgeSet hec
      rw [SimpleGraph.edgeSet_sup] at h1
      rcases h1 with h1 | h1
      · exact h1
      · rw [SimpleGraph.edgeSet_fromEdgeSet] at h1
        rcases h1 with ⟨h2, -⟩
        rw [Set.mem_singleton_iff] at h2
        exact absurd (h2 ▸ hec) he
    exact hG (c.transfer G hsub) (hc.transfer hsub)

/-- Inductively grown spanning trees: start from a single root vertex and the
empty graph, and repeatedly attach one fresh vertex by one edge. -/
inductive GrowsTree {V : Type _} [DecidableEq V] : Finset V → SimpleGraph V → Prop
  | base (root : V) : GrowsTree {root} ⊥
  | step {S : Finset V} {G : SimpleGraph V} (p q : V) :
      GrowsTree S G → p ∈ S → q ∉ S →
      GrowsTree (insert q S) (G ⊔ SimpleGraph.fromEdgeSet {s(p, q)})

theorem GrowsTree.master {V : Type _} [DecidableEq V] {S : Finset V} {G : SimpleGraph V}
    (h : GrowsTree S G) :
    (∀ a b, G.Adj a b → a ∈ S ∧ b ∈ S) ∧ G.IsAcyclic ∧
      (∀ a b, a ∈ S → b ∈ S → G.Reachable a b) := by
  induction h with
  | base root =>
    refine ⟨fun a b hab => absurd hab (by simp), ?_, ?_⟩
    · intro v c hc
      exact hc.ne_bot rfl
    · intro a b ha hb
      rw [Finset.mem_singleton] at ha hb
      rw [ha, hb]
  | @step S G p q hgrow hp hq ih =>
    obtain ⟨ihE, ihA, ihR⟩ := ih
    have hpq : p ≠ q := fun he => hq (he ▸ hp)
    have hadjpq : (SimpleGraph.fromEdgeSet {s(p, q)}).Adj p q := by
      rw [SimpleGraph.fromEdgeSet_adj]
      exact ⟨rfl, hpq⟩
    refine ⟨?_, ?_, ?_⟩
    · intro a b hab
      rw [SimpleGraph.sup_adj] at hab
      rcases hab with hab | hab
      · have := ihE a b hab
        exact ⟨Finset.mem_insert_of_mem this.1, Finset.mem_insert_of_mem this.2⟩
      · rw [SimpleGraph.fromEdgeSet_adj, Set.mem_singleton_iff, Sym2.eq_iff] at hab
        rcases hab with ⟨⟨rfl, rfl⟩ | ⟨rfl, rfl⟩, -⟩
        · exact ⟨Finset.mem_insert_of_mem hp, Finset.mem_insert_self _ _⟩
        · exact ⟨Finset.mem_insert_self _ _, Finset.mem_insert_of_mem hp⟩
    · refine addEdge_isAcyclic ?_ ihA
      intro hreach
      exact hpq (reachable_eq_of_no_incident ihE hq hreach.symm)
    · have hle : G ≤ G ⊔ SimpleGraph.fromEdgeSet {s(p, q)} := le_sup_left
      intro a b ha hb
      rw [Finset.mem_insert] at ha hb
      have reachQ : ∀ x, x ∈ S →
          (G ⊔ SimpleGraph.fromEdgeSet {s(p, q)}).Reachable q x := by
        intro x hx
        have h1 : (G ⊔ SimpleGraph.fromEdgeSet {s(p, q)}).Adj q p := by
          rw [SimpleGraph.sup_adj]
          exact Or.inr hadjpq.symm
        exact h1.reachable.trans ((ihR p x hp hx).mono hle)
      rcases ha with rfl | ha
      · rcases hb with rfl | hb
        · exact SimpleGraph.Reachable.refl _
        · exact reachQ b hb
      · rcases hb with rfl | hb
        · exact (reachQ a ha).symm
        · exact (ihR a b ha hb).mono hle

/-- Lattice closure: a set of maze cells containing the origin and closed
under lattice adjacency is the whole sublattice. -/
theorem closed_eq_cellFinset {rows cols : ℕ} {S : Finset Pos}
    (hsub : S ⊆ cellFinset rows cols) (h0 : (0, 0) ∈ S)
    (hcl : ∀ p ∈ S, ∀ q ∈ cellFinset rows cols, Adj2 p q → q ∈ S) :
    S = cellFinset rows cols := by
  apply Finset.Subset.antisymm hsub
  intro p hp
  have key : ∀ n (p : Pos), p.1 + p.2 = n → p ∈ cellFinset rows cols → p ∈ S := by
    intro n
    induction n using Nat.strong_induction_on with
    | _ n ih =>
      intro p hpn hpc
      have hpb := mem_cellFinset.1 hpc
      by_cases h1 : 2 ≤ p.1
      · have hqc : (p.1 - 2, p.2) ∈ cellFinset rows cols := by
          rw [mem_cellFinset]
          constructor
          · omega
          · exact ⟨hpb.2.1, by omega, hpb.2.2.2⟩
        have hqS : (p.1 - 2, p.2) ∈ S := ih (n - 2) (by omega) _ (by simp; omega) hqc
        refine hcl _ hqS p hpc ?_
        unfold Adj2
        simp
        omega
      · by_cases h2 : 2 ≤ p.2
        · have hqc : (p.1, p.2 - 2) ∈ cellFinset rows cols := by
            rw [mem_cellFinset]
            exact ⟨hpb.1, by omega, hpb.2.2.1, by omega⟩
          have hqS : (p.1, p.2 - 2) ∈ S := ih (n - 2) (by omega) _ (by simp; omega) hqc
          refine hcl _ hqS p hpc ?_
          unfold Adj2
          simp
          omega
        · have hp0 : p = (0, 0) := by
            have h3 := hpb.2.2.1
            have h4 := hpb.2.2.2
            rcases p with ⟨p1, p2⟩
            simp only [Prod.mk.injEq]
            omega
          rw [hp0]
          exact h0
  exact key (p.1 + p.2) p rfl hp

/-! ## Shared neighbor scanning and random picking -/

/-- Candidate two-step neighbors of a position, scanned in the direction
order up, down, left, right used by every generator, with the same bound
checks (newRow and newCol at least 0 and below the dimension) and an extra
filtering predicate (unvisited for DFS and Prim frontier discovery, already
Walkable for the Prim in-maze neighbor scan). -/
def dirNbrs (rows cols : ℕ) (keep : Pos → Prop) [DecidablePred keep] (p : Pos) :
    List Pos :=
  (if 2 ≤ p.1 ∧ p.1 - 2 < rows ∧ p.2 < cols ∧ keep (p.1 - 2, p.2)
    then [(p.1 - 2, p.2)] else []) ++
  (if p.1 + 2 < rows ∧ p.2 < cols ∧ keep (p.1 + 2, p.2)
    then [(p.1 + 2, p.2)] else []) ++
  (if p.1 < rows ∧ 2 ≤ p.2 ∧ p.2 - 2 < cols ∧ keep (p.1, p.2 - 2)
    then [(p.1, p.2 - 2)] else []) ++
  (if p.1 < rows ∧ p.2 + 2 < cols ∧ keep (p.1, p.2 + 2)
    then [(p.1, p.2 + 2)] else [])

theorem mem_dirNbrs {rows cols : ℕ} {keep : Pos → Prop} [DecidablePred keep]
    {p : Pos} (hp1 : p.1 < rows) (hp2 : p.2 < cols) {q : Pos} :
    q ∈ dirNbrs rows cols keep p ↔
      Adj2 p q ∧ q.1 < rows ∧ q.2 < cols ∧ keep q := by
  unfold dirNbrs
  simp only [List.mem_append]
  constructor
  · intro h
    rcases h with ((h | h) | h) | h
    · split at h
      · rename_i hcond
        rw [List.mem_singleton] at h
        subst h
        obtain ⟨c1, c2, c3, c4⟩ := hcond
        exact ⟨Or.inr ⟨rfl, Or.inr (by omega)⟩, c2, c3, c4⟩
      · exact absurd h (List.not_mem_nil q)
    · split at h
      · rename_i hcond
        rw [List.mem_singleton] at h
        subst h
        obtain ⟨c1, c2, c4⟩ := hcond
        exact ⟨Or.inr ⟨rfl, Or.inl rfl⟩, c1, c2, c4⟩
      · exact absurd h (List.not_mem_nil q)
    · split at h
      · rename_i hcond
        rw [List.mem_singleton] at h
        subst h
        obtain ⟨c1, c2, c3, c4⟩ := hcond
        exact ⟨Or.inl ⟨rfl, Or.inr (by omega)⟩, c1, c3, c4⟩
      · exact absurd h (List.not_mem_nil q)
    · split at h
      · rename_i hcond
        rw [List.mem_singleton] at h
        subst h
        obtain ⟨c1, c2, c4⟩ := hcond
        exact ⟨Or.inl ⟨rfl, Or.inl rfl⟩, c1, c2, c4⟩
      · exact absurd h (List.not_mem_nil q)
  · rintro ⟨hadj, hq1, hq2, hkeep⟩
    rcases q with ⟨q1, q2⟩
    rcases p with ⟨p1, p2⟩
    unfold Adj2 at hadj
    dsimp only at hadj hq1 hq2 hp1 hp2 ⊢
    rcases hadj with ⟨h1, h2 | h2⟩ | ⟨h1, h2 | h2⟩
    · right
      have he : (p1, p2 + 2) = (q1, q2) := by rw [Prod.mk.injEq]; omega
      rw [if_pos ⟨hp1, by omega, he ▸ hkeep⟩, he, List.mem_singleton]
    · left; right
      have he : (p1, p2 - 2) = (q1, q2) := by rw [Prod.mk.injEq]; omega
      rw [if_pos ⟨hp1, by omega, by omega, he ▸ hkeep⟩, he, List.mem_singleton]
    · left; left; right
      have he : (p1 + 2, p2) = (q1, q2) := by rw [Prod.mk.injEq]; omega
      rw [if_pos ⟨by omega, hp2, he ▸ hkeep⟩, he, List.mem_singleton]
    · left; left; left
      have he : (p1 - 2, p2) = (q1, q2) := by rw [Prod.mk.injEq]; omega
      rw [if_pos ⟨by omega, by omega, hp2, he ▸ hkeep⟩, he, List.mem_singleton]

/-- Index into a nonempty list with an arbitrary natural number reduced
modulo the length, embedding list[Math.floor(Math.random() * list.length)]. -/
def pick (l : List Pos) (n : ℕ) : Pos := l.getD (n % l.length) (0, 0)

theorem pick_mem {l : List Pos} (h : l ≠ []) (n : ℕ) : pick l n ∈ l := by
  have hlen : 0 < l.length := List.length_pos.2 h
  have hlt : n % l.length < l.length := Nat.mod_lt _ hlen
  unfold pick
  rw [List.getD_eq_getElem _ _ hlt]
  exact List.getElem_mem _

/-! ## Shared update lemmas -/

theorem adj2_parity {p q : Pos} (h : Adj2 p q) (hp1 : p.1 % 2 = 0) (hp2 : p.2 % 2 = 0) :
    q.1 % 2 = 0 ∧ q.2 % 2 = 0 := by
  unfold Adj2 at h
  omega

theorem adj2_mem_cellFinset {rows cols : ℕ} {p q : Pos} (hp : p ∈ cellFinset rows cols)
    (h : Adj2 p q) (hq1 : q.1 < rows) (hq2 : q.2 < cols) : q ∈ cellFinset rows cols := by
  rw [mem_cellFinset] at hp ⊢
  have := adj2_parity h hp.2.2.1 hp.2.2.2
  exact ⟨hq1, hq2, this⟩

theorem cell_not_mid {rows cols : ℕ} {p : Pos} (hp1 : p.1 % 2 = 0) (hp2 : p.2 % 2 = 0) :
    p ∉ midFinset rows cols := by
  rw [mem_midFinset]
  omega

/-- Setting an even-even position does not change the opened midpoint set. -/
theorem openedMids_setCell_cell (rows cols : ℕ) (g : Pos → CellValue) {p : Pos}
    (hp1 : p.1 % 2 = 0) (hp2 : p.2 % 2 = 0) (v : CellValue) :
    openedMids rows cols (setCell g p v) = openedMids rows cols g := by
  unfold openedMids
  apply Finset.filter_congr
  intro m hm
  have hne : m ≠ p := by
    intro he
    exact cell_not_mid hp1 hp2 (he ▸ hm)
  rw [setCell_other _ _ _ _ hne]

/-- Opening an in-bounds midpoint adds exactly it to the opened midpoint set. -/
theorem openedMids_setCell_mid (rows cols : ℕ) (g : Pos → CellValue) {m : Pos}
    (hm : m ∈ midFinset rows cols) :
    openedMids rows cols (setCell g m 1) = insert m (openedMids rows cols g) := by
  unfold openedMids
  ext x
  rw [Finset.mem_insert, Finset.mem_filter, Finset.mem_filter]
  constructor
  · rintro ⟨hx, hv⟩
    by_cases he : x = m
    · exact Or.inl he
    · rw [setCell_other _ _ _ _ he] at hv
      exact Or.inr ⟨hx, hv⟩
  · rintro (rfl | ⟨hx, hv⟩)
    · exact ⟨hm, setCell_same _ _ _⟩
    · by_cases he : x = m
      · exact ⟨hx, he ▸ setCell_same _ _ _⟩
      · rw [setCell_other _ _ _ _ he]
        exact ⟨hx, hv⟩

/-- Lift a finset of positions to the cell-vertex subtype. -/
def liftF (rows cols : ℕ) (S : Finset Pos) : Finset (CellV rows cols) :=
  Finset.univ.filter fun a => a.1 ∈ S

theorem mem_liftF {rows cols : ℕ} {S : Finset Pos} {a : CellV rows cols} :
    a ∈ liftF rows cols S ↔ a.1 ∈ S := by
  simp [liftF]

theorem liftF_insert {rows cols : ℕ} {S : Finset Pos} {q : Pos}
    (hq : q ∈ cellFinset rows cols) :
    liftF rows cols (insert q S) = insert (⟨q, hq⟩ : CellV rows cols) (liftF rows cols S) := by
  ext a
  rw [mem_liftF, Finset.mem_insert, Finset.mem_insert, mem_liftF]
  constructor
  · rintro (h | h)
    · exact Or.inl (Subtype.ext h)
    · exact Or.inr h
  · rintro (rfl | h)
    · exact Or.inl rfl
    · exact Or.inr h

theorem liftF_singleton {rows cols : ℕ} {q : Pos} (hq : q ∈ cellFinset rows cols) :
    liftF rows cols {q} = {(⟨q, hq⟩ : CellV rows cols)} := by
  ext a
  rw [mem_liftF, Finset.mem_singleton, Finset.mem_singleton]
  constructor
  · exact fun h => Subtype.ext h
  · rintro rfl; rfl

/-- A midpoint opened in a state where every opened midpoint joins two cells
of a set S cannot be the midpoint between a member and a non-member. -/
theorem mid_fresh {rows cols : ℕ} {g : Pos → CellValue} {S : Finset Pos}
    (hmid : ∀ m ∈ openedMids rows cols g, ∃ p q, p ∈ S ∧ q ∈ S ∧
      p ∈ cellFinset rows cols ∧ q ∈ cellFinset rows cols ∧ Adj2 p q ∧ m = midOf p q)
    {c n : Pos} (hc : c ∈ cellFinset rows cols) (hn : n ∈ cellFinset rows cols)
    (hadj : Adj2 c n) (hnS : n ∉ S) : g (midOf c n) ≠ 1 := by
  intro hone
  have hmem : midOf c n ∈ openedMids rows cols g := by
    unfold openedMids
    rw [Finset.mem_filter]
    exact ⟨midOf_mem_midFinset hc hn hadj, hone⟩
  obtain ⟨p, q, hpS, hqS, hpc, hqc, hpq, he⟩ := hmid _ hmem
  have hcb := mem_cellFinset.1 hc
  have hnb := mem_cellFinset.1 hn
  have hpb := mem_cellFinset.1 hpc
  have hqb := mem_cellFinset.1 hqc
  have := midOf_inj hpb.2.2.1 hpb.2.2.2 hqb.2.2.1 hqb.2.2.2
    hcb.2.2.1 hcb.2.2.2 hnb.2.2.1 hnb.2.2.2 hpq hadj he.symm
  rcases this with ⟨h1, h2⟩ | ⟨h1, h2⟩
  · exact hnS (h2 ▸ hqS)
  · exact hnS (h2 ▸ hpS)

theorem one_le_adjDim {n : ℕ} (h : 1 ≤ n) : 1 ≤ adjDim n := by
  unfold adjDim
  split <;> omega

/-! ## Depth-first backtracker (generateMazeDFS) -/

/-- Mutable state of the DFS loop: the grid, the visited set, the explicit
stack, and the count of Math.random() calls made so far. -/
structure DFSState where
  g : Pos → CellValue
  vis : Finset Pos
  stack : List Pos
  k : ℕ

/-- One iteration of the DFS while loop: inspect the top of the stack; if it
has unvisited two-step neighbors, pick one at random, mark it Walkable and
visited, open the midpoint wall and push it; otherwise pop. -/
def dfsStep (rows cols : ℕ) (stream : ℕ → ℕ) (s : DFSState) : DFSState :=
  match s.stack with
  | [] => s
  | current :: rest =>
    let nbrs := dirNbrs rows cols (fun q => q ∉ s.vis) current
    if nbrs = [] then
      { s with stack := rest }
    else
      let next := pick nbrs (stream s.k)
      { g := setCell (setCell s.g next 1) (midOf current next) 1
        vis := insert next s.vis
        stack := next :: s.stack
        k := s.k + 1 }

/-- The DFS while loop, driven by sufficient fuel. -/
def dfsRun (rows cols : ℕ) (stream : ℕ → ℕ) : ℕ → DFSState → DFSState
  | 0, s => s
  | fuel + 1, s =>
    if s.stack = [] then s
    else dfsRun rows cols stream fuel (dfsStep rows cols stream s)

/-- Initial DFS state: all-Wall grid with the top-left maze cell opened,
visited and pushed. -/
def dfsInit : DFSState :=
  { g := setCell (fun _ => 0) (0, 0) 1
    vis := {(0, 0)}
    stack := [(0, 0)]
    k := 0 }

/-- Embedding of generateMazeDFS: adjust the dimensions, run the loop.  The
loop runs at most 2 * (number of maze cells) + 1 iterations, so the supplied
fuel is enough for the stack to empty (proved below). -/
def generateMazeDFS (size : GridSize) (stream : ℕ → ℕ) : Grid :=
  let rows := adjDim size.rows
  let cols := adjDim size.cols
  let sF := dfsRun rows cols stream (2 * rows * cols + 1) dfsInit
  { rows := rows, cols := cols, cell := sF.g }

/-- Loop invariant of the DFS generator: the visited cells are maze cells
containing the origin; the stack holds distinct visited cells; a maze cell is
Walkable exactly when visited; every opened midpoint joins two visited cells;
the opened midpoints number one less than the visited cells; the cell graph
is a grown tree on the visited cells; and cells that left the stack have all
their lattice neighbors visited. -/
structure DFSInv (rows cols : ℕ) (s : DFSState) : Prop where
  visSub : s.vis ⊆ cellFinset rows cols
  origin : (0, 0) ∈ s.vis
  stackVis : ∀ p ∈ s.stack, p ∈ s.vis
  stackNodup : s.stack.Nodup
  cellWalk : ∀ p ∈ cellFinset rows cols, (s.g p = 1 ↔ p ∈ s.vis)
  midVis : ∀ m ∈ openedMids rows cols s.g, ∃ p q, p ∈ s.vis ∧ q ∈ s.vis ∧
    p ∈ cellFinset rows cols ∧ q ∈ cellFinset rows cols ∧ Adj2 p q ∧ m = midOf p q
  midCount : (openedMids rows cols s.g).card + 1 = s.vis.card
  tree : GrowsTree (liftF rows cols s.vis) (mazeGraph rows cols s.g)
  closure : ∀ p ∈ s.vis, p ∉ s.stack → ∀ q ∈ cellFinset rows cols, Adj2 p q → q ∈ s.vis

/-- Termination measure of the DFS loop. -/
def dfsMeasure (rows cols : ℕ) (s : DFSState) : ℕ :=
  2 * ((cellFinset rows cols).card - s.vis.card) + s.stack.length

theorem dfsStep_spec (rows cols : ℕ) (stream : ℕ → ℕ) (s : DFSState)
    (hs : DFSInv rows cols s) (hne : s.stack ≠ []) :
    DFSInv rows cols (dfsStep rows cols stream s) ∧
      dfsMeasure rows cols (dfsStep rows cols stream s) < dfsMeasure rows cols s := by
  obtain ⟨current, rest, hstack⟩ : ∃ c r, s.stack = c :: r := by
    cases h : s.stack with
    | nil => exact absurd h hne
    | cons c r => exact ⟨c, r, rfl⟩
  have hcur_vis : current ∈ s.vis := hs.stackVis current (by rw [hstack]; exact List.mem_cons_self _ _)
  have hcur_cell : current ∈ cellFinset rows cols := hs.visSub hcur_vis
  have hcurb := mem_cellFinset.1 hcur_cell
  by_cases hnb : dirNbrs rows cols (fun q => q ∉ s.vis) current = []
  · have hstep : dfsStep rows cols stream s = { s with stack := rest } := by
      unfold dfsStep
      rw [hstack]
      dsimp only
      rw [if_pos hnb]
    rw [hstep]
    constructor
    · refine ⟨hs.visSub, hs.origin, ?_, ?_, hs.cellWalk, hs.midVis, hs.midCount, hs.tree, ?_⟩
      · intro p hp
        exact hs.stackVis p (by rw [hstack]; exact List.mem_cons_of_mem _ hp)
      · have := hs.stackNodup
        rw [hstack] at this
        exact this.of_cons
      · intro p hp hprest q hq hadj
        by_cases hpc : p = current
        · subst hpc
          by_contra hqvis
          have hqb := mem_cellFinset.1 hq
          have : q ∈ dirNbrs rows cols (fun x => x ∉ s.vis) p :=
            (mem_dirNbrs hcurb.1 hcurb.2.1).2 ⟨hadj, hqb.1, hqb.2.1, hqvis⟩
          rw [hnb] at this
          exact absurd this (List.not_mem_nil q)
        · apply hs.closure p hp _ q hq hadj
          rw [hstack]
          intro hmem
          rcases List.mem_cons.1 hmem with h | h
          · exact hpc h
          · exact hprest h
    · unfold dfsMeasure
      rw [hstack]
      dsimp only [List.length_cons]
      omega
  · have hstep : dfsStep rows cols stream s =
        { g := setCell (setCell s.g (pick (dirNbrs rows cols (fun q => q ∉ s.vis) current) (stream s.k)) 1)
            (midOf current (pick (dirNbrs rows cols (fun q => q ∉ s.vis) current) (stream s.k))) 1
          vis := insert (pick (dirNbrs rows cols (fun q => q ∉ s.vis) current) (stream s.k)) s.vis
          stack := pick (dirNbrs rows cols (fun q => q ∉ s.vis) current) (stream s.k) :: s.stack
          k := s.k + 1 } := by
      unfold dfsStep
      rw [hstack]
      dsimp only
      rw [if_neg hnb]
    set next := pick (dirNbrs rows cols (fun q => q ∉ s.vis) current) (stream s.k) with hnextdef
    have hnext_mem : next ∈ dirNbrs rows cols (fun q => q ∉ s.vis) current := pick_mem hnb _
    obtain ⟨hadj, hn1, hn2, hnvis⟩ := (mem_dirNbrs hcurb.1 hcurb.2.1).1 hnext_mem
    have hnext_cell : next ∈ cellFinset rows cols := adj2_mem_cellFinset hcur_cell hadj hn1 hn2
    have hnextb := mem_cellFinset.1 hnext_cell
    have hfresh : s.g (midOf current next) ≠ 1 :=
      mid_fresh hs.midVis hcur_cell hnext_cell hadj hnvis
    have hmidmem : midOf current next ∈ midFinset rows cols :=
      midOf_mem_midFinset hcur_cell hnext_cell hadj
    have hGeq : mazeGraph rows cols (setCell (setCell s.g next 1) (midOf current next) 1) =
        mazeGraph rows cols s.g ⊔
          SimpleGraph.fromEdgeSet {s((⟨current, hcur_cell⟩ : CellV rows cols), ⟨next, hnext_cell⟩)} := by
      rw [mazeGraph_setCell_mid rows cols (setCell s.g next 1)
        ⟨current, hcur_cell⟩ ⟨next, hnext_cell⟩ hadj,
        mazeGraph_setCell_cell rows cols s.g hnextb.2.2.1 hnextb.2.2.2 1]
      rfl
    have hMeq : openedMids rows cols (setCell (setCell s.g next 1) (midOf current next) 1) =
        insert (midOf current next) (openedMids rows cols s.g) := by
      rw [openedMids_setCell_mid rows cols _ hmidmem,
        openedMids_setCell_cell rows cols s.g hnextb.2.2.1 hnextb.2.2.2 1]
    have hmid_not_open : midOf current next ∉ openedMids rows cols s.g := by
      intro hmem
      exact hfresh ((Finset.mem_filter.1 hmem).2)
    have hviscard : (insert next s.vis).card = s.vis.card + 1 :=
      Finset.card_insert_of_not_mem hnvis
    have hvisle : s.vis.card + 1 ≤ (cellFinset rows cols).card := by
      rw [← hviscard]
      exact Finset.card_le_card (Finset.insert_subset hnext_cell hs.visSub)
    rw [hstep]
    constructor
    · refine ⟨?_, Finset.mem_insert_of_mem hs.origin, ?_, ?_, ?_, ?_, ?_, ?_, ?_⟩
      · exact Finset.insert_subset hnext_cell hs.visSub
      · intro p hp
        rcases List.mem_cons.1 hp with rfl | hp
        · exact Finset.mem_insert_self _ _
        · exact Finset.mem_insert_of_mem (hs.stackVis p hp)
      · refine List.nodup_cons.2 ⟨?_, hs.stackNodup⟩
        intro hmem
        exact hnvis (hs.stackVis next hmem)
      · intro p hp
        dsimp only
        have hpb := mem_cellFinset.1 hp
        have hpmid : p ≠ midOf current next := by
          intro he
          have hodd := midOf_odd_coord hcurb.2.2.1 hcurb.2.2.2 hnextb.2.2.1 hnextb.2.2.2 hadj
          rw [← he] at hodd
          omega
        rw [setCell_other _ _ _ _ hpmid]
        unfold setCell
        by_cases hpn : p = next
        · subst hpn
          simp
        · rw [if_neg hpn, Finset.mem_insert]
          rw [hs.cellWalk p hp]
          constructor
          · exact Or.inr
          · rintro (rfl | h)
            · exact absurd rfl hpn
            · exact h
      · intro m hm
        dsimp only at hm ⊢
        rw [hMeq, Finset.mem_insert] at hm
        rcases hm with rfl | hm
        · exact ⟨current, next, Finset.mem_insert_of_mem hcur_vis, Finset.mem_insert_self _ _,
            hcur_cell, hnext_cell, hadj, rfl⟩
        · obtain ⟨p, q, h1, h2, h3, h4, h5, h6⟩ := hs.midVis m hm
          exact ⟨p, q, Finset.mem_insert_of_mem h1, Finset.mem_insert_of_mem h2, h3, h4, h5, h6⟩
      · dsimp only
        rw [hMeq, Finset.card_insert_of_not_mem hmid_not_open, hviscard]
        have := hs.midCount
        omega
      · dsimp only
        rw [hGeq, liftF_insert hnext_cell]
        exact GrowsTree.step _ _ hs.tree (mem_liftF.2 hcur_vis)
          (fun h => hnvis (mem_liftF.1 h))
      · intro p hp hpstack q hq hadjq
        have hpne : p ≠ next := by
          intro he
          exact hpstack (he ▸ List.mem_cons_self _ _)
        have hpvis : p ∈ s.vis := by
          rcases Finset.mem_insert.1 hp with he | h
          · exact absurd he hpne
          · exact h
        refine Finset.mem_insert_of_mem (hs.closure p hpvis ?_ q hq hadjq)
        intro hmem
        exact hpstack (List.mem_cons_of_mem _ hmem)
    · unfold dfsMeasure
      dsimp only
      rw [hviscard, hstack]
      dsimp only [List.length_cons]
      omega

theorem dfsRun_spec (rows cols : ℕ) (stream : ℕ → ℕ) :
    ∀ (fuel : ℕ) (s : DFSState), DFSInv rows cols s → dfsMeasure rows cols s ≤ fuel →
      DFSInv rows cols (dfsRun rows cols stream fuel s) ∧
        (dfsRun rows cols stream fuel s).stack = [] := by
  intro fuel
  induction fuel with
  | zero =>
    intro s hs hm
    have : s.stack.length = 0 := by
      unfold dfsMeasure at hm
      omega
    exact ⟨hs, List.length_eq_zero.1 this⟩
  | succ n ih =>
    intro s hs hm
    unfold dfsRun
    by_cases hst : s.stack = []
    · rw [if_pos hst]
      exact ⟨hs, hst⟩
    · rw [if_neg hst]
      obtain ⟨hinv, hlt⟩ := dfsStep_spec rows cols stream s hs hst
      exact ih _ hinv (by omega)

theorem dfsInit_inv (rows cols : ℕ) (hr : 1 ≤ rows) (hc : 1 ≤ cols) :
    DFSInv rows cols dfsInit := by
  have h00 : (0, 0) ∈ cellFinset rows cols := by
    rw [mem_cellFinset]
    exact ⟨hr, hc, rfl, rfl⟩
  have hgbot : mazeGraph rows cols dfsInit.g = ⊥ := by
    ext a b
    rw [mazeGraph_adj]
    simp only [SimpleGraph.bot_adj, iff_false, not_and]
    intro hadj
    have hodd := midOf_odd_coord (mem_cellFinset.1 a.2).2.2.1 (mem_cellFinset.1 a.2).2.2.2
      (mem_cellFinset.1 b.2).2.2.1 (mem_cellFinset.1 b.2).2.2.2 hadj
    show setCell (fun _ => 0) (0, 0) 1 (midOf a.1 b.1) ≠ 1
    have hne : midOf a.1 b.1 ≠ (0, 0) := by
      intro he
      rw [he] at hodd
      omega
    rw [setCell_other _ _ _ _ hne]
    simp
  have hmids : openedMids rows cols dfsInit.g = ∅ := by
    unfold openedMids
    rw [Finset.filter_eq_empty_iff]
    intro m hm
    have hb := mem_midFinset.1 hm
    have hne : m ≠ (0, 0) := by
      intro he
      rw [he] at hb
      omega
    show ¬setCell (fun _ => 0) (0, 0) 1 m = 1
    rw [setCell_other _ _ _ _ hne]
    simp
  refine ⟨?_, ?_, ?_, ?_, ?_, ?_, ?_, ?_, ?_⟩
  · intro p hp
    have hp2 : p ∈ ({(0, 0)} : Finset Pos) := hp
    rw [Finset.mem_singleton] at hp2
    exact hp2 ▸ h00
  · exact Finset.mem_singleton_self _
  · intro p hp
    rcases List.mem_cons.1 hp with rfl | hp
    · exact Finset.mem_singleton_self _
    · exact absurd hp (List.not_mem_nil p)
  · exact List.nodup_singleton _
  · intro p hp
    show setCell (fun _ => 0) (0, 0) 1 p = 1 ↔ p ∈ ({(0, 0)} : Finset Pos)
    unfold setCell
    by_cases he : p = (0, 0)
    · subst he
      simp
    · rw [if_neg he, Finset.mem_singleton]
      constructor
      · intro h
        simp at h
      · exact fun h => absurd h he
  · intro m hm
    rw [hmids] at hm
    exact absurd hm (Finset.not_mem_empty m)
  · rw [hmids]
    show 0 + 1 = ({(0, 0)} : Finset Pos).card
    simp
  · show GrowsTree (liftF rows cols {(0, 0)}) (mazeGraph rows cols dfsInit.g)
    rw [hgbot, liftF_singleton h00]
    exact GrowsTree.base _
  · intro p hp hpstack
    have hp2 : p ∈ ({(0, 0)} : Finset Pos) := hp
    rw [Finset.mem_singleton] at hp2
    exfalso
    apply hpstack
    show p ∈ [(0, 0)]
    rw [hp2]
    exact List.mem_cons_self _ _

/-- Master correctness of the DFS generator: for every positive requested
size and every random stream, every maze cell is Walkable, the cell graph is
connected and acyclic, and the opened midpoints number one less than the
maze cells. -/
theorem generateMazeDFS_perfect (size : GridSize) (stream : ℕ → ℕ)
    (hr : 1 ≤ size.rows) (hc : 1 ≤ size.cols) :
    (∀ p ∈ cellFinset (generateMazeDFS size stream).rows (generateMazeDFS size stream).cols,
      (generateMazeDFS size stream).cell p = 1) ∧
    (mazeGraph (generateMazeDFS size stream).rows (generateMazeDFS size stream).cols
      (generateMazeDFS size stream).cell).Connected ∧
    (mazeGraph (generateMazeDFS size stream).rows (generateMazeDFS size stream).cols
      (generateMazeDFS size stream).cell).IsAcyclic ∧
    (openedMids (generateMazeDFS size stream).rows (generateMazeDFS size stream).cols
      (generateMazeDFS size stream).cell).card + 1 =
      (cellFinset (generateMazeDFS size stream).rows (generateMazeDFS size stream).cols).card := by
  set rows := adjDim size.rows with hrowsdef
  set cols := adjDim size.cols with hcolsdef
  have hr1 : 1 ≤ rows := one_le_adjDim hr
  have hc1 : 1 ≤ cols := one_le_adjDim hc
  have hinit := dfsInit_inv rows cols hr1 hc1
  have hfuel : dfsMeasure rows cols dfsInit ≤ 2 * rows * cols + 1 := by
    unfold dfsMeasure dfsInit
    have hcard : (cellFinset rows cols).card ≤ rows * cols := by
      calc (cellFinset rows cols).card
          ≤ (Finset.range rows ×ˢ Finset.range cols).card := Finset.card_filter_le _ _
        _ = rows * cols := by rw [Finset.card_product, Finset.card_range, Finset.card_range]
    dsimp only [List.length_cons, List.length_nil]
    rw [Finset.card_singleton]
    have h2 : 2 * rows * cols = 2 * (rows * cols) := by ring
    rw [h2]
    omega
  obtain ⟨hfin, hstack⟩ := dfsRun_spec rows cols stream (2 * rows * cols + 1) dfsInit hinit hfuel
  set sF := dfsRun rows cols stream (2 * rows * cols + 1) dfsInit with hsF
  have hGr : generateMazeDFS size stream = { rows := rows, cols := cols, cell := sF.g } := rfl
  have hviscells : sF.vis = cellFinset rows cols := by
    apply closed_eq_cellFinset hfin.visSub hfin.origin
    intro p hp q hq hadj
    exact hfin.closure p hp (by rw [hstack]; exact List.not_mem_nil p) q hq hadj
  obtain ⟨hedges, hacy, hreach⟩ := hfin.tree.master
  rw [hGr]
  dsimp only
  refine ⟨?_, ?_, hacy, ?_⟩
  · intro p hp
    rw [hfin.cellWalk p hp, hviscells]
    exact hp
  · rw [SimpleGraph.connected_iff]
    refine ⟨?_, ?_⟩
    · intro a b
      exact hreach a b (mem_liftF.2 (by rw [hviscells]; exact a.2))
        (mem_liftF.2 (by rw [hviscells]; exact b.2))
    · exact ⟨⟨(0, 0), by rw [mem_cellFinset]; exact ⟨hr1, hc1, rfl, rfl⟩⟩⟩
  · have := hfin.midCount
    rw [hviscells] at this
    exact this

/-! ## Randomized Prim generator (generateMazePrim) -/

/-- Mutable state of the Prim loop: grid, visited (discovered) set, frontier
array, and the count of Math.random() calls so far. -/
structure PrimState where
  g : Pos → CellValue
  vis : Finset Pos
  frontier : List Pos
  k : ℕ

/-- Embedding of addFrontiers: append every in-bounds unvisited two-step
neighbor of p to the frontier and mark it visited.  The four candidates are
pairwise distinct positions, so marking them one at a time as the source
does is the same as adding them all at once. -/
def addFrontiers (rows cols : ℕ) (p : Pos) (s : PrimState) : PrimState :=
  let new := dirNbrs rows cols (fun q => q ∉ s.vis) p
  { s with frontier := s.frontier ++ new, vis := s.vis ∪ new.toFinset }

/-- One iteration of the Prim while loop: remove a random frontier cell;
if it has an already-Walkable two-step neighbor, choose one at random, open
the cell and the connecting midpoint, and discover its own unvisited
neighbors; otherwise skip it without touching the grid. -/
def primStep (rows cols : ℕ) (stream : ℕ → ℕ) (s : PrimState) : PrimState :=
  if s.frontier = [] then s
  else
    let idx := stream s.k % s.frontier.length
    let current := s.frontier.getD idx (0, 0)
    let rest := s.frontier.eraseIdx idx
    let s1 : PrimState := { s with frontier := rest, k := s.k + 1 }
    let nbrs := dirNbrs rows cols (fun q => s.g q = 1) current
    if nbrs = [] then s1
    else
      let neighbor := pick nbrs (stream s1.k)
      addFrontiers rows cols current
        { s1 with
          g := setCell (setCell s1.g current 1) (midOf current neighbor) 1
          k := s1.k + 1 }

/-- The Prim while loop, driven by sufficient fuel. -/
def primRun (rows cols : ℕ) (stream : ℕ → ℕ) : ℕ → PrimState → PrimState
  | 0, s => s
  | fuel + 1, s =>
    if s.frontier = [] then s
    else primRun rows cols stream fuel (primStep rows cols stream s)

/-- Initial Prim state: all-Wall grid with the origin opened and visited and
its neighbors discovered. -/
def primInit (rows cols : ℕ) : PrimState :=
  addFrontiers rows cols (0, 0)
    { g := setCell (fun _ => 0) (0, 0) 1
      vis := {(0, 0)}
      frontier := []
      k := 0 }

/-- Embedding of generateMazePrim. -/
def generateMazePrim (size : GridSize) (stream : ℕ → ℕ) : Grid :=
  let rows := adjDim size.rows
  let cols := adjDim size.cols
  let sF := primRun rows cols stream (2 * rows * cols + 1) (primInit rows cols)
  { rows := rows, cols := cols, cell := sF.g }

/-- Walkable maze cells of a grid. -/
def walkFinset (rows cols : ℕ) (g : Pos → CellValue) : Finset Pos :=
  (cellFinset rows cols).filter fun p => g p = 1

theorem mem_walkFinset {rows cols : ℕ} {g : Pos → CellValue} {p : Pos} :
    p ∈ walkFinset rows cols g ↔ p ∈ cellFinset rows cols ∧ g p = 1 :=
  Finset.mem_filter

theorem setCell_one_mono {g : Pos → CellValue} {p q : Pos} (h : g q = 1) :
    setCell g p 1 q = 1 := by
  unfold setCell
  split <;> simp [h]

/-- Decomposition facts for removing the element at a valid index from a
duplicate-free list. -/
theorem eraseIdx_facts {l : List Pos} {idx : ℕ} (h : idx < l.length) (hnd : l.Nodup) :
    l.getD idx (0, 0) ∈ l ∧
    l.getD idx (0, 0) ∉ l.eraseIdx idx ∧
    (∀ x ∈ l, x = l.getD idx (0, 0) ∨ x ∈ l.eraseIdx idx) ∧
    (∀ x ∈ l.eraseIdx idx, x ∈ l) ∧
    (l.eraseIdx idx).length + 1 = l.length ∧
    (l.eraseIdx idx).Nodup := by
  have hg : l.getD idx (0, 0) = l[idx] := List.getD_eq_getElem _ _ h
  have hdec : l.take idx ++ l[idx] :: l.drop (idx + 1) = l := by
    rw [← List.drop_eq_getElem_cons h, List.take_append_drop]
  have herase : l.eraseIdx idx = l.take idx ++ l.drop (idx + 1) :=
    List.eraseIdx_eq_take_drop_succ l idx
  have hnd2 : (l.take idx ++ l[idx] :: l.drop (idx + 1)).Nodup := by rw [hdec]; exact hnd
  rw [List.nodup_append] at hnd2
  obtain ⟨hnd_take, hnd_cons, hdisj⟩ := hnd2
  rw [List.nodup_cons] at hnd_cons
  refine ⟨?_, ?_, ?_, ?_, ?_, ?_⟩
  · rw [hg]
    exact List.getElem_mem h
  · rw [hg, herase, List.mem_append]
    rintro (hmem | hmem)
    · exact hdisj hmem (List.mem_cons_self _ _)
    · exact hnd_cons.1 hmem
  · intro x hx
    rw [← hdec, List.mem_append, List.mem_cons] at hx
    rw [hg, herase, List.mem_append]
    rcases hx with hx | hx | hx
    · exact Or.inr (Or.inl hx)
    · exact Or.inl hx
    · exact Or.inr (Or.inr hx)
  · intro x hx
    exact List.mem_of_mem_eraseIdx hx
  · rw [List.length_eraseIdx_of_lt h]
    omega
  · exact hnd.sublist (List.eraseIdx_sublist l idx)

/-- The four direction candidates are pairwise distinct, so the neighbor
list is duplicate-free. -/
theorem dirNbrs_nodup (rows cols : ℕ) (keep : Pos → Prop) [DecidablePred keep] (p : Pos) :
    (dirNbrs rows cols keep p).Nodup := by
  unfold dirNbrs
  rcases p with ⟨p1, p2⟩
  dsimp only
  split <;> split <;> split <;> split <;>
    simp_all [List.Nodup, Prod.mk.injEq] <;> omega

/-- Loop invariant of the Prim generator: visited cells are maze cells; the
frontier holds distinct discovered-but-not-yet-Walkable cells, each with an
already-Walkable neighbor; Walkable cells are exactly the visited cells not
in the frontier; opened midpoints join Walkable cells and number one less
than them; the cell graph is a grown tree on the Walkable cells; and every
neighbor of a Walkable cell has been discovered. -/
structure PrimInv (rows cols : ℕ) (s : PrimState) : Prop where
  visSub : s.vis ⊆ cellFinset rows cols
  originW : (0, 0) ∈ walkFinset rows cols s.g
  frontVis : ∀ p ∈ s.frontier, p ∈ s.vis
  frontNodup : s.frontier.Nodup
  frontWall : ∀ p ∈ s.frontier, s.g p ≠ 1
  frontNbr : ∀ p ∈ s.frontier, ∃ q, Adj2 p q ∧ q.1 < rows ∧ q.2 < cols ∧ s.g q = 1
  walkVis : ∀ p ∈ cellFinset rows cols, s.g p = 1 → p ∈ s.vis
  visWalk : ∀ p ∈ s.vis, s.g p = 1 ∨ p ∈ s.frontier
  midVis : ∀ m ∈ openedMids rows cols s.g, ∃ p q, p ∈ walkFinset rows cols s.g ∧
    q ∈ walkFinset rows cols s.g ∧ p ∈ cellFinset rows cols ∧ q ∈ cellFinset rows cols ∧
    Adj2 p q ∧ m = midOf p q
  midCount : (openedMids rows cols s.g).card + 1 = (walkFinset rows cols s.g).card
  tree : GrowsTree (liftF rows cols (walkFinset rows cols s.g)) (mazeGraph rows cols s.g)
  closure : ∀ p ∈ walkFinset rows cols s.g, ∀ q ∈ cellFinset rows cols, Adj2 p q → q ∈ s.vis

/-- Termination measure of the Prim loop. -/
def primMeasure (rows cols : ℕ) (s : PrimState) : ℕ :=
  2 * ((cellFinset rows cols).card - s.vis.card) + s.frontier.length

theorem primStep_spec (rows cols : ℕ) (stream : ℕ → ℕ) (s : PrimState)
    (hs : PrimInv rows cols s) (hne : s.frontier ≠ []) :
    PrimInv rows cols (primStep rows cols stream s) ∧
      primMeasure rows cols (primStep rows cols stream s) < primMeasure rows cols s := by
  have hlen : 0 < s.frontier.length := List.length_pos.2 hne
  have hidx : stream s.k % s.frontier.length < s.frontier.length := Nat.mod_lt _ hlen
  obtain ⟨hcur_mem, hcur_notrest, hsplit, hrest_sub, hlen_rest, hnd_rest⟩ :=
    eraseIdx_facts hidx hs.frontNodup
  set idx := stream s.k % s.frontier.length with hidxdef
  set current := s.frontier.getD idx (0, 0) with hcurdef
  set rest := s.frontier.eraseIdx idx with hrestdef
  have hcur_vis : current ∈ s.vis := hs.frontVis current hcur_mem
  have hcur_cell : current ∈ cellFinset rows cols := hs.visSub hcur_vis
  have hcurb := mem_cellFinset.1 hcur_cell
  have hcur_wall : s.g current ≠ 1 := hs.frontWall current hcur_mem
  have hnbne : dirNbrs rows cols (fun q => s.g q = 1) current ≠ [] := by
    obtain ⟨q, hadj, h1, h2, hq1⟩ := hs.frontNbr current hcur_mem
    exact List.ne_nil_of_mem ((mem_dirNbrs hcurb.1 hcurb.2.1).2 ⟨hadj, h1, h2, hq1⟩)
  set neighbor := pick (dirNbrs rows cols (fun q => s.g q = 1) current) (stream (s.k + 1))
    with hnbdef
  obtain ⟨hadj, hnb1, hnb2, hnb_walk⟩ :=
    (mem_dirNbrs hcurb.1 hcurb.2.1).1 (pick_mem hnbne (stream (s.k + 1)))
  have hnb_cell : neighbor ∈ cellFinset rows cols := adj2_mem_cellFinset hcur_cell hadj hnb1 hnb2
  have hnbb := mem_cellFinset.1 hnb_cell
  set g2 := setCell (setCell s.g current 1) (midOf current neighbor) 1 with hg2def
  set new := dirNbrs rows cols (fun q => q ∉ s.vis) current with hnewdef
  have hstep : primStep rows cols stream s =
      { g := g2, vis := s.vis ∪ new.toFinset, frontier := rest ++ new, k := s.k + 1 + 1 } := by
    unfold primStep
    rw [if_neg hne]
    dsimp only
    rw [if_neg hnbne]
    rfl
  have hmono : ∀ q, s.g q = 1 → g2 q = 1 := by
    intro q hq
    exact setCell_one_mono (setCell_one_mono hq)
  have hg2cur : g2 current = 1 := by
    have hodd := midOf_odd_coord hcurb.2.2.1 hcurb.2.2.2 hnbb.2.2.1 hnbb.2.2.2 hadj
    have hne2 : current ≠ midOf current neighbor := by
      intro he
      rw [← he] at hodd
      omega
    rw [hg2def, setCell_other _ _ _ _ hne2, setCell_same]
  have hg2other : ∀ p, p ∈ cellFinset rows cols → p ≠ current → g2 p = s.g p := by
    intro p hp hpc
    have hpb := mem_cellFinset.1 hp
    have hodd := midOf_odd_coord hcurb.2.2.1 hcurb.2.2.2 hnbb.2.2.1 hnbb.2.2.2 hadj
    have hne2 : p ≠ midOf current neighbor := by
      intro he
      rw [← he] at hodd
      omega
    rw [hg2def, setCell_other _ _ _ _ hne2, setCell_other _ _ _ _ hpc]
  have hnb_walk2 : g2 neighbor = 1 := hmono _ hnb_walk
  have hwalk2 : walkFinset rows cols g2 = insert current (walkFinset rows cols s.g) := by
    ext p
    rw [mem_walkFinset, Finset.mem_insert, mem_walkFinset]
    constructor
    · rintro ⟨hp, hv⟩
      by_cases hpc : p = current
      · exact Or.inl hpc
      · rw [hg2other p hp hpc] at hv
        exact Or.inr ⟨hp, hv⟩
    · rintro (rfl | ⟨hp, hv⟩)
      · exact ⟨hcur_cell, hg2cur⟩
      · refine ⟨hp, ?_⟩
        by_cases hpc : p = current
        · exact hpc ▸ hg2cur
        · rw [hg2other p hp hpc]
          exact hv
  have hcur_notwalk : current ∉ walkFinset rows cols s.g := by
    rw [mem_walkFinset]
    rintro ⟨-, hv⟩
    exact hcur_wall hv
  have hmid_mem : midOf current neighbor ∈ midFinset rows cols :=
    midOf_mem_midFinset hcur_cell hnb_cell hadj
  have hfresh : s.g (midOf current neighbor) ≠ 1 := by
    have := mid_fresh hs.midVis hnb_cell hcur_cell hadj.symm hcur_notwalk
    rwa [midOf_comm] at this
  have hmids2 : openedMids rows cols g2 = insert (midOf current neighbor)
      (openedMids rows cols s.g) := by
    rw [hg2def, openedMids_setCell_mid rows cols _ hmid_mem,
      openedMids_setCell_cell rows cols s.g hcurb.2.2.1 hcurb.2.2.2 1]
  have hmid_notopen : midOf current neighbor ∉ openedMids rows cols s.g := by
    intro hmem
    exact hfresh (Finset.mem_filter.1 hmem).2
  have hGeq : mazeGraph rows cols g2 = mazeGraph rows cols s.g ⊔
      SimpleGraph.fromEdgeSet
        {s((⟨current, hcur_cell⟩ : CellV rows cols), ⟨neighbor, hnb_cell⟩)} := by
    rw [hg2def, mazeGraph_setCell_mid rows cols (setCell s.g current 1)
      ⟨current, hcur_cell⟩ ⟨neighbor, hnb_cell⟩ hadj,
      mazeGraph_setCell_cell rows cols s.g hcurb.2.2.1 hcurb.2.2.2 1]
    rfl
  have hnew_mem : ∀ q, q ∈ new ↔ Adj2 current q ∧ q.1 < rows ∧ q.2 < cols ∧ q ∉ s.vis := by
    intro q
    exact mem_dirNbrs hcurb.1 hcurb.2.1
  have hnew_cells : ∀ q ∈ new, q ∈ cellFinset rows cols := by
    intro q hq
    obtain ⟨ha, h1, h2, -⟩ := (hnew_mem q).1 hq
    exact adj2_mem_cellFinset hcur_cell ha h1 h2
  have hnew_novis : ∀ q ∈ new, q ∉ s.vis := by
    intro q hq
    exact ((hnew_mem q).1 hq).2.2.2
  have hnew_nodup : new.Nodup := dirNbrs_nodup rows cols _ current
  have hviscard : (s.vis ∪ new.toFinset).card = s.vis.card + new.length := by
    rw [Finset.card_union_of_disjoint, List.toFinset_card_of_nodup hnew_nodup]
    rw [Finset.disjoint_left]
    intro a ha hb
    exact hnew_novis a (List.mem_toFinset.1 hb) ha
  have hvissub2 : s.vis ∪ new.toFinset ⊆ cellFinset rows cols := by
    intro a ha
    rcases Finset.mem_union.1 ha with ha | ha
    · exact hs.visSub ha
    · exact hnew_cells a (List.mem_toFinset.1 ha)
  rw [hstep]
  constructor
  · refine ⟨hvissub2, ?_, ?_, ?_, ?_, ?_, ?_, ?_, ?_, ?_, ?_, ?_⟩
    · show (0, 0) ∈ walkFinset rows cols g2
      rw [hwalk2]
      exact Finset.mem_insert_of_mem hs.originW
    · intro p hp
      rcases List.mem_append.1 hp with hp | hp
      · exact Finset.mem_union_left _ (hs.frontVis p (hrest_sub p hp))
      · exact Finset.mem_union_right _ (List.mem_toFinset.2 hp)
    · refine List.Nodup.append hnd_rest hnew_nodup ?_
      intro a ha hb
      exact hnew_novis a hb (hs.frontVis a (hrest_sub a ha))
    · intro p hp
      show g2 p ≠ 1
      rcases List.mem_append.1 hp with hp | hp
      · have hpne : p ≠ current := by
          intro he
          exact hcur_notrest (he ▸ hp)
        have hpcell : p ∈ cellFinset rows cols := hs.visSub (hs.frontVis p (hrest_sub p hp))
        rw [hg2other p hpcell hpne]
        exact hs.frontWall p (hrest_sub p hp)
      · have hpne : p ≠ current := by
          intro he
          exact hnew_novis p hp (he ▸ hcur_vis)
        rw [hg2other p (hnew_cells p hp) hpne]
        intro hv
        exact hnew_novis p hp (hs.walkVis p (hnew_cells p hp) hv)
    · intro p hp
      rcases List.mem_append.1 hp with hp | hp
      · obtain ⟨q, h1, h2, h3, h4⟩ := hs.frontNbr p (hrest_sub p hp)
        exact ⟨q, h1, h2, h3, hmono q h4⟩
      · exact ⟨current, ((hnew_mem p).1 hp).1.symm, hcurb.1, hcurb.2.1, hg2cur⟩
    · intro p hp hv
      have : p ∈ walkFinset rows cols g2 := mem_walkFinset.2 ⟨hp, hv⟩
      rw [hwalk2] at this
      rcases Finset.mem_insert.1 this with rfl | hw
      · exact Finset.mem_union_left _ hcur_vis
      · exact Finset.mem_union_left _ (hs.walkVis p ((mem_walkFinset.1 hw).1)
          ((mem_walkFinset.1 hw).2))
    · intro p hp
      rcases Finset.mem_union.1 hp with hp | hp
      · rcases hs.visWalk p hp with hv | hf
        · exact Or.inl (hmono p hv)
        · rcases hsplit p hf with rfl | hr
          · exact Or.inl hg2cur
          · exact Or.inr (List.mem_append.2 (Or.inl hr))
      · exact Or.inr (List.mem_append.2 (Or.inr (List.mem_toFinset.1 hp)))
    · intro m hm
      rw [hmids2, Finset.mem_insert] at hm
      rcases hm with rfl | hm
      · refine ⟨current, neighbor, ?_, ?_, hcur_cell, hnb_cell, hadj, rfl⟩
        · rw [hwalk2]
          exact Finset.mem_insert_self _ _
        · rw [hwalk2]
          exact Finset.mem_insert_of_mem (mem_walkFinset.2 ⟨hnb_cell, hnb_walk⟩)
      · obtain ⟨p, q, h1, h2, h3, h4, h5, h6⟩ := hs.midVis m hm
        refine ⟨p, q, ?_, ?_, h3, h4, h5, h6⟩
        · rw [hwalk2]
          exact Finset.mem_insert_of_mem h1
        · rw [hwalk2]
          exact Finset.mem_insert_of_mem h2
    · rw [hmids2, hwalk2, Finset.card_insert_of_not_mem hmid_notopen,
        Finset.card_insert_of_not_mem hcur_notwalk]
      have := hs.midCount
      omega
    · rw [hGeq, hwalk2, liftF_insert hcur_cell]
      have hswap : ({s((⟨current, hcur_cell⟩ : CellV rows cols), ⟨neighbor, hnb_cell⟩)} :
          Set (Sym2 (CellV rows cols))) =
          {s((⟨neighbor, hnb_cell⟩ : CellV rows cols), ⟨current, hcur_cell⟩)} := by
        rw [Sym2.eq_swap]
      rw [hswap]
      exact GrowsTree.step _ _ hs.tree
        (mem_liftF.2 (mem_walkFinset.2 ⟨hnb_cell, hnb_walk⟩))
        (fun h => hcur_notwalk (mem_liftF.1 h))
    · intro p hp q hq hadjq
      rw [hwalk2] at hp
      rcases Finset.mem_insert.1 hp with rfl | hp
      · by_cases hqv : q ∈ s.vis
        · exact Finset.mem_union_left _ hqv
        · refine Finset.mem_union_right _ (List.mem_toFinset.2 ?_)
          rw [hnew_mem q]
          have hqb := mem_cellFinset.1 hq
          exact ⟨hadjq, hqb.1, hqb.2.1, hqv⟩
      · exact Finset.mem_union_left _ (hs.closure p hp q hq hadjq)
  · unfold primMeasure
    dsimp only
    rw [hviscard, List.length_append]
    have hle : s.vis.card + new.length ≤ (cellFinset rows cols).card := by
      rw [← hviscard]
      exact Finset.card_le_card hvissub2
    omega

theorem primRun_spec (rows cols : ℕ) (stream : ℕ → ℕ) :
    ∀ (fuel : ℕ) (s : PrimState), PrimInv rows cols s → primMeasure rows cols s ≤ fuel →
      PrimInv rows cols (primRun rows cols stream fuel s) ∧
        (primRun rows cols stream fuel s).frontier = [] := by
  intro fuel
  induction fuel with
  | zero =>
    intro s hs hm
    have : s.frontier.length = 0 := by
      unfold primMeasure at hm
      omega
    exact ⟨hs, List.length_eq_zero.1 this⟩
  | succ n ih =>
    intro s hs hm
    unfold primRun
    by_cases hst : s.frontier = []
    · rw [if_pos hst]
      exact ⟨hs, hst⟩
    · rw [if_neg hst]
      obtain ⟨hinv, hlt⟩ := primStep_spec rows cols stream s hs hst
      exact ih _ hinv (by omega)

theorem initGrid_mids (rows cols : ℕ) :
    openedMids rows cols (setCell (fun _ => 0) (0, 0) 1) = ∅ := by
  unfold openedMids
  rw [Finset.filter_eq_empty_iff]
  intro m hm
  have hb := mem_midFinset.1 hm
  have hne : m ≠ (0, 0) := by
    intro he
    rw [he] at hb
    omega
  show ¬setCell (fun _ => 0) (0, 0) 1 m = 1
  rw [setCell_other _ _ _ _ hne]
  simp

theorem initGrid_graph (rows cols : ℕ) :
    mazeGraph rows cols (setCell (fun _ => 0) (0, 0) 1) = ⊥ := by
  ext a b
  rw [mazeGraph_adj]
  simp only [SimpleGraph.bot_adj, iff_false, not_and]
  intro hadj
  have hodd := midOf_odd_coord (mem_cellFinset.1 a.2).2.2.1 (mem_cellFinset.1 a.2).2.2.2
    (mem_cellFinset.1 b.2).2.2.1 (mem_cellFinset.1 b.2).2.2.2 hadj
  have hne : midOf a.1 b.1 ≠ (0, 0) := by
    intro he
    rw [he] at hodd
    omega
  rw [setCell_other _ _ _ _ hne]
  simp

theorem primInit_inv (rows cols : ℕ) (hr : 1 ≤ rows) (hc : 1 ≤ cols) :
    PrimInv rows cols (primInit rows cols) := by
  have h00 : (0, 0) ∈ cellFinset rows cols := by
    rw [mem_cellFinset]
    exact ⟨hr, hc, rfl, rfl⟩
  set g0 := setCell (fun _ : Pos => 0) (0, 0) 1 with hg0
  set new0 := dirNbrs rows cols (fun q => q ∉ ({(0, 0)} : Finset Pos)) (0, 0) with hn0
  have hinit : primInit rows cols =
      { g := g0, vis := {(0, 0)} ∪ new0.toFinset, frontier := [] ++ new0, k := 0 } := rfl
  have hg00 : g0 (0, 0) = 1 := by rw [hg0, setCell_same]
  have hg0other : ∀ p : Pos, p ≠ (0, 0) → g0 p = 0 := by
    intro p hp
    rw [hg0, setCell_other _ _ _ _ hp]
  have hwalk0 : walkFinset rows cols g0 = {(0, 0)} := by
    ext p
    rw [mem_walkFinset, Finset.mem_singleton]
    constructor
    · rintro ⟨hp, hv⟩
      by_contra hne
      rw [hg0other p hne] at hv
      exact absurd hv (by decide)
    · rintro rfl
      exact ⟨h00, hg00⟩
  have hnew_mem : ∀ q, q ∈ new0 ↔
      Adj2 (0, 0) q ∧ q.1 < rows ∧ q.2 < cols ∧ q ∉ ({(0, 0)} : Finset Pos) := by
    intro q
    exact mem_dirNbrs hr hc
  have hnew_cells : ∀ q ∈ new0, q ∈ cellFinset rows cols := by
    intro q hq
    obtain ⟨ha, h1, h2, -⟩ := (hnew_mem q).1 hq
    exact adj2_mem_cellFinset h00 ha h1 h2
  have hnew_ne : ∀ q ∈ new0, q ≠ (0, 0) := by
    intro q hq he
    exact ((hnew_mem q).1 hq).2.2.2 (by rw [he]; exact Finset.mem_singleton_self _)
  rw [hinit]
  refine ⟨?_, ?_, ?_, ?_, ?_, ?_, ?_, ?_, ?_, ?_, ?_, ?_⟩
  · intro p hp
    rcases Finset.mem_union.1 hp with hp | hp
    · rw [Finset.mem_singleton] at hp
      exact hp ▸ h00
    · exact hnew_cells p (List.mem_toFinset.1 hp)
  · show (0, 0) ∈ walkFinset rows cols g0
    rw [hwalk0]
    exact Finset.mem_singleton_self _
  · intro p hp
    rw [List.nil_append] at hp
    exact Finset.mem_union_right _ (List.mem_toFinset.2 hp)
  · show ([] ++ new0).Nodup
    rw [List.nil_append]
    exact dirNbrs_nodup rows cols _ _
  · intro p hp
    rw [List.nil_append] at hp
    show g0 p ≠ 1
    rw [hg0other p (hnew_ne p hp)]
    decide
  · intro p hp
    rw [List.nil_append] at hp
    exact ⟨(0, 0), ((hnew_mem p).1 hp).1.symm, hr, hc, hg00⟩
  · intro p hp hv
    show p ∈ {(0, 0)} ∪ new0.toFinset
    have : p ∈ walkFinset rows cols g0 := mem_walkFinset.2 ⟨hp, hv⟩
    rw [hwalk0] at this
    exact Finset.mem_union_left _ this
  · intro p hp
    rcases Finset.mem_union.1 hp with hp | hp
    · rw [Finset.mem_singleton] at hp
      exact Or.inl (hp ▸ hg00)
    · exact Or.inr (by rw [List.nil_append]; exact List.mem_toFinset.1 hp)
  · intro m hm
    have : m ∈ (∅ : Finset Pos) := by
      rw [← initGrid_mids rows cols]
      exact hm
    exact absurd this (Finset.not_mem_empty m)
  · show (openedMids rows cols g0).card + 1 = (walkFinset rows cols g0).card
    rw [hg0, initGrid_mids rows cols]
    rw [← hg0, hwalk0]
    simp
  · show GrowsTree (liftF rows cols (walkFinset rows cols g0)) (mazeGraph rows cols g0)
    rw [hwalk0, hg0, initGrid_graph rows cols, liftF_singleton h00]
    exact GrowsTree.base _
  · intro p hp q hq hadjq
    rw [hwalk0, Finset.mem_singleton] at hp
    subst hp
    have hqne : q ≠ (0, 0) := fun he => hadjq.ne he.symm
    refine Finset.mem_union_right _ (List.mem_toFinset.2 ?_)
    rw [hnew_mem q]
    have hqb := mem_cellFinset.1 hq
    refine ⟨hadjq, hqb.1, hqb.2.1, ?_⟩
    rw [Finset.mem_singleton]
    exact hqne

/-- Master correctness of the Prim generator. -/
theorem generateMazePrim_perfect (size : GridSize) (stream : ℕ → ℕ)
    (hr : 1 ≤ size.rows) (hc : 1 ≤ size.cols) :
    (∀ p ∈ cellFinset (generateMazePrim size stream).rows (generateMazePrim size stream).cols,
      (generateMazePrim size stream).cell p = 1) ∧
    (mazeGraph (generateMazePrim size stream).rows (generateMazePrim size stream).cols
      (generateMazePrim size stream).cell).Connected ∧
    (mazeGraph (generateMazePrim size stream).rows (generateMazePrim size stream).cols
      (generateMazePrim size stream).cell).IsAcyclic ∧
    (openedMids (generateMazePrim size stream).rows (generateMazePrim size stream).cols
      (generateMazePrim size stream).cell).card + 1 =
      (cellFinset (generateMazePrim size stream).rows (generateMazePrim size stream).cols).card := by
  set rows := adjDim size.rows with hrowsdef
  set cols := adjDim size.cols with hcolsdef
  have hr1 : 1 ≤ rows := one_le_adjDim hr
  have hc1 : 1 ≤ cols := one_le_adjDim hc
  have hinit := primInit_inv rows cols hr1 hc1
  have hcard : (cellFinset rows cols).card ≤ rows * cols := by
    calc (cellFinset rows cols).card
        ≤ (Finset.range rows ×ˢ Finset.range cols).card := Finset.card_filter_le _ _
      _ = rows * cols := by rw [Finset.card_product, Finset.card_range, Finset.card_range]
  have hfuel : primMeasure rows cols (primInit rows cols) ≤ 2 * rows * cols + 1 := by
    unfold primMeasure
    have hsub := hinit.visSub
    have hmem : (0, 0) ∈ (primInit rows cols).vis := by
      have := hinit.originW
      rw [mem_walkFinset] at this
      exact hinit.walkVis _ this.1 this.2
    have hfl : (primInit rows cols).frontier.length + 1 ≤ (primInit rows cols).vis.card := by
      have hnd := hinit.frontNodup
      have hsub2 : insert (0, 0) (primInit rows cols).frontier.toFinset ⊆
          (primInit rows cols).vis := by
        intro a ha
        rcases Finset.mem_insert.1 ha with rfl | ha
        · exact hmem
        · exact hinit.frontVis a (List.mem_toFinset.1 ha)
      have h0f : (0, 0) ∉ (primInit rows cols).frontier.toFinset := by
        rw [List.mem_toFinset]
        intro hmem2
        have := hinit.frontWall _ hmem2
        have h2 := hinit.originW
        rw [mem_walkFinset] at h2
        exact this h2.2
      calc (primInit rows cols).frontier.length + 1
          = (primInit rows cols).frontier.toFinset.card + 1 := by
            rw [List.toFinset_card_of_nodup hnd]
        _ = (insert (0, 0) (primInit rows cols).frontier.toFinset).card := by
            rw [Finset.card_insert_of_not_mem h0f]
        _ ≤ (primInit rows cols).vis.card := Finset.card_le_card hsub2
    have hvc : (primInit rows cols).vis.card ≤ (cellFinset rows cols).card :=
      Finset.card_le_card hsub
    have h2 : 2 * rows * cols = 2 * (rows * cols) := by ring
    rw [h2]
    omega
  obtain ⟨hfin, hfront⟩ := primRun_spec rows cols stream (2 * rows * cols + 1)
    (primInit rows cols) hinit hfuel
  set sF := primRun rows cols stream (2 * rows * cols + 1) (primInit rows cols) with hsF
  have hGr : generateMazePrim size stream = { rows := rows, cols := cols, cell := sF.g } := rfl
  have hviswalk : sF.vis = walkFinset rows cols sF.g := by
    apply Finset.Subset.antisymm
    · intro p hp
      rcases hfin.visWalk p hp with hv | hf
      · exact mem_walkFinset.2 ⟨hfin.visSub hp, hv⟩
      · rw [hfront] at hf
        exact absurd hf (List.not_mem_nil p)
    · intro p hp
      rw [mem_walkFinset] at hp
      exact hfin.walkVis p hp.1 hp.2
  have hwalkcells : walkFinset rows cols sF.g = cellFinset rows cols := by
    apply closed_eq_cellFinset (Finset.filter_subset _ _) hfin.originW
    intro p hp q hq hadj
    show q ∈ walkFinset rows cols sF.g
    rw [← hviswalk]
    exact hfin.closure p hp q hq hadj
  obtain ⟨hedges, hacy, hreach⟩ := hfin.tree.master
  rw [hGr]
  dsimp only
  refine ⟨?_, ?_, hacy, ?_⟩
  · intro p hp
    rw [← hwalkcells, mem_walkFinset] at hp
    exact hp.2
  · rw [SimpleGraph.connected_iff]
    refine ⟨?_, ?_⟩
    · intro a b
      exact hreach a b (mem_liftF.2 (by rw [hwalkcells]; exact a.2))
        (mem_liftF.2 (by rw [hwalkcells]; exact b.2))
    · exact ⟨⟨(0, 0), by rw [mem_cellFinset]; exact ⟨hr1, hc1, rfl, rfl⟩⟩⟩
  · have := hfin.midCount
    rw [hwalkcells] at this
    exact this

/-! ## Binary-tree generator (generateMazeBinaryTree) -/

/-- Even indices below n in ascending order, matching a for loop with step 2. -/
def evensBelow (n : ℕ) : List ℕ := (List.range n).filter fun i => i % 2 = 0

theorem mem_evensBelow {n i : ℕ} : i ∈ evensBelow n ↔ i < n ∧ i % 2 = 0 := by
  simp [evensBelow]

theorem evensBelow_nodup (n : ℕ) : (evensBelow n).Nodup :=
  (List.nodup_range n).filter _

/-- Scan order of the binary-tree generator: row-major over the maze-cell
sublattice. -/
def btCells (rows cols : ℕ) : List Pos :=
  (evensBelow rows).bind fun r => (evensBelow cols).map fun c => (r, c)

theorem mem_btCells {rows cols : ℕ} {p : Pos} :
    p ∈ btCells rows cols ↔ p ∈ cellFinset rows cols := by
  rw [mem_cellFinset]
  unfold btCells
  rw [List.mem_bind]
  constructor
  · rintro ⟨r, hr, hp⟩
    rw [List.mem_map] at hp
    obtain ⟨c, hc, rfl⟩ := hp
    rw [mem_evensBelow] at hr hc
    exact ⟨hr.1, hc.1, hr.2, hc.2⟩
  · rintro ⟨h1, h2, h3, h4⟩
    refine ⟨p.1, mem_evensBelow.2 ⟨h1, h3⟩, ?_⟩
    rw [List.mem_map]
    exact ⟨p.2, mem_evensBelow.2 ⟨h2, h4⟩, rfl⟩

theorem btCells_nodup (rows cols : ℕ) : (btCells rows cols).Nodup := by
  unfold btCells
  rw [List.nodup_bind]
  refine ⟨?_, ?_⟩
  · intro r hr
    exact List.Nodup.map (fun a b h => by injection h) (evensBelow_nodup cols)
  · refine List.Pairwise.imp ?_ (evensBelow_nodup rows)
    intro a b hne p hp hp₂
    rw [List.mem_map] at hp hp₂
    obtain ⟨c, -, rfl⟩ := hp
    obtain ⟨c₂, -, he⟩ := hp₂
    injection he with h1 h2
    exact hne h1.symm

/-- Candidate neighbors of a maze cell in the binary-tree generator: up when
not in the first row, right when within bounds, in that order. -/
def btNeighbors (cols : ℕ) (p : Pos) : List Pos :=
  (if 0 < p.1 then [(p.1 - 2, p.2)] else []) ++
  (if p.2 + 2 < cols then [(p.1, p.2 + 2)] else [])

/-- One scan step of the binary-tree generator: open the cell; if it has
candidates, open the midpoint toward a random one. -/
def btStep (cols : ℕ) (stream : ℕ → ℕ) (st : (Pos → CellValue) × ℕ) (p : Pos) :
    (Pos → CellValue) × ℕ :=
  let g1 := setCell st.1 p 1
  let nbrs := btNeighbors cols p
  if nbrs = [] then (g1, st.2)
  else
    let nb := pick nbrs (stream st.2)
    (setCell g1 (midOf p nb) 1, st.2 + 1)

/-- Embedding of generateMazeBinaryTree. -/
def generateMazeBinaryTree (size : GridSize) (stream : ℕ → ℕ) : Grid :=
  let rows := adjDim size.rows
  let cols := adjDim size.cols
  let sF := (btCells rows cols).foldl (btStep cols stream) ((fun _ => 0), 0)
  { rows := rows, cols := cols, cell := sF.1 }

/-- Characterization of the binary-tree fold: some choice function, valid at
every scanned cell with candidates, describes exactly which positions are 1. -/
theorem btFold_char (cols : ℕ) (stream : ℕ → ℕ) :
    ∀ (L : List Pos), L.Nodup → ∀ (g0 : Pos → CellValue) (k0 : ℕ),
      ∃ choice : Pos → Pos,
        (∀ p ∈ L, btNeighbors cols p ≠ [] → choice p ∈ btNeighbors cols p) ∧
        ∀ x, ((L.foldl (btStep cols stream) (g0, k0)).1 x = 1 ↔
          g0 x = 1 ∨ x ∈ L ∨
            ∃ p ∈ L, btNeighbors cols p ≠ [] ∧ x = midOf p (choice p)) := by
  intro L
  induction L with
  | nil =>
    intro hnd g0 k0
    refine ⟨id, fun p hp => absurd hp (List.not_mem_nil p), ?_⟩
    intro x
    simp
  | cons p L ih =>
    intro hnd g0 k0
    rw [List.nodup_cons] at hnd
    by_cases hnb : btNeighbors cols p = []
    · have hstep : btStep cols stream (g0, k0) p = (setCell g0 p 1, k0) := by
        unfold btStep
        dsimp only
        rw [if_pos hnb]
      obtain ⟨choice, hvalid, hchar⟩ := ih hnd.2 (setCell g0 p 1) k0
      refine ⟨choice, ?_, ?_⟩
      · intro q hq hqnb
        rcases List.mem_cons.1 hq with rfl | hq
        · exact absurd hnb hqnb
        · exact hvalid q hq hqnb
      · intro x
        rw [List.foldl_cons, hstep, hchar x]
        unfold setCell
        constructor
        · rintro (hv | hv | hv)
          · split at hv
            · rename_i hxe
              exact Or.inr (Or.inl (List.mem_cons.2 (Or.inl hxe)))
            · exact Or.inl hv
          · exact Or.inr (Or.inl (List.mem_cons.2 (Or.inr hv)))
          · obtain ⟨q, hq, h1, h2⟩ := hv
            exact Or.inr (Or.inr ⟨q, List.mem_cons.2 (Or.inr hq), h1, h2⟩)
        · rintro (hv | hv | hv)
          · left
            split
            · rfl
            · exact hv
          · rcases List.mem_cons.1 hv with rfl | hv
            · left
              rw [if_pos rfl]
            · exact Or.inr (Or.inl hv)
          · obtain ⟨q, hq, h1, h2⟩ := hv
            rcases List.mem_cons.1 hq with rfl | hq
            · exact absurd hnb h1
            · exact Or.inr (Or.inr ⟨q, hq, h1, h2⟩)
    · have hstep : btStep cols stream (g0, k0) p =
          (setCell (setCell g0 p 1) (midOf p (pick (btNeighbors cols p) (stream k0))) 1,
            k0 + 1) := by
        unfold btStep
        dsimp only
        rw [if_neg hnb]
      set nb := pick (btNeighbors cols p) (stream k0) with hnbdef
      obtain ⟨choice, hvalid, hchar⟩ :=
        ih hnd.2 (setCell (setCell g0 p 1) (midOf p nb) 1) (k0 + 1)
      refine ⟨fun q => if q = p then nb else choice q, ?_, ?_⟩
      · intro q hq hqnb
        rcases List.mem_cons.1 hq with rfl | hq
        · dsimp only
          rw [if_pos rfl]
          exact pick_mem hnb _
        · have hqe : q ≠ p := fun he => hnd.1 (he ▸ hq)
          dsimp only
          rw [if_neg hqe]
          exact hvalid q hq hqnb
      · intro x
        rw [List.foldl_cons, hstep, hchar x]
        constructor
        · rintro (hv | hv | hv)
          · unfold setCell at hv
            split at hv
            · rename_i hxe
              exact Or.inr (Or.inr ⟨p, List.mem_cons_self _ _, hnb,
                by dsimp only; rw [if_pos rfl]; exact hxe⟩)
            · split at hv
              · rename_i hxe
                exact Or.inr (Or.inl (List.mem_cons.2 (Or.inl hxe)))
              · exact Or.inl hv
          · exact Or.inr (Or.inl (List.mem_cons.2 (Or.inr hv)))
          · obtain ⟨q, hq, h1, h2⟩ := hv
            have hqe : q ≠ p := fun he => hnd.1 (he ▸ hq)
            refine Or.inr (Or.inr ⟨q, List.mem_cons.2 (Or.inr hq), h1, ?_⟩)
            dsimp only
            rw [if_neg hqe]
            exact h2
        · rintro (hv | hv | hv)
          · left
            unfold setCell
            split
            · rfl
            · split
              · rfl
              · exact hv
          · rcases List.mem_cons.1 hv with rfl | hv
            · left
              unfold setCell
              have hxmid : x ≠ midOf x nb := by
                intro he
                have hmem := pick_mem hnb (stream k0)
                rw [← hnbdef] at hmem
                unfold btNeighbors at hmem
                rw [List.mem_append] at hmem
                unfold midOf at he
                rcases hmem with hm | hm <;>
                · split at hm
                  · rw [List.mem_singleton] at hm
                    rw [hm] at he
                    rw [Prod.mk.injEq] at he
                    rename_i hcond
                    omega
                  · exact absurd hm (List.not_mem_nil _)
              rw [if_neg hxmid, if_pos rfl]
            · exact Or.inr (Or.inl hv)
          · obtain ⟨q, hq, h1, h2⟩ := hv
            rcases List.mem_cons.1 hq with rfl | hq
            · dsimp only at h2
              rw [if_pos rfl] at h2
              left
              rw [h2]
              exact setCell_same _ _ _
            · have hqe : q ≠ p := fun he => hnd.1 (he ▸ hq)
              dsimp only at h2
              rw [if_neg hqe] at h2
              exact Or.inr (Or.inr ⟨q, hq, h1, h2⟩)

/-- Scan rank of a maze cell for the binary-tree structure argument: rows
top to bottom, columns right to left, so that every chosen neighbor (up or
right) has strictly smaller rank. -/
def btRank (cols : ℕ) (p : Pos) : ℕ := (cols + 1) * p.1 + (cols - p.2)

/-- The unique maze cell with no binary-tree candidates: first row, last
maze-cell column. -/
def btCorner (cols : ℕ) : Pos := (0, cols - 1)

theorem btCorner_mem (rows cols : ℕ) (hr : 1 ≤ rows) (hc : 1 ≤ cols)
    (hcodd : cols % 2 = 1) : btCorner cols ∈ cellFinset rows cols := by
  rw [mem_cellFinset]
  unfold btCorner
  refine ⟨hr, by omega, rfl, by omega⟩

theorem btNeighbors_eq_nil {rows cols : ℕ} {p : Pos} (hp : p ∈ cellFinset rows cols)
    (hcodd : cols % 2 = 1) : btNeighbors cols p = [] ↔ p = btCorner cols := by
  have hpb := mem_cellFinset.1 hp
  unfold btNeighbors btCorner
  constructor
  · intro h
    rw [List.append_eq_nil] at h
    obtain ⟨h1, h2⟩ := h
    have hc1 : ¬0 < p.1 := by
      intro hx
      rw [if_pos hx] at h1
      exact absurd h1 (by simp)
    have hc2 : ¬p.2 + 2 < cols := by
      intro hx
      rw [if_pos hx] at h2
      exact absurd h2 (by simp)
    rcases p with ⟨p1, p2⟩
    rw [Prod.mk.injEq]
    simp only at hc1 hc2 hpb ⊢
    omega
  · rintro rfl
    dsimp only
    rw [if_neg (by omega), if_neg (by omega), List.append_nil]

theorem btRank_div (cols : ℕ) (p : Pos) (hp2 : p.2 < cols) :
    btRank cols p / (cols + 1) = p.1 := by
  unfold btRank
  rw [Nat.mul_add_div (by omega), Nat.div_eq_of_lt (by omega)]
  omega

theorem btRank_mod (cols : ℕ) (p : Pos) (hp2 : p.2 < cols) :
    btRank cols p % (cols + 1) = cols - p.2 := by
  unfold btRank
  rw [Nat.mul_add_mod, Nat.mod_eq_of_lt (by omega)]

theorem btRank_inj {cols : ℕ} {p q : Pos} (hp2 : p.2 < cols) (hq2 : q.2 < cols)
    (h : btRank cols p = btRank cols q) : p = q := by
  have h1 : p.1 = q.1 := by
    rw [← btRank_div cols p hp2, ← btRank_div cols q hq2, h]
  have h2 : cols - p.2 = cols - q.2 := by
    rw [← btRank_mod cols p hp2, ← btRank_mod cols q hq2, h]
  rcases p with ⟨p1, p2⟩
  rcases q with ⟨q1, q2⟩
  rw [Prod.mk.injEq]
  simp only at h1 h2 hp2 hq2
  omega

theorem btRank_pos {cols : ℕ} {p : Pos} (hp2 : p.2 < cols) : 1 ≤ btRank cols p := by
  unfold btRank
  omega

theorem btRank_corner (cols : ℕ) (hc : 1 ≤ cols) : btRank cols (btCorner cols) = 1 := by
  unfold btRank btCorner
  simp only
  omega

theorem btRank_eq_one {cols : ℕ} {p : Pos} (hp2 : p.2 < cols) (hc : 1 ≤ cols)
    (h : btRank cols p = 1) : p = btCorner cols :=
  btRank_inj hp2 (by unfold btCorner; simp only; omega)
    (by rw [h, btRank_corner cols hc])

/-- Properties of a valid binary-tree choice at a non-corner cell. -/
theorem btChoice_spec {rows cols : ℕ} {choice : Pos → Pos} {p : Pos}
    (hp : p ∈ cellFinset rows cols) (hv : choice p ∈ btNeighbors cols p) :
    Adj2 p (choice p) ∧ choice p ∈ cellFinset rows cols ∧
      btRank cols (choice p) < btRank cols p ∧
      ((0 < p.1 ∧ choice p = (p.1 - 2, p.2)) ∨
        (p.2 + 2 < cols ∧ choice p = (p.1, p.2 + 2))) := by
  have hpb := mem_cellFinset.1 hp
  unfold btNeighbors at hv
  rw [List.mem_append] at hv
  rcases hv with hv | hv
  · split at hv
    · rename_i hcond
      rw [List.mem_singleton] at hv
      have hadj : Adj2 p (choice p) := by
        rw [hv]
        exact Or.inr ⟨rfl, Or.inr (by simp only; omega)⟩
      refine ⟨hadj, ?_, ?_, Or.inl ⟨hcond, hv⟩⟩
      · rw [mem_cellFinset, hv]
        simp only
        omega
      · rw [hv]
        unfold btRank
        simp only
        have hmul : (cols + 1) * (p.1 - 2) < (cols + 1) * p.1 :=
          Nat.mul_lt_mul_of_le_of_lt (Nat.le_refl _) (by omega) (by omega)
        omega
    · exact absurd hv (List.not_mem_nil _)
  · split at hv
    · rename_i hcond
      rw [List.mem_singleton] at hv
      have hadj : Adj2 p (choice p) := by
        rw [hv]
        exact Or.inl ⟨rfl, Or.inl (by simp only)⟩
      refine ⟨hadj, ?_, ?_, Or.inr ⟨hcond, hv⟩⟩
      · rw [mem_cellFinset, hv]
        simp only
        omega
      · rw [hv]
        unfold btRank
        simp only
        omega
    · exact absurd hv (List.not_mem_nil _)

/-- The partial binary-tree graph: edges chosen by cells of rank at most n. -/
def btGraph (rows cols : ℕ) (choice : Pos → Pos) (n : ℕ) :
    SimpleGraph (CellV rows cols) where
  Adj a b := ∃ p, p ∈ cellFinset rows cols ∧ p ≠ btCorner cols ∧ btRank cols p ≤ n ∧
    Adj2 p (choice p) ∧
    ((a.1 = p ∧ b.1 = choice p) ∨ (a.1 = choice p ∧ b.1 = p))
  symm := by
    rintro a b ⟨p, h1, h2, h3, h4, h5 | h5⟩
    · exact ⟨p, h1, h2, h3, h4, Or.inr ⟨h5.2, h5.1⟩⟩
    · exact ⟨p, h1, h2, h3, h4, Or.inl ⟨h5.2, h5.1⟩⟩
  loopless := by
    rintro a ⟨p, h1, h2, h3, h4, h5 | h5⟩
    · exact h4.ne (h5.1.symm.trans h5.2)
    · exact h4.ne (h5.2.symm.trans h5.1)

theorem btGrows (rows cols : ℕ) (choice : Pos → Pos) (hr : 1 ≤ rows) (hc : 1 ≤ cols)
    (hcodd : cols % 2 = 1)
    (hvalid : ∀ p ∈ cellFinset rows cols, p ≠ btCorner cols →
      choice p ∈ btNeighbors cols p) :
    ∀ n, 1 ≤ n →
      GrowsTree (liftF rows cols ((cellFinset rows cols).filter
        (fun p => btRank cols p ≤ n))) (btGraph rows cols choice n) := by
  intro n hn
  induction n, hn using Nat.le_induction with
  | base =>
    have hfilter : (cellFinset rows cols).filter (fun p => btRank cols p ≤ 1) =
        {btCorner cols} := by
      ext p
      rw [Finset.mem_filter, Finset.mem_singleton]
      constructor
      · rintro ⟨hp, hrk⟩
        have hpb := mem_cellFinset.1 hp
        have h1 : btRank cols p = 1 :=
          Nat.le_antisymm hrk (btRank_pos hpb.2.1)
        exact btRank_eq_one hpb.2.1 hc h1
      · rintro rfl
        exact ⟨btCorner_mem rows cols hr hc hcodd, by rw [btRank_corner cols hc]⟩
    have hbot : btGraph rows cols choice 1 = ⊥ := by
      ext a b
      simp only [SimpleGraph.bot_adj, iff_false]
      rintro ⟨p, h1, h2, h3, h4, h5⟩
      have hpb := mem_cellFinset.1 h1
      exact h2 (btRank_eq_one hpb.2.1 hc (Nat.le_antisymm h3 (btRank_pos hpb.2.1)))
    rw [hfilter, hbot, liftF_singleton (btCorner_mem rows cols hr hc hcodd)]
    exact GrowsTree.base _
  | succ n hn ih =>
    by_cases hex : ∃ x ∈ cellFinset rows cols, btRank cols x = n + 1
    · obtain ⟨x, hx, hrkx⟩ := hex
      have hxb := mem_cellFinset.1 hx
      have hxcorner : x ≠ btCorner cols := by
        intro he
        rw [he, btRank_corner cols hc] at hrkx
        omega
      obtain ⟨hadj, hchc, hrklt, -⟩ := btChoice_spec hx (hvalid x hx hxcorner)
      have hfilter : (cellFinset rows cols).filter (fun p => btRank cols p ≤ n + 1) =
          insert x ((cellFinset rows cols).filter (fun p => btRank cols p ≤ n)) := by
        ext p
        rw [Finset.mem_filter, Finset.mem_insert, Finset.mem_filter]
        constructor
        · rintro ⟨hp, hrk⟩
          by_cases he : btRank cols p = n + 1
          · left
            exact btRank_inj (mem_cellFinset.1 hp).2.1 hxb.2.1 (he.trans hrkx.symm)
          · exact Or.inr ⟨hp, by omega⟩
        · rintro (rfl | ⟨hp, hrk⟩)
          · exact ⟨hx, by omega⟩
          · exact ⟨hp, by omega⟩
      have hgraph : btGraph rows cols choice (n + 1) = btGraph rows cols choice n ⊔
          SimpleGraph.fromEdgeSet
            {s((⟨x, hx⟩ : CellV rows cols), ⟨choice x, hchc⟩)} := by
        ext a b
        rw [SimpleGraph.sup_adj, SimpleGraph.fromEdgeSet_adj]
        constructor
        · rintro ⟨p, h1, h2, h3, h4, h5⟩
          by_cases he : btRank cols p = n + 1
          · have hpx : p = x :=
              btRank_inj (mem_cellFinset.1 h1).2.1 hxb.2.1 (he.trans hrkx.symm)
            subst hpx
            right
            constructor
            · rw [Set.mem_singleton_iff, Sym2.eq_iff]
              rcases h5 with ⟨ha, hb⟩ | ⟨ha, hb⟩
              · exact Or.inl ⟨Subtype.ext ha, Subtype.ext hb⟩
              · exact Or.inr ⟨Subtype.ext ha, Subtype.ext hb⟩
            · rcases h5 with ⟨ha, hb⟩ | ⟨ha, hb⟩
              · intro he2
                exact h4.ne
                  (ha.symm.trans ((congrArg Subtype.val he2).trans hb))
              · intro he2
                exact h4.ne
                  (hb.symm.trans ((congrArg Subtype.val he2.symm).trans ha))
          · exact Or.inl ⟨p, h1, h2, by omega, h4, h5⟩
        · rintro (⟨p, h1, h2, h3, h4, h5⟩ | ⟨hmem, hne⟩)
          · exact ⟨p, h1, h2, by omega, h4, h5⟩
          · rw [Set.mem_singleton_iff, Sym2.eq_iff] at hmem
            refine ⟨x, hx, hxcorner, by omega, hadj, ?_⟩
            rcases hmem with ⟨ha, hb⟩ | ⟨ha, hb⟩
            · exact Or.inl ⟨by rw [ha], by rw [hb]⟩
            · exact Or.inr ⟨by rw [ha], by rw [hb]⟩
      rw [hfilter, hgraph, liftF_insert hx]
      have hswap : ({s((⟨x, hx⟩ : CellV rows cols), ⟨choice x, hchc⟩)} :
          Set (Sym2 (CellV rows cols))) =
          {s((⟨choice x, hchc⟩ : CellV rows cols), ⟨x, hx⟩)} := by
        rw [Sym2.eq_swap]
      rw [hswap]
      refine GrowsTree.step _ _ ih ?_ ?_
      · rw [mem_liftF]
        dsimp only
        rw [Finset.mem_filter]
        exact ⟨hchc, by omega⟩
      · rw [mem_liftF]
        dsimp only
        rw [Finset.mem_filter]
        rintro ⟨-, hrk⟩
        omega
    · push_neg at hex
      have hfilter : (cellFinset rows cols).filter (fun p => btRank cols p ≤ n + 1) =
          (cellFinset rows cols).filter (fun p => btRank cols p ≤ n) := by
        ext p
        rw [Finset.mem_filter, Finset.mem_filter]
        constructor
        · rintro ⟨hp, hrk⟩
          have := hex p hp
          exact ⟨hp, by omega⟩
        · rintro ⟨hp, hrk⟩
          exact ⟨hp, by omega⟩
      have hgraph : btGraph rows cols choice (n + 1) = btGraph rows cols choice n := by
        ext a b
        constructor
        · rintro ⟨p, h1, h2, h3, h4, h5⟩
          have := hex p h1
          exact ⟨p, h1, h2, by omega, h4, h5⟩
        · rintro ⟨p, h1, h2, h3, h4, h5⟩
          exact ⟨p, h1, h2, by omega, h4, h5⟩
      rw [hfilter, hgraph]
      exact ih

theorem adjDim_odd {n : ℕ} (h : 1 ≤ n) : adjDim n % 2 = 1 := by
  unfold adjDim
  split <;> omega

/-- Midpoints written by distinct non-corner cells are distinct. -/
theorem btMid_inj {rows cols : ℕ} {choice : Pos → Pos} {p q : Pos}
    (hp : p ∈ cellFinset rows cols) (hq : q ∈ cellFinset rows cols)
    (hvp : choice p ∈ btNeighbors cols p) (hvq : choice q ∈ btNeighbors cols q)
    (he : midOf p (choice p) = midOf q (choice q)) : p = q := by
  obtain ⟨hadjp, hcp, hrkp, -⟩ := btChoice_spec hp hvp
  obtain ⟨hadjq, hcq, hrkq, -⟩ := btChoice_spec hq hvq
  have hpb := mem_cellFinset.1 hp
  have hqb := mem_cellFinset.1 hq
  have hcpb := mem_cellFinset.1 hcp
  have hcqb := mem_cellFinset.1 hcq
  have := midOf_inj hpb.2.2.1 hpb.2.2.2 hcpb.2.2.1 hcpb.2.2.2
    hqb.2.2.1 hqb.2.2.2 hcqb.2.2.1 hcqb.2.2.2 hadjp hadjq he
  rcases this with ⟨h1, -⟩ | ⟨h1, h2⟩
  · exact h1.symm
  · exfalso
    rw [h2, h1] at hrkq
    omega

/-- Count of opened walls chosen from a cell itself: its up midpoint (when
not in the first row) plus its right midpoint. -/
def selfOpened (g : Pos → CellValue) (p : Pos) : ℕ :=
  (if 0 < p.1 ∧ g (p.1 - 1, p.2) = 1 then 1 else 0) +
  (if g (p.1, p.2 + 1) = 1 then 1 else 0)

/-- Perfect-maze properties of any grid matching the binary-tree
characterization, together with the wall counts per cell. -/
theorem btChar_perfect (rows cols : ℕ) (hr : 1 ≤ rows) (hc : 1 ≤ cols)
    (hcodd : cols % 2 = 1) (g : Pos → CellValue) (choice : Pos → Pos)
    (hvalid : ∀ p ∈ cellFinset rows cols, btNeighbors cols p ≠ [] →
      choice p ∈ btNeighbors cols p)
    (hchar : ∀ x, g x = 1 ↔ x ∈ cellFinset rows cols ∨
      ∃ p ∈ cellFinset rows cols, btNeighbors cols p ≠ [] ∧ x = midOf p (choice p)) :
    (∀ p ∈ cellFinset rows cols, g p = 1) ∧ (mazeGraph rows cols g).Connected ∧
    (mazeGraph rows cols g).IsAcyclic ∧
    (openedMids rows cols g).card + 1 = (cellFinset rows cols).card ∧
    selfOpened g (btCorner cols) = 0 ∧
    (∀ p ∈ cellFinset rows cols, p ≠ btCorner cols → 1 ≤ selfOpened g p) := by
  have hvalid2 : ∀ p ∈ cellFinset rows cols, p ≠ btCorner cols →
      choice p ∈ btNeighbors cols p := by
    intro p hp hne
    exact hvalid p hp (fun h => hne ((btNeighbors_eq_nil hp hcodd).1 h))
  have hmid_notcell : ∀ x ∈ midFinset rows cols, x ∉ cellFinset rows cols := by
    intro x hx hc2
    rw [mem_midFinset] at hx
    rw [mem_cellFinset] at hc2
    omega
  have hmid_inbounds : ∀ p ∈ cellFinset rows cols, btNeighbors cols p ≠ [] →
      midOf p (choice p) ∈ midFinset rows cols := by
    intro p hp hne
    obtain ⟨hadj, hcp, -, -⟩ := btChoice_spec hp (hvalid p hp hne)
    exact midOf_mem_midFinset hp hcp hadj
  have hmids : openedMids rows cols g =
      ((cellFinset rows cols).erase (btCorner cols)).image
        (fun p => midOf p (choice p)) := by
    ext m
    unfold openedMids
    rw [Finset.mem_filter, Finset.mem_image]
    constructor
    · rintro ⟨hm, hv⟩
      rw [hchar m] at hv
      rcases hv with hv | ⟨p, hp, hne, he⟩
      · exact absurd hv (hmid_notcell m hm)
      · refine ⟨p, Finset.mem_erase.2 ⟨?_, hp⟩, he.symm⟩
        intro hpe
        rw [← btNeighbors_eq_nil hp hcodd] at hpe
        exact hne hpe
    · rintro ⟨p, hp, he⟩
      rw [Finset.mem_erase] at hp
      have hne : btNeighbors cols p ≠ [] :=
        fun h => hp.1 ((btNeighbors_eq_nil hp.2 hcodd).1 h)
      refine ⟨he ▸ hmid_inbounds p hp.2 hne, ?_⟩
      rw [hchar m]
      exact Or.inr ⟨p, hp.2, hne, he.symm⟩
  have hmids_card : (openedMids rows cols g).card + 1 = (cellFinset rows cols).card := by
    rw [hmids]
    rw [Finset.card_image_of_injOn]
    · rw [Finset.card_erase_of_mem (btCorner_mem rows cols hr hc hcodd)]
      have : 1 ≤ (cellFinset rows cols).card :=
        Finset.card_pos.2 ⟨btCorner cols, btCorner_mem rows cols hr hc hcodd⟩
      omega
    · intro p hp q hq he
      rw [Finset.coe_erase, Set.mem_diff] at hp hq
      have hnep : btNeighbors cols p ≠ [] := by
        intro h
        have := (btNeighbors_eq_nil hp.1 hcodd).1 h
        simp [this] at hp
      have hneq : btNeighbors cols q ≠ [] := by
        intro h
        have := (btNeighbors_eq_nil hq.1 hcodd).1 h
        simp [this] at hq
      exact btMid_inj hp.1 hq.1 (hvalid p hp.1 hnep) (hvalid q hq.1 hneq) he
  set N := (cols + 1) * rows + cols with hN
  have hrankN : ∀ p ∈ cellFinset rows cols, btRank cols p ≤ N := by
    intro p hp
    have hpb := mem_cellFinset.1 hp
    unfold btRank
    have h1 : (cols + 1) * p.1 ≤ (cols + 1) * rows :=
      Nat.mul_le_mul_left _ (le_of_lt hpb.1)
    omega
  have hfilterN : (cellFinset rows cols).filter (fun p => btRank cols p ≤ N) =
      cellFinset rows cols := by
    apply Finset.filter_true_of_mem
    exact hrankN
  have hgraphN : mazeGraph rows cols g = btGraph rows cols choice N := by
    ext a b
    rw [mazeGraph_adj]
    constructor
    · rintro ⟨hadj, hv⟩
      rw [hchar] at hv
      rcases hv with hv | ⟨p, hp, hne, he⟩
      · exfalso
        have hodd := midOf_odd_coord (mem_cellFinset.1 a.2).2.2.1
          (mem_cellFinset.1 a.2).2.2.2 (mem_cellFinset.1 b.2).2.2.1
          (mem_cellFinset.1 b.2).2.2.2 hadj
        rw [mem_cellFinset] at hv
        omega
      · obtain ⟨hadjp, hcp, -, -⟩ := btChoice_spec hp (hvalid p hp hne)
        have hab := mem_cellFinset.1 a.2
        have hbb := mem_cellFinset.1 b.2
        have hpb := mem_cellFinset.1 hp
        have hcpb := mem_cellFinset.1 hcp
        have hinj := midOf_inj hpb.2.2.1 hpb.2.2.2 hcpb.2.2.1 hcpb.2.2.2
          hab.2.2.1 hab.2.2.2 hbb.2.2.1 hbb.2.2.2 hadjp hadj he.symm
        have hpcorner : p ≠ btCorner cols := by
          intro hpe
          rw [← btNeighbors_eq_nil hp hcodd] at hpe
          exact hne hpe
        refine ⟨p, hp, hpcorner, hrankN p hp, hadjp, ?_⟩
        rcases hinj with ⟨h1, h2⟩ | ⟨h1, h2⟩
        · exact Or.inl ⟨h1, h2⟩
        · exact Or.inr ⟨h1, h2⟩
    · rintro ⟨p, hp, hne, hrk, hadjp, hmatch⟩
      have hnbne : btNeighbors cols p ≠ [] :=
        fun h => hne ((btNeighbors_eq_nil hp hcodd).1 h)
      have hg : g (midOf p (choice p)) = 1 := by
        rw [hchar]
        exact Or.inr ⟨p, hp, hnbne, rfl⟩
      rcases hmatch with ⟨h1, h2⟩ | ⟨h1, h2⟩
      · refine ⟨?_, ?_⟩
        · rw [h1, h2]
          exact hadjp
        · rw [h1, h2]
          exact hg
      · refine ⟨?_, ?_⟩
        · rw [h1, h2]
          exact hadjp.symm
        · rw [h1, h2, midOf_comm]
          exact hg
  have hgrows := btGrows rows cols choice hr hc hcodd hvalid2 N (by unfold_let N; omega)
  rw [hfilterN] at hgrows
  obtain ⟨hedges, hacy, hreach⟩ := hgrows.master
  have hcells : ∀ p ∈ cellFinset rows cols, g p = 1 := by
    intro p hp
    rw [hchar]
    exact Or.inl hp
  refine ⟨hcells, ?_, ?_, hmids_card, ?_, ?_⟩
  · rw [SimpleGraph.connected_iff]
    refine ⟨?_, ?_⟩
    · intro a b
      rw [hgraphN]
      exact hreach a b (mem_liftF.2 a.2) (mem_liftF.2 b.2)
    · exact ⟨⟨(0, 0), by rw [mem_cellFinset]; exact ⟨hr, hc, rfl, rfl⟩⟩⟩
  · rw [hgraphN]
    exact hacy
  · unfold selfOpened btCorner
    dsimp only
    rw [if_neg (by omega)]
    have hg0 : ¬g (0, cols - 1 + 1) = 1 := by
      rw [hchar]
      rintro (hv | ⟨p, hp, hne, he⟩)
      · rw [mem_cellFinset] at hv
        omega
      · have := hmid_inbounds p hp hne
        rw [← he, mem_midFinset] at this
        omega
    rw [if_neg hg0]
  · intro p hp hne
    have hnbne : btNeighbors cols p ≠ [] :=
      fun h => hne ((btNeighbors_eq_nil hp hcodd).1 h)
    obtain ⟨hadjp, hcp, -, hdir⟩ := btChoice_spec hp (hvalid p hp hnbne)
    have hpb := mem_cellFinset.1 hp
    have hg : g (midOf p (choice p)) = 1 := by
      rw [hchar]
      exact Or.inr ⟨p, hp, hnbne, rfl⟩
    unfold selfOpened
    rcases hdir with ⟨hpos, hce⟩ | ⟨hlt, hce⟩
    · have hmid : midOf p (choice p) = (p.1 - 1, p.2) := by
        rw [hce]
        unfold midOf
        rw [Prod.mk.injEq]
        simp only
        constructor
        · omega
        · omega
      rw [hmid] at hg
      rw [if_pos ⟨hpos, hg⟩]
      omega
    · have hmid : midOf p (choice p) = (p.1, p.2 + 1) := by
        rw [hce]
        unfold midOf
        rw [Prod.mk.injEq]
        simp only
        constructor
        · omega
        · omega
      rw [hmid] at hg
      rw [if_pos hg]
      omega

/-- Master correctness of the binary-tree generator, with the per-cell wall
counts: every maze cell Walkable; cell graph connected and acyclic; opened
midpoints one less than the maze cells; the first-row last-column maze cell
opens no wall from itself while every other maze cell opens at least one. -/
theorem generateMazeBinaryTree_perfect (size : GridSize) (stream : ℕ → ℕ)
    (hr : 1 ≤ size.rows) (hc : 1 ≤ size.cols) :
    (∀ p ∈ cellFinset (generateMazeBinaryTree size stream).rows
        (generateMazeBinaryTree size stream).cols,
      (generateMazeBinaryTree size stream).cell p = 1) ∧
    (mazeGraph (generateMazeBinaryTree size stream).rows
      (generateMazeBinaryTree size stream).cols
      (generateMazeBinaryTree size stream).cell).Connected ∧
    (mazeGraph (generateMazeBinaryTree size stream).rows
      (generateMazeBinaryTree size stream).cols
      (generateMazeBinaryTree size stream).cell).IsAcyclic ∧
    (openedMids (generateMazeBinaryTree size stream).rows
      (generateMazeBinaryTree size stream).cols
      (generateMazeBinaryTree size stream).cell).card + 1 =
      (cellFinset (generateMazeBinaryTree size stream).rows
        (generateMazeBinaryTree size stream).cols).card ∧
    selfOpened (generateMazeBinaryTree size stream).cell
      (btCorner (generateMazeBinaryTree size stream).cols) = 0 ∧
    (∀ p ∈ cellFinset (generateMazeBinaryTree size stream).rows
        (generateMazeBinaryTree size stream).cols,
      p ≠ btCorner (generateMazeBinaryTree size stream).cols →
        1 ≤ selfOpened (generateMazeBinaryTree size stream).cell p) := by
  set rows := adjDim size.rows with hrowsdef
  set cols := adjDim size.cols with hcolsdef
  have hr1 : 1 ≤ rows := one_le_adjDim hr
  have hc1 : 1 ≤ cols := one_le_adjDim hc
  have hcodd : cols % 2 = 1 := adjDim_odd hc
  obtain ⟨choice, hvalid, hchar⟩ :=
    btFold_char cols stream (btCells rows cols) (btCells_nodup rows cols) (fun _ => 0) 0
  have hGr : generateMazeBinaryTree size stream =
      { rows := rows, cols := cols,
        cell := ((btCells rows cols).foldl (btStep cols stream) ((fun _ => 0), 0)).1 } := rfl
  set g := ((btCells rows cols).foldl (btStep cols stream) ((fun _ => 0), 0)).1 with hgdef
  have hchar2 : ∀ x, g x = 1 ↔ x ∈ cellFinset rows cols ∨
      ∃ p ∈ cellFinset rows cols, btNeighbors cols p ≠ [] ∧ x = midOf p (choice p) := by
    intro x
    rw [hgdef, hchar x]
    constructor
    · rintro (hv | hv | ⟨p, hp, h1, h2⟩)
      · exact absurd hv (by simp)
      · exact Or.inl (mem_btCells.1 hv)
      · exact Or.inr ⟨p, mem_btCells.1 hp, h1, h2⟩
    · rintro (hv | ⟨p, hp, h1, h2⟩)
      · exact Or.inr (Or.inl (mem_btCells.2 hv))
      · exact Or.inr (Or.inr ⟨p, mem_btCells.2 hp, h1, h2⟩)
  have hvalid2 : ∀ p ∈ cellFinset rows cols, btNeighbors cols p ≠ [] →
      choice p ∈ btNeighbors cols p := by
    intro p hp hne
    exact hvalid p (mem_btCells.2 hp) hne
  have := btChar_perfect rows cols hr1 hc1 hcodd g choice hvalid2 hchar2
  rw [hGr]
  exact this

/-! ## Randomized Kruskal generator (generateMazeKruskal) -/

/-- A candidate wall joins two lattice-adjacent maze cells. -/
abbrev Wall := Pos × Pos

/-- Embedding of the recursive path-compressing find.  The JavaScript Map
from cell keys to cell keys is embedded as a total function on positions;
find returns the representative together with the updated map.  The source
recursion terminates because parent chains are acyclic (proved below); here
the recursion is driven by fuel that the caller makes large enough. -/
def find (fuel : ℕ) (par : Pos → Pos) (x : Pos) : Pos × (Pos → Pos) :=
  match fuel with
  | 0 => (x, par)
  | fuel + 1 =>
    if par x = x then (x, par)
    else
      let r := find fuel par (par x)
      (r.1, fun y => if y = x then r.1 else r.2 y)

/-- Embedding of union: two finds (with their compifications of the map),
then re-point one root to the other unless already equal. -/
def union (fuel : ℕ) (par : Pos → Pos) (a b : Pos) : Pos → Pos :=
  let r1 := find fuel par a
  let r2 := find fuel r1.2 b
  if r1.1 ≠ r2.1 then fun y => if y = r2.1 then r1.1 else r2.2 y else r2.2

/-- The candidate wall list: for each maze cell in row-major order, a wall
to the right neighbor (when in bounds) then to the below neighbor. -/
def wallList (rows cols : ℕ) : List Wall :=
  (evensBelow rows).bind fun r => (evensBelow cols).bind fun c =>
    (if c + 2 < cols then [((r, c), (r, c + 2))] else []) ++
    (if r + 2 < rows then [((r, c), (r + 2, c))] else [])

/-- One swap of the Fisher-Yates shuffle. -/
def swap (l : List Wall) (i j : ℕ) : List Wall :=
  let a := l.getD i ((0, 0), (0, 0))
  let b := l.getD j ((0, 0), (0, 0))
  (l.set i b).set j a

/-- The Fisher-Yates shuffle: for i from length - 1 down to 1, swap index i
with a random index in [0, i]. -/
def fisherYates (stream : ℕ → ℕ) : ℕ → ℕ → List Wall → List Wall
  | _, 0, l => l
  | k, i + 1, l => fisherYates stream (k + 1) i (swap l (i + 1) (stream k % (i + 1 + 1)))

/-- One iteration of the Kruskal main loop: evaluate the two finds of the
condition; when the roots differ, open the midpoint wall and union the two
endpoint keys. -/
def kruskalStep (fuel : ℕ) (st : (Pos → CellValue) × (Pos → Pos)) (w : Wall) :
    (Pos → CellValue) × (Pos → Pos) :=
  let r1 := find fuel st.2 w.1
  let r2 := find fuel r1.2 w.2
  if r1.1 ≠ r2.1 then
    (setCell st.1 (midOf w.1 w.2) 1, union fuel r2.2 w.1 w.2)
  else (st.1, r2.2)

/-- Embedding of generateMazeKruskal: open every maze cell, give each its
own singleton set, shuffle the wall list, process the walls in order. -/
def generateMazeKruskal (size : GridSize) (stream : ℕ → ℕ) : Grid :=
  let rows := adjDim size.rows
  let cols := adjDim size.cols
  let g0 : Pos → CellValue := fun p => if p ∈ cellFinset rows cols then 1 else 0
  let walls := fisherYates stream 0 ((wallList rows cols).length - 1) (wallList rows cols)
  let sF := walls.foldl (kruskalStep (rows * cols + 1)) (g0, fun p => p)
  { rows := rows, cols := cols, cell := sF.1 }

/-! ## Union-find theory -/

/-- Following parent links from x stabilizes at the root r. -/
def Reaches (par : Pos → Pos) (x r : Pos) : Prop :=
  (∃ n, par^[n] x = r) ∧ par r = r

/-- Two elements lie in the same set when they reach a common root. -/
def sameSet (par : Pos → Pos) (x y : Pos) : Prop :=
  ∃ r, Reaches par x r ∧ Reaches par y r

/-- Well-formed parent maps over the maze-cell domain: closed on the domain,
identity off it, and free of nontrivial cycles. -/
structure UFWf (D : Finset Pos) (par : Pos → Pos) : Prop where
  closed : ∀ x ∈ D, par x ∈ D
  off : ∀ x, x ∉ D → par x = x
  nocycle : ∀ x n, 0 < n → par^[n] x = x → par x = x

theorem iterate_fix {par : Pos → Pos} {r : Pos} (h : par r = r) (n : ℕ) :
    par^[n] r = r := by
  induction n with
  | zero => rfl
  | succ n ih => rw [Function.iterate_succ_apply, h, ih]

theorem iterate_add_eq {par : Pos → Pos} (m n : ℕ) (x : Pos) :
    par^[m + n] x = par^[m] (par^[n] x) := by
  rw [Function.iterate_add_apply]

theorem reaches_self {par : Pos → Pos} {r : Pos} (h : par r = r) : Reaches par r r :=
  ⟨⟨0, rfl⟩, h⟩

theorem reaches_unique {par : Pos → Pos} {x r r' : Pos}
    (h1 : Reaches par x r) (h2 : Reaches par x r') : r = r' := by
  obtain ⟨⟨n, hn⟩, hr⟩ := h1
  obtain ⟨⟨m, hm⟩, hr2⟩ := h2
  rcases Nat.le_total n m with h | h
  · have : par^[m] x = par^[m - n] (par^[n] x) := by
      rw [← iterate_add_eq]
      congr 1
      omega
    rw [hn, iterate_fix hr] at this
    rw [hm] at this
    exact this.symm
  · have : par^[n] x = par^[n - m] (par^[m] x) := by
      rw [← iterate_add_eq]
      congr 1
      omega
    rw [hm, iterate_fix hr2] at this
    rw [hn] at this
    exact this

theorem reaches_head {par : Pos → Pos} {x r : Pos} (h : Reaches par (par x) r) :
    Reaches par x r := by
  obtain ⟨⟨n, hn⟩, hr⟩ := h
  refine ⟨⟨n + 1, ?_⟩, hr⟩
  rw [Function.iterate_succ_apply]
  exact hn

theorem UFWf.iterate_mem {D : Finset Pos} {par : Pos → Pos} (wf : UFWf D par)
    {x : Pos} (hx : x ∈ D) (n : ℕ) : par^[n] x ∈ D := by
  induction n with
  | zero => exact hx
  | succ n ih =>
    rw [Function.iterate_succ_apply']
    exact wf.closed _ ih

theorem UFWf.exists_rootdepth {D : Finset Pos} {par : Pos → Pos} (wf : UFWf D par)
    (x : Pos) : ∃ d ≤ D.card, par (par^[d] x) = par^[d] x := by
  by_cases hx : x ∈ D
  · have hmaps : ∀ i : Fin (D.card + 1), i ∈ (Finset.univ : Finset (Fin (D.card + 1))) →
        par^[i.1] x ∈ D := fun i _ => wf.iterate_mem hx i.1
    have hcard : D.card < (Finset.univ : Finset (Fin (D.card + 1))).card := by
      rw [Finset.card_univ, Fintype.card_fin]
      omega
    obtain ⟨i, -, j, -, hne, he⟩ :=
      Finset.exists_ne_map_eq_of_card_lt_of_maps_to hcard hmaps
    rcases Nat.lt_or_ge i.1 j.1 with hij | hij
    · refine ⟨i.1, by omega, ?_⟩
      have hcyc : par^[j.1 - i.1] (par^[i.1] x) = par^[i.1] x := by
        rw [← iterate_add_eq]
        have : j.1 - i.1 + i.1 = j.1 := by omega
        rw [this, ← he]
      exact wf.nocycle _ _ (by omega) hcyc
    · have hlt : j.1 < i.1 := by
        rcases Nat.lt_or_ge j.1 i.1 with h | h
        · exact h
        · exact absurd (Fin.ext (by omega)) hne
      refine ⟨j.1, by omega, ?_⟩
      have hcyc : par^[i.1 - j.1] (par^[j.1] x) = par^[j.1] x := by
        rw [← iterate_add_eq]
        have : i.1 - j.1 + j.1 = i.1 := by omega
        rw [this, he]
      exact wf.nocycle _ _ (by omega) hcyc
  · exact ⟨0, by omega, by rw [Function.iterate_zero_apply, wf.off x hx]⟩

theorem UFWf.exists_reaches {D : Finset Pos} {par : Pos → Pos} (wf : UFWf D par)
    (x : Pos) : ∃ r, Reaches par x r := by
  obtain ⟨d, -, hd⟩ := wf.exists_rootdepth x
  exact ⟨par^[d] x, ⟨d, rfl⟩, hd⟩

theorem UFWf.reaches_mem {D : Finset Pos} {par : Pos → Pos} (wf : UFWf D par)
    {x r : Pos} (hx : x ∈ D) (h : Reaches par x r) : r ∈ D := by
  obtain ⟨⟨n, hn⟩, -⟩ := h
  exact hn ▸ wf.iterate_mem hx n

theorem sameSet_refl {D : Finset Pos} {par : Pos → Pos} (wf : UFWf D par) (x : Pos) :
    sameSet par x x := by
  obtain ⟨r, hr⟩ := wf.exists_reaches x
  exact ⟨r, hr, hr⟩

theorem sameSet_symm {par : Pos → Pos} {x y : Pos} (h : sameSet par x y) :
    sameSet par y x := by
  obtain ⟨r, h1, h2⟩ := h
  exact ⟨r, h2, h1⟩

theorem sameSet_trans {par : Pos → Pos} {x y z : Pos}
    (h1 : sameSet par x y) (h2 : sameSet par y z) : sameSet par x z := by
  obtain ⟨r, ha, hb⟩ := h1
  obtain ⟨r', hc, hd⟩ := h2
  rw [reaches_unique hb hc] at ha
  exact ⟨r', ha, hd⟩

/-- Redirecting one element toward a node whose chain avoids it preserves
well-formedness and maps every root through a known function.  This covers
both path compression (t is the root of x) and union (x is a root being
re-pointed at another root). -/
theorem redirect_spec {D : Finset Pos} {par : Pos → Pos} (wf : UFWf D par)
    {x t rx rt : Pos} (hx : x ∈ D) (ht : t ∈ D)
    (hrx : Reaches par x rx) (hrt : Reaches par t rt)
    (havoid : ∀ n, par^[n] t ≠ x) :
    UFWf D (fun y => if y = x then t else par y) ∧
    (∀ y r, Reaches par y r →
      ((∀ m, par^[m] y ≠ x) ∧ Reaches (fun y => if y = x then t else par y) y r) ∨
      (r = rx ∧ Reaches (fun y => if y = x then t else par y) y rt)) := by
  set par' := fun y => if y = x then t else par y with hpar'
  have happx : par' x = t := by rw [hpar']; simp
  have happ : ∀ y, y ≠ x → par' y = par y := by
    intro y hy
    rw [hpar']
    simp [hy]
  have hrtx : rt ≠ x := by
    obtain ⟨⟨n, hn⟩, -⟩ := hrt
    exact hn ▸ havoid n
  have htrans : ∀ m, par'^[m] t = par^[m] t := by
    intro m
    induction m with
    | zero => rfl
    | succ m ih =>
      rw [Function.iterate_succ_apply', Function.iterate_succ_apply', ih,
        happ _ (havoid m)]
  have htr' : Reaches par' t rt := by
    obtain ⟨⟨n, hn⟩, hr⟩ := hrt
    exact ⟨⟨n, by rw [htrans n]; exact hn⟩, by rw [happ _ hrtx]; exact hr⟩
  have hx' : Reaches par' x rt := by
    apply reaches_head
    rw [happx]
    exact htr'
  have main : ∀ n y r, par^[n] y = r → par r = r →
      ((∀ m, par^[m] y ≠ x) ∧ Reaches par' y r) ∨ (r = rx ∧ Reaches par' y rt) := by
    intro n
    induction n with
    | zero =>
      intro y r h hroot
      rw [Function.iterate_zero_apply] at h
      subst h
      by_cases hyx : y = x
      · subst hyx
        right
        refine ⟨reaches_unique (reaches_self hroot) hrx, hx'⟩
      · left
        refine ⟨?_, reaches_self (by rw [happ _ hyx]; exact hroot)⟩
        intro m
        rw [iterate_fix hroot]
        exact hyx
    | succ n ih =>
      intro y r h hroot
      by_cases hyx : y = x
      · subst hyx
        right
        exact ⟨reaches_unique ⟨⟨n + 1, h⟩, hroot⟩ hrx, hx'⟩
      · have h2 : par^[n] (par y) = r := by
          rw [← Function.iterate_succ_apply]
          exact h
        rcases ih (par y) r h2 hroot with ⟨hav, hre⟩ | ⟨hrxe, hre⟩
        · left
          refine ⟨?_, ?_⟩
          · intro m
            cases m with
            | zero => exact hyx
            | succ m =>
              rw [Function.iterate_succ_apply]
              exact hav m
          · apply reaches_head
            rw [happ _ hyx]
            exact hre
        · right
          refine ⟨hrxe, ?_⟩
          apply reaches_head
          rw [happ _ hyx]
          exact hre
  refine ⟨⟨?_, ?_, ?_⟩, ?_⟩
  · intro y hy
    by_cases hyx : y = x
    · rw [hyx, happx]
      exact ht
    · rw [happ _ hyx]
      exact wf.closed y hy
  · intro y hy
    have hyx : y ≠ x := fun he => hy (he ▸ hx)
    rw [happ _ hyx]
    exact wf.off y hy
  · intro y n hn hcyc
    by_cases hhit : ∃ i, i < n ∧ par'^[i] y = x
    · exfalso
      obtain ⟨i, hi, hix⟩ := hhit
      have hxcyc : par'^[n] x = x := by
        rw [← hix, ← iterate_add_eq]
        have hcomm : n + i = i + n := by omega
        rw [hcomm, iterate_add_eq, hcyc, hix]
      have hn1 : par'^[(n - 1) + 1] x = par^[n - 1] t := by
        rw [Function.iterate_succ_apply, happx, htrans]
      have hneq : n - 1 + 1 = n := by omega
      rw [hneq] at hn1
      rw [hn1] at hxcyc
      exact havoid (n - 1) hxcyc
    · push_neg at hhit
      have hagree : ∀ j, j ≤ n → par'^[j] y = par^[j] y := by
        intro j hj
        induction j with
        | zero => rfl
        | succ j ihj =>
          rw [Function.iterate_succ_apply', Function.iterate_succ_apply',
            ihj (by omega)]
          rw [happ _ ?_]
          rw [← ihj (by omega)]
          exact hhit j (by omega)
      have hycyc : par^[n] y = y := by
        rw [← hagree n (le_refl n)]
        exact hcyc
      have hyroot := wf.nocycle y n hn hycyc
      have hyx : y ≠ x := by
        intro he
        exact hhit 0 hn (by rw [Function.iterate_zero_apply, he])
      rw [happ _ hyx]
      exact hyroot
  · intro y r hre
    obtain ⟨⟨n, hn⟩, hroot⟩ := hre
    exact main n y r hn hroot

theorem reaches_iff_of_mono {D : Finset Pos} {par par' : Pos → Pos} (wf : UFWf D par)
    (hmono : ∀ y r, Reaches par y r → Reaches par' y r) :
    ∀ y r, Reaches par' y r ↔ Reaches par y r := by
  intro y r
  constructor
  · intro h'
    obtain ⟨r₂, hr₂⟩ := wf.exists_reaches y
    rw [reaches_unique h' (hmono y r₂ hr₂)]
    exact hr₂
  · exact hmono y r

/-- Full specification of find with enough fuel: it returns the root of the
chain, keeps the map well-formed, changes no rootness, and preserves every
reachability fact. -/
theorem find_spec {D : Finset Pos} :
    ∀ (d : ℕ) (par : Pos → Pos), UFWf D par →
      ∀ (x : Pos), par (par^[d] x) = par^[d] x → ∀ fuel, d < fuel →
        (find fuel par x).1 = par^[d] x ∧
        UFWf D (find fuel par x).2 ∧
        (∀ y, ((find fuel par x).2 y = y ↔ par y = y)) ∧
        (∀ y r, Reaches par y r → Reaches (find fuel par x).2 y r) := by
  intro d
  induction d with
  | zero =>
    intro par wf x hroot fuel hfuel
    rw [Function.iterate_zero_apply] at hroot
    obtain ⟨f, rfl⟩ : ∃ f, fuel = f + 1 := ⟨fuel - 1, by omega⟩
    have heq : find (f + 1) par x = (x, par) := by
      unfold find
      rw [if_pos hroot]
    rw [heq, Function.iterate_zero_apply]
    exact ⟨rfl, wf, fun y => Iff.rfl, fun y r h => h⟩
  | succ d ih =>
    intro par wf x hroot fuel hfuel
    obtain ⟨f, rfl⟩ : ∃ f, fuel = f + 1 := ⟨fuel - 1, by omega⟩
    by_cases hx : par x = x
    · have heq : find (f + 1) par x = (x, par) := by
        unfold find
        rw [if_pos hx]
      rw [heq]
      have hit : par^[d + 1] x = x := iterate_fix hx _
      rw [hit]
      exact ⟨rfl, wf, fun y => Iff.rfl, fun y r h => h⟩
    · have heq : find (f + 1) par x =
          ((find f par (par x)).1,
            fun y => if y = x then (find f par (par x)).1
              else (find f par (par x)).2 y) := by
        conv_lhs => unfold find
        rw [if_neg hx]
      have hroot2 : par (par^[d] (par x)) = par^[d] (par x) := by
        rw [← Function.iterate_succ_apply]
        exact hroot
      obtain ⟨hres, wf2, hrt2, hmono2⟩ := ih par wf (par x) hroot2 f (by omega)
      have hresx : (find f par (par x)).1 = par^[d + 1] x := by
        rw [hres, ← Function.iterate_succ_apply]
      have hxD : x ∈ D := by
        by_contra hxD
        exact hx (wf.off x hxD)
      have hrootpar : par (par^[d + 1] x) = par^[d + 1] x := hroot
      have hrD2 : (find f par (par x)).1 ∈ D := by
        rw [hresx]
        exact wf.iterate_mem hxD (d + 1)
      have hrne2 : (find f par (par x)).1 ≠ x := by
        rw [hresx]
        intro he
        exact hx (by rw [← he]; exact hrootpar)
      have hrootF : (find f par (par x)).2 (find f par (par x)).1 =
          (find f par (par x)).1 := by
        rw [hresx]
        exact (hrt2 _).2 hrootpar
      have hrx2 : Reaches (find f par (par x)).2 x (find f par (par x)).1 := by
        rw [hresx]
        exact hmono2 x _ ⟨⟨d + 1, rfl⟩, hrootpar⟩
      have hrt2x : Reaches (find f par (par x)).2 (find f par (par x)).1
          (find f par (par x)).1 := reaches_self hrootF
      have havoid : ∀ n, ((find f par (par x)).2)^[n] (find f par (par x)).1 ≠ x := by
        intro n
        rw [iterate_fix hrootF]
        exact hrne2
      obtain ⟨wf3, hmap3⟩ := redirect_spec wf2 hxD hrD2 hrx2 hrt2x havoid
      rw [heq]
      refine ⟨hresx, wf3, ?_, ?_⟩
      · intro y
        by_cases hyx : y = x
        · subst hyx
          dsimp only
          rw [if_pos rfl]
          constructor
          · intro he
            exact absurd he hrne2
          · intro he
            exact absurd he hx
        · dsimp only
          rw [if_neg hyx]
          exact hrt2 y
      · intro y r hre
        have hstep := hmap3 y r (hmono2 y r hre)
        rcases hstep with ⟨-, h⟩ | ⟨hrr, h⟩
        · exact h
        · rw [hrr]
          exact h

/-- With enough fuel, find computes the same result as with the minimal
sufficient fuel: the recursion consumes only the chain depth. -/
theorem find_stable {D : Finset Pos} :
    ∀ (d : ℕ) (par : Pos → Pos), UFWf D par →
      ∀ (x : Pos), par (par^[d] x) = par^[d] x → ∀ fuel, d < fuel →
        find fuel par x = find (d + 1) par x := by
  intro d
  induction d with
  | zero =>
    intro par wf x hroot fuel hfuel
    rw [Function.iterate_zero_apply] at hroot
    obtain ⟨f, rfl⟩ : ∃ f, fuel = f + 1 := ⟨fuel - 1, by omega⟩
    show find (f + 1) par x = find (0 + 1) par x
    unfold find
    rw [if_pos hroot, if_pos hroot]
  | succ d ih =>
    intro par wf x hroot fuel hfuel
    obtain ⟨f, rfl⟩ : ∃ f, fuel = f + 1 := ⟨fuel - 1, by omega⟩
    by_cases hx : par x = x
    · show find (f + 1) par x = find (d + 1 + 1) par x
      unfold find
      rw [if_pos hx, if_pos hx]
    · have hroot2 : par (par^[d] (par x)) = par^[d] (par x) := by
        rw [← Function.iterate_succ_apply]
        exact hroot
      have hrec : find f par (par x) = find (d + 1) par (par x) :=
        ih par wf (par x) hroot2 f (by omega)
      show find (f + 1) par x = find (d + 1 + 1) par x
      unfold find
      rw [if_neg hx, if_neg hx]
      dsimp only
      rw [hrec]

/-- Full specification of union with enough fuel: well-formedness is kept;
every root maps through the merge function; rootness changes exactly at the
absorbed root. -/
theorem union_spec {D : Finset Pos} {par : Pos → Pos} (wf : UFWf D par)
    {a b ra rb : Pos} (ha : a ∈ D) (hb : b ∈ D)
    (hra : Reaches par a ra) (hrb : Reaches par b rb)
    {fuel : ℕ} (hfuel : D.card < fuel) :
    UFWf D (union fuel par a b) ∧
    (∀ y r, Reaches par y r →
      Reaches (union fuel par a b) y (if ra ≠ rb ∧ r = rb then ra else r)) ∧
    (∀ y, y ≠ rb → ((union fuel par a b) y = y ↔ par y = y)) ∧
    (ra ≠ rb → (union fuel par a b) rb = ra) ∧
    (ra = rb → ∀ y, ((union fuel par a b) y = y ↔ par y = y)) := by
  obtain ⟨d1, hd1, hroot1⟩ := wf.exists_rootdepth a
  obtain ⟨hu1, wf2, iff2, mono2⟩ := find_spec d1 par wf a hroot1 fuel (by omega)
  have hu1ra : (find fuel par a).1 = ra := by
    rw [hu1]
    exact reaches_unique ⟨⟨d1, rfl⟩, hroot1⟩ hra
  obtain ⟨d2, hd2, hroot2⟩ := wf2.exists_rootdepth b
  obtain ⟨hu2, wf3, iff3, mono3⟩ :=
    find_spec d2 (find fuel par a).2 wf2 b hroot2 fuel (by omega)
  have hu2rb : (find fuel (find fuel par a).2 b).1 = rb := by
    rw [hu2]
    exact reaches_unique ⟨⟨d2, rfl⟩, hroot2⟩ (mono2 b rb hrb)
  have hmono23 : ∀ y r, Reaches par y r →
      Reaches (find fuel (find fuel par a).2 b).2 y r :=
    fun y r h => mono3 y r (mono2 y r h)
  have hiff23 : ∀ y, ((find fuel (find fuel par a).2 b).2 y = y ↔ par y = y) :=
    fun y => (iff3 y).trans (iff2 y)
  have hunf : union fuel par a b =
      if (find fuel par a).1 ≠ (find fuel (find fuel par a).2 b).1 then
        fun y => if y = (find fuel (find fuel par a).2 b).1 then (find fuel par a).1
          else (find fuel (find fuel par a).2 b).2 y
      else (find fuel (find fuel par a).2 b).2 := by
    conv_lhs => unfold union
  rw [hu1ra, hu2rb] at hunf
  by_cases hne : ra ≠ rb
  · rw [if_pos hne] at hunf
    have hrbD : rb ∈ D := wf.reaches_mem hb hrb
    have hraD : ra ∈ D := wf.reaches_mem ha hra
    have hrootrb : (find fuel (find fuel par a).2 b).2 rb = rb := (hiff23 rb).2 hrb.2
    have hrootra : (find fuel (find fuel par a).2 b).2 ra = ra := (hiff23 ra).2 hra.2
    have havoid : ∀ n, ((find fuel (find fuel par a).2 b).2)^[n] ra ≠ rb := by
      intro n
      rw [iterate_fix hrootra]
      exact fun he => hne he
    obtain ⟨wf4, hmap4⟩ := redirect_spec wf3 hrbD hraD
      (reaches_self hrootrb) (reaches_self hrootra) havoid
    rw [hunf]
    refine ⟨wf4, ?_, ?_, ?_, ?_⟩
    · intro y r hre
      have hre3 := hmono23 y r hre
      rcases hmap4 y r hre3 with ⟨hav, h⟩ | ⟨hrr, h⟩
      · have hrrb : r ≠ rb := by
          obtain ⟨⟨n, hn⟩, -⟩ := hre3
          rw [← hn]
          exact hav n
        rw [if_neg (by intro hc; exact hrrb hc.2)]
        exact h
      · rw [if_pos ⟨hne, hrr⟩]
        exact h
    · intro y hyrb
      dsimp only
      rw [if_neg hyrb]
      exact hiff23 y
    · intro _
      dsimp only
      rw [if_pos rfl]
    · intro he
      exact absurd he hne
  · rw [if_neg hne] at hunf
    push_neg at hne
    rw [hunf]
    refine ⟨wf3, ?_, ?_, ?_, ?_⟩
    · intro y r hre
      rw [if_neg (by intro hc; exact hc.1 hne)]
      exact hmono23 y r hre
    · intro y _
      exact hiff23 y
    · intro h
      exact absurd hne h
    · intro _
      exact hiff23

theorem wallList_endpoints {rows cols : ℕ} :
    ∀ w ∈ wallList rows cols, w.1 ∈ cellFinset rows cols ∧
      w.2 ∈ cellFinset rows cols ∧ Adj2 w.1 w.2 := by
  intro w hw
  unfold wallList at hw
  rw [List.mem_bind] at hw
  obtain ⟨r, hr, hw⟩ := hw
  rw [List.mem_bind] at hw
  obtain ⟨c, hc, hw⟩ := hw
  rw [mem_evensBelow] at hr hc
  rw [List.mem_append] at hw
  rcases hw with hw | hw
  · split at hw
    · rename_i hcond
      rw [List.mem_singleton] at hw
      subst hw
      refine ⟨?_, ?_, ?_⟩
      · rw [mem_cellFinset]; dsimp only; omega
      · rw [mem_cellFinset]; dsimp only; omega
      · exact Or.inl ⟨rfl, Or.inl rfl⟩
    · exact absurd hw (List.not_mem_nil w)
  · split at hw
    · rename_i hcond
      rw [List.mem_singleton] at hw
      subst hw
      refine ⟨?_, ?_, ?_⟩
      · rw [mem_cellFinset]; dsimp only; omega
      · rw [mem_cellFinset]; dsimp only; omega
      · exact Or.inr ⟨rfl, Or.inl rfl⟩
    · exact absurd hw (List.not_mem_nil w)

theorem wallList_complete {rows cols : ℕ} {p q : Pos}
    (hp : p ∈ cellFinset rows cols) (hq : q ∈ cellFinset rows cols) (hadj : Adj2 p q) :
    (p, q) ∈ wallList rows cols ∨ (q, p) ∈ wallList rows cols := by
  have hpb := mem_cellFinset.1 hp
  have hqb := mem_cellFinset.1 hq
  have hmem : ∀ a b : Pos, a ∈ cellFinset rows cols →
      ((a.1 = b.1 ∧ a.2 + 2 = b.2) ∨ (a.2 = b.2 ∧ a.1 + 2 = b.1)) →
      b ∈ cellFinset rows cols → (a, b) ∈ wallList rows cols := by
    intro a b hac hdir hbc
    have hab := mem_cellFinset.1 hac
    have hbb := mem_cellFinset.1 hbc
    unfold wallList
    rw [List.mem_bind]
    refine ⟨a.1, mem_evensBelow.2 ⟨hab.1, hab.2.2.1⟩, ?_⟩
    rw [List.mem_bind]
    refine ⟨a.2, mem_evensBelow.2 ⟨hab.2.1, hab.2.2.2⟩, ?_⟩
    rw [List.mem_append]
    rcases hdir with ⟨h1, h2⟩ | ⟨h1, h2⟩
    · left
      rw [if_pos (by omega)]
      rw [List.mem_singleton]
      rcases a with ⟨a1, a2⟩
      rcases b with ⟨b1, b2⟩
      simp only at h1 h2 ⊢
      rw [Prod.mk.injEq, Prod.mk.injEq, Prod.mk.injEq]
      omega
    · right
      rw [if_pos (by omega)]
      rw [List.mem_singleton]
      rcases a with ⟨a1, a2⟩
      rcases b with ⟨b1, b2⟩
      simp only at h1 h2 ⊢
      rw [Prod.mk.injEq, Prod.mk.injEq, Prod.mk.injEq]
      omega
  unfold Adj2 at hadj
  rcases hadj with ⟨h1, h2 | h2⟩ | ⟨h1, h2 | h2⟩
  · exact Or.inl (hmem p q hp (Or.inl ⟨h1, h2⟩) hq)
  · exact Or.inr (hmem q p hq (Or.inl ⟨h1.symm, h2⟩) hp)
  · exact Or.inl (hmem p q hp (Or.inr ⟨h1, h2⟩) hq)
  · exact Or.inr (hmem q p hq (Or.inr ⟨h1.symm, h2⟩) hp)

theorem length_swap (l : List Wall) (i j : ℕ) : (swap l i j).length = l.length := by
  simp [swap]

theorem swap_mem {l : List Wall} {i j : ℕ} (hi : i < l.length) (hj : j < l.length)
    (x : Wall) : x ∈ swap l i j ↔ x ∈ l := by
  have hlen : (swap l i j).length = l.length := length_swap l i j
  have hget : ∀ n (hn : n < (swap l i j).length), (swap l i j)[n] =
      if j = n then l.getD i ((0, 0), (0, 0))
      else if i = n then l.getD j ((0, 0), (0, 0))
      else l.getD n ((0, 0), (0, 0)) := by
    intro n hn
    have hn2 : n < l.length := hlen ▸ hn
    unfold swap
    dsimp only
    rw [List.getElem_set, List.getElem_set]
    rw [List.getD_eq_getElem _ _ hn2]
  have hgi : l.getD i ((0, 0), (0, 0)) = l[i] := List.getD_eq_getElem _ _ hi
  have hgj : l.getD j ((0, 0), (0, 0)) = l[j] := List.getD_eq_getElem _ _ hj
  constructor
  · intro hx
    rw [List.mem_iff_getElem] at hx
    obtain ⟨n, hn, he⟩ := hx
    rw [hget n hn] at he
    have hn2 : n < l.length := hlen ▸ hn
    split at he
    · rw [hgi] at he
      exact he ▸ List.getElem_mem hi
    · split at he
      · rw [hgj] at he
        exact he ▸ List.getElem_mem hj
      · rw [List.getD_eq_getElem _ _ hn2] at he
        exact he ▸ List.getElem_mem hn2
  · intro hx
    rw [List.mem_iff_getElem] at hx
    obtain ⟨m, hm, he⟩ := hx
    rw [List.mem_iff_getElem]
    by_cases hmi : m = i
    · subst hmi
      have hjlt : j < (swap l m j).length := by
        rw [hlen]
        exact hj
      refine ⟨j, hjlt, ?_⟩
      rw [hget j hjlt, if_pos rfl, hgi]
      exact he
    · by_cases hmj : m = j
      · subst hmj
        have hilt : i < (swap l i m).length := by
          rw [hlen]
          exact hi
        refine ⟨i, hilt, ?_⟩
        rw [hget i hilt, if_neg (by omega), if_pos rfl, hgj]
        exact he
      · have hmlt : m < (swap l i j).length := by
          rw [hlen]
          exact hm
        refine ⟨m, hmlt, ?_⟩
        rw [hget m hmlt, if_neg (by omega), if_neg (by omega)]
        rw [List.getD_eq_getElem _ _ hm]
        exact he

theorem fisherYates_mem (stream : ℕ → ℕ) :
    ∀ (i k : ℕ) (l : List Wall), i < l.length →
      ∀ x, (x ∈ fisherYates stream k i l ↔ x ∈ l) := by
  intro i
  induction i with
  | zero =>
    intro k l hi x
    exact Iff.rfl
  | succ i ih =>
    intro k l hi x
    show x ∈ fisherYates stream (k + 1) i (swap l (i + 1) (stream k % (i + 1 + 1))) ↔ x ∈ l
    have hj : stream k % (i + 1 + 1) < l.length := by
      have := Nat.mod_lt (stream k) (show 0 < i + 1 + 1 by omega)
      omega
    have hlen : i < (swap l (i + 1) (stream k % (i + 1 + 1))).length := by
      rw [length_swap]
      omega
    rw [ih (k + 1) _ hlen x]
    exact swap_mem hi hj x

theorem sameSet_iff_root {par : Pos → Pos} {x y rx ry : Pos}
    (hx : Reaches par x rx) (hy : Reaches par y ry) :
    sameSet par x y ↔ rx = ry := by
  constructor
  · rintro ⟨r, h1, h2⟩
    exact (reaches_unique hx h1).trans (reaches_unique hy h2).symm
  · intro h
    exact ⟨rx, hx, h ▸ hy⟩

theorem reachable_sameSet {rows cols : ℕ} {g : Pos → CellValue} {par : Pos → Pos}
    (wf : UFWf (cellFinset rows cols) par)
    (hedge : ∀ p q : CellV rows cols, (mazeGraph rows cols g).Adj p q →
      sameSet par p.1 q.1)
    {a b : CellV rows cols} (h : (mazeGraph rows cols g).Reachable a b) :
    sameSet par a.1 b.1 := by
  obtain ⟨w⟩ := h
  induction w with
  | nil => exact sameSet_refl wf _
  | cons hadj rest ih => exact sameSet_trans (hedge _ _ hadj) ih

theorem filter_roots_erase {D : Finset Pos} {par par' : Pos → Pos} {rb : Pos}
    (hoff : ∀ y, y ≠ rb → (par' y = y ↔ par y = y)) (hnew : par' rb ≠ rb) :
    (D.filter fun x => par' x = x) = (D.filter fun x => par x = x).erase rb := by
  ext x
  rw [Finset.mem_filter, Finset.mem_erase, Finset.mem_filter]
  by_cases hx : x = rb
  · subst hx
    constructor
    · rintro ⟨-, h⟩
      exact absurd h hnew
    · rintro ⟨h, -⟩
      exact absurd rfl h
  · rw [hoff x hx]
    constructor
    · rintro ⟨h1, h2⟩
      exact ⟨hx, h1, h2⟩
    · rintro ⟨-, h1, h2⟩
      exact ⟨h1, h2⟩

/-- Invariant of the Kruskal main loop, over the grid together with the
parent map: the map is well-formed; every maze cell is walkable; edges of the
cell graph join same-set endpoints and conversely same-set cells are
connected; the graph is acyclic; and the number of union-find classes plus
the number of opened midpoints equals the number of maze cells. -/
structure KInv (rows cols : ℕ) (st : (Pos → CellValue) × (Pos → Pos)) : Prop where
  wf : UFWf (cellFinset rows cols) st.2
  cellsW : ∀ p ∈ cellFinset rows cols, st.1 p = 1
  edgeSame : ∀ p q : CellV rows cols, (mazeGraph rows cols st.1).Adj p q →
    sameSet st.2 p.1 q.1
  sameReach : ∀ p q : CellV rows cols, sameSet st.2 p.1 q.1 →
    (mazeGraph rows cols st.1).Reachable p q
  acyc : (mazeGraph rows cols st.1).IsAcyclic
  count : ((cellFinset rows cols).filter fun x => st.2 x = x).card +
    (openedMids rows cols st.1).card = (cellFinset rows cols).card

theorem kruskalInit_inv (rows cols : ℕ) :
    KInv rows cols ((fun p => if p ∈ cellFinset rows cols then 1 else 0), fun p => p) := by
  set g0 : Pos → CellValue := fun p => if p ∈ cellFinset rows cols then 1 else 0 with hg0
  have hmid0 : ∀ m ∈ midFinset rows cols, g0 m = 0 := by
    intro m hm
    rw [hg0]
    dsimp only
    rw [if_neg]
    intro hc
    rw [mem_cellFinset] at hc
    rw [mem_midFinset] at hm
    omega
  have hreach_id : ∀ x r : Pos, Reaches (fun p => p) x r → r = x := by
    rintro x r ⟨⟨n, hn⟩, -⟩
    rw [iterate_fix rfl] at hn
    exact hn.symm
  have hnoadj : ∀ p q : CellV rows cols, ¬ (mazeGraph rows cols g0).Adj p q := by
    rintro p q ⟨h1, h2⟩
    rw [hmid0 _ (midOf_mem_midFinset p.2 q.2 h1)] at h2
    exact absurd h2 (by decide)
  refine ⟨⟨fun x hx => hx, fun _ _ => rfl, fun _ _ _ _ => rfl⟩, ?_, ?_, ?_, ?_, ?_⟩
  · intro p hp
    show g0 p = 1
    rw [hg0]
    dsimp only
    rw [if_pos hp]
  · intro p q hadj
    exact absurd hadj (hnoadj p q)
  · rintro p q ⟨r, h1, h2⟩
    have he : p.1 = q.1 := (hreach_id _ _ h1).symm.trans (hreach_id _ _ h2)
    have : p = q := Subtype.ext he
    exact this ▸ SimpleGraph.Reachable.refl p
  · intro v c hc
    cases c with
    | nil => exact hc.ne_nil rfl
    | cons hadj rest => exact hnoadj _ _ hadj
  · have h1 : ((cellFinset rows cols).filter fun x => (fun p : Pos => p) x = x) =
        cellFinset rows cols := by
      apply Finset.filter_true_of_mem
      intro x _
      rfl
    have h2 : openedMids rows cols g0 = ∅ := by
      unfold openedMids
      apply Finset.filter_false_of_mem
      intro m hm
      rw [hmid0 m hm]
      decide
    rw [h1, h2, Finset.card_empty]
    omega

/-- One Kruskal step preserves the invariant, makes the endpoints of the
processed wall same-set, and never separates a same-set pair. -/
theorem kruskalStep_spec {rows cols : ℕ} {st : (Pos → CellValue) × (Pos → Pos)}
    (hinv : KInv rows cols st) {w : Wall}
    (hw1 : w.1 ∈ cellFinset rows cols) (hw2 : w.2 ∈ cellFinset rows cols)
    (hadj : Adj2 w.1 w.2) {fuel : ℕ} (hfuel : (cellFinset rows cols).card < fuel) :
    KInv rows cols (kruskalStep fuel st w) ∧
    sameSet (kruskalStep fuel st w).2 w.1 w.2 ∧
    (∀ x y, sameSet st.2 x y → sameSet (kruskalStep fuel st w).2 x y) := by
  obtain ⟨wf, cellsW, edgeSame, sameReach, acyc, count⟩ := hinv
  obtain ⟨d1, hd1, hroot1⟩ := wf.exists_rootdepth w.1
  obtain ⟨hu1, wf2, iff2, mono2⟩ := find_spec d1 st.2 wf w.1 hroot1 fuel (by omega)
  set ra := st.2^[d1] w.1 with hra_def
  have hra : Reaches st.2 w.1 ra := ⟨⟨d1, rfl⟩, hroot1⟩
  obtain ⟨d2, hd2, hroot2⟩ := wf2.exists_rootdepth w.2
  obtain ⟨hu2, wf3, iff3, mono3⟩ :=
    find_spec d2 (find fuel st.2 w.1).2 wf2 w.2 hroot2 fuel (by omega)
  set rb := ((find fuel st.2 w.1).2)^[d2] w.2 with hrb_def
  have hrb2 : Reaches (find fuel st.2 w.1).2 w.2 rb := ⟨⟨d2, rfl⟩, hroot2⟩
  have hriff2 := reaches_iff_of_mono wf mono2
  have hrb : Reaches st.2 w.2 rb := (hriff2 w.2 rb).1 hrb2
  have hunf : kruskalStep fuel st w =
      if (find fuel st.2 w.1).1 ≠ (find fuel (find fuel st.2 w.1).2 w.2).1 then
        (setCell st.1 (midOf w.1 w.2) 1,
          union fuel (find fuel (find fuel st.2 w.1).2 w.2).2 w.1 w.2)
      else (st.1, (find fuel (find fuel st.2 w.1).2 w.2).2) := by
    conv_lhs => unfold kruskalStep
  rw [hu1, hu2] at hunf
  set p3 := (find fuel (find fuel st.2 w.1).2 w.2).2 with hp3_def
  have mono13 : ∀ y r, Reaches st.2 y r → Reaches p3 y r :=
    fun y r h => mono3 y r (mono2 y r h)
  have riff13 := reaches_iff_of_mono wf mono13
  have iff13 : ∀ y, (p3 y = y ↔ st.2 y = y) :=
    fun y => (iff3 y).trans (iff2 y)
  have hra3 : Reaches p3 w.1 ra := mono13 _ _ hra
  have hrb3 : Reaches p3 w.2 rb := mono3 _ _ hrb2
  have hsame13 : ∀ x y, sameSet st.2 x y → sameSet p3 x y := by
    rintro x y ⟨r, h1, h2⟩
    exact ⟨r, mono13 _ _ h1, mono13 _ _ h2⟩
  have hsame31 : ∀ x y, sameSet p3 x y → sameSet st.2 x y := by
    rintro x y ⟨r, h1, h2⟩
    exact ⟨r, (riff13 _ _).1 h1, (riff13 _ _).1 h2⟩
  by_cases hne : ra ≠ rb
  · rw [if_pos hne] at hunf
    obtain ⟨wf4, hmapU, hoffU, hrbU, -⟩ := union_spec wf3 hw1 hw2 hra3 hrb3 hfuel
    set pU := union fuel p3 w.1 w.2 with hpU_def
    set m := midOf w.1 w.2 with hm_def
    have hmmid : m ∈ midFinset rows cols := midOf_mem_midFinset hw1 hw2 hadj
    set vw1 : CellV rows cols := ⟨w.1, hw1⟩ with hvw1_def
    set vw2 : CellV rows cols := ⟨w.2, hw2⟩ with hvw2_def
    have hAraU : Reaches pU w.1 ra := by
      have h := hmapU w.1 ra hra3
      rwa [ite_self] at h
    have hArbU : Reaches pU w.2 ra := by
      have h := hmapU w.2 rb hrb3
      rwa [if_pos ⟨hne, rfl⟩] at h
    have hsameU_w : sameSet pU w.1 w.2 := ⟨ra, hAraU, hArbU⟩
    have hmono1U : ∀ x y, sameSet st.2 x y → sameSet pU x y := by
      rintro x y ⟨r, h1, h2⟩
      exact ⟨_, hmapU x r (mono13 _ _ h1), hmapU y r (mono13 _ _ h2)⟩
    have hGeq : mazeGraph rows cols (setCell st.1 m 1) =
        mazeGraph rows cols st.1 ⊔ SimpleGraph.fromEdgeSet {s(vw1, vw2)} :=
      mazeGraph_setCell_mid rows cols st.1 vw1 vw2 hadj
    have hnr : ¬ (mazeGraph rows cols st.1).Reachable vw1 vw2 := by
      intro h
      have hs : sameSet st.2 w.1 w.2 := reachable_sameSet wf edgeSame h
      rw [sameSet_iff_root hra hrb] at hs
      exact hne hs
    have hmnot : m ∉ openedMids rows cols st.1 := by
      intro hmem
      have h1 : st.1 m = 1 := by
        unfold openedMids at hmem
        exact (Finset.mem_filter.1 hmem).2
      exact hnr (SimpleGraph.Adj.reachable (mazeGraph_adj.2 ⟨hadj, h1⟩))
    have hvne : vw1 ≠ vw2 := fun h => hadj.ne (congrArg Subtype.val h)
    have hreachG : ∀ a b : CellV rows cols, (mazeGraph rows cols st.1).Reachable a b →
        (mazeGraph rows cols (setCell st.1 m 1)).Reachable a b := by
      intro a b h
      rw [hGeq]
      exact h.mono le_sup_left
    have hedgeR : (mazeGraph rows cols (setCell st.1 m 1)).Reachable vw1 vw2 := by
      rw [hGeq]
      refine SimpleGraph.Adj.reachable ?_
      rw [SimpleGraph.sup_adj, SimpleGraph.fromEdgeSet_adj]
      right
      exact ⟨Set.mem_singleton _, hvne⟩
    rw [hunf]
    refine ⟨⟨?_, ?_, ?_, ?_, ?_, ?_⟩, ?_, ?_⟩
    · exact wf4
    · intro p hp
      show setCell st.1 m 1 p = 1
      have hpm : p ≠ m := by
        intro he
        exact cell_not_mid (mem_cellFinset.1 hp).2.2.1 (mem_cellFinset.1 hp).2.2.2
          (he ▸ hmmid)
      rw [setCell_other st.1 m p 1 hpm]
      exact cellsW p hp
    · intro p q hadjpq
      have hadjpq2 : (mazeGraph rows cols st.1 ⊔
          SimpleGraph.fromEdgeSet {s(vw1, vw2)}).Adj p q := by
        rw [← hGeq]
        exact hadjpq
      rw [SimpleGraph.sup_adj] at hadjpq2
      rcases hadjpq2 with h | h
      · exact hmono1U _ _ (edgeSame p q h)
      · rw [SimpleGraph.fromEdgeSet_adj, Set.mem_singleton_iff, Sym2.eq_iff] at h
        rcases h with ⟨⟨rfl, rfl⟩ | ⟨rfl, rfl⟩, -⟩
        · exact hsameU_w
        · exact sameSet_symm hsameU_w
    · intro p q hs
      have hs' : sameSet pU p.1 q.1 := hs
      obtain ⟨rp, hrp⟩ := wf.exists_reaches p.1
      obtain ⟨rq, hrq⟩ := wf.exists_reaches q.1
      have hrpU := hmapU p.1 rp (mono13 _ _ hrp)
      have hrqU := hmapU q.1 rq (mono13 _ _ hrq)
      have hfe := (sameSet_iff_root hrpU hrqU).1 hs'
      show (mazeGraph rows cols (setCell st.1 m 1)).Reachable p q
      by_cases hrpb : rp = rb
      · by_cases hrqb : rq = rb
        · have hss : sameSet st.2 p.1 q.1 := ⟨rb, hrpb ▸ hrp, hrqb ▸ hrq⟩
          exact hreachG p q (sameReach p q hss)
        · rw [if_pos ⟨hne, hrpb⟩, if_neg (fun hc => hrqb hc.2)] at hfe
          have hp2 : sameSet st.2 p.1 w.2 := ⟨rb, hrpb ▸ hrp, hrb⟩
          have hq1 : sameSet st.2 q.1 w.1 := ⟨ra, hfe.symm ▸ hrq, hra⟩
          exact ((hreachG p vw2 (sameReach p vw2 hp2)).trans hedgeR.symm).trans
            (hreachG vw1 q (sameReach vw1 q (sameSet_symm hq1)))
      · by_cases hrqb : rq = rb
        · rw [if_neg (fun hc => hrpb hc.2), if_pos ⟨hne, hrqb⟩] at hfe
          have hp1 : sameSet st.2 p.1 w.1 := ⟨ra, hfe ▸ hrp, hra⟩
          have hq2 : sameSet st.2 q.1 w.2 := ⟨rb, hrqb ▸ hrq, hrb⟩
          exact ((hreachG p vw1 (sameReach p vw1 hp1)).trans hedgeR).trans
            (hreachG vw2 q (sameReach vw2 q (sameSet_symm hq2)))
        · rw [if_neg (fun hc => hrpb hc.2), if_neg (fun hc => hrqb hc.2)] at hfe
          have hss : sameSet st.2 p.1 q.1 := ⟨rq, hfe ▸ hrp, hrq⟩
          exact hreachG p q (sameReach p q hss)
    · show (mazeGraph rows cols (setCell st.1 m 1)).IsAcyclic
      rw [hGeq]
      exact addEdge_isAcyclic hnr acyc
    · show ((cellFinset rows cols).filter fun x => pU x = x).card +
        (openedMids rows cols (setCell st.1 m 1)).card = (cellFinset rows cols).card
      have hrbD : rb ∈ cellFinset rows cols := wf.reaches_mem hw2 hrb
      have hrbroot3 : p3 rb = rb := (iff13 rb).2 hrb.2
      have hUrb : pU rb ≠ rb := by
        rw [hrbU hne]
        exact hne
      have hflt : ((cellFinset rows cols).filter fun x => pU x = x) =
          ((cellFinset rows cols).filter fun x => p3 x = x).erase rb :=
        filter_roots_erase hoffU hUrb
      have hflt3 : ((cellFinset rows cols).filter fun x => p3 x = x) =
          ((cellFinset rows cols).filter fun x => st.2 x = x) :=
        Finset.filter_congr (fun x _ => iff13 x)
      rw [hflt3] at hflt
      have hrbin : rb ∈ (cellFinset rows cols).filter fun x => st.2 x = x :=
        Finset.mem_filter.2 ⟨hrbD, hrb.2⟩
      have hmids : openedMids rows cols (setCell st.1 m 1) =
          insert m (openedMids rows cols st.1) :=
        openedMids_setCell_mid rows cols st.1 hmmid
      rw [hflt, hmids, Finset.card_erase_of_mem hrbin,
        Finset.card_insert_of_not_mem hmnot]
      have hpos : 0 < ((cellFinset rows cols).filter fun x => st.2 x = x).card :=
        Finset.card_pos.2 ⟨rb, hrbin⟩
      omega
    · exact hsameU_w
    · intro x y h
      exact hmono1U x y h
  · rw [if_neg hne] at hunf
    have heq : ra = rb := of_not_not hne
    rw [hunf]
    refine ⟨⟨wf3, cellsW, ?_, ?_, acyc, ?_⟩, ?_, ?_⟩
    · intro p q h
      exact hsame13 _ _ (edgeSame p q h)
    · intro p q h
      exact sameReach p q (hsame31 _ _ h)
    · show ((cellFinset rows cols).filter fun x => p3 x = x).card +
        (openedMids rows cols st.1).card = (cellFinset rows cols).card
      have hflt3 : ((cellFinset rows cols).filter fun x => p3 x = x) =
          ((cellFinset rows cols).filter fun x => st.2 x = x) :=
        Finset.filter_congr (fun x _ => iff13 x)
      rw [hflt3]
      exact count
    · exact ⟨rb, mono13 w.1 rb (heq ▸ hra), hrb3⟩
    · intro x y h
      exact hsame13 x y h

/-- Folding the Kruskal step over a wall list preserves the invariant, makes
every processed wall same-set, and never separates a same-set pair. -/
theorem kruskalFold_spec {rows cols : ℕ} {fuel : ℕ}
    (hfuel : (cellFinset rows cols).card < fuel) :
    ∀ (ws : List Wall) (st : (Pos → CellValue) × (Pos → Pos)), KInv rows cols st →
      (∀ w ∈ ws, w.1 ∈ cellFinset rows cols ∧ w.2 ∈ cellFinset rows cols ∧
        Adj2 w.1 w.2) →
      KInv rows cols (ws.foldl (kruskalStep fuel) st) ∧
      (∀ w ∈ ws, sameSet (ws.foldl (kruskalStep fuel) st).2 w.1 w.2) ∧
      (∀ x y, sameSet st.2 x y → sameSet (ws.foldl (kruskalStep fuel) st).2 x y) := by
  intro ws
  induction ws with
  | nil =>
    intro st hinv _
    exact ⟨hinv, fun w hw => absurd hw (List.not_mem_nil w), fun x y h => h⟩
  | cons w ws ih =>
    intro st hinv hall
    obtain ⟨hw1, hw2, hadj⟩ := hall w (List.mem_cons_self w ws)
    obtain ⟨hinv2, hsw, hmono⟩ := kruskalStep_spec hinv hw1 hw2 hadj hfuel
    obtain ⟨hinvF, hperF, hmonoF⟩ := ih (kruskalStep fuel st w) hinv2
      (fun v hv => hall v (List.mem_cons_of_mem w hv))
    rw [List.foldl_cons]
    refine ⟨hinvF, ?_, fun x y h => hmonoF x y (hmono x y h)⟩
    intro v hv
    rcases List.mem_cons.1 hv with rfl | hv
    · exact hmonoF _ _ hsw
    · exact hperF v hv

/-- The Kruskal generator produces a perfect maze on the adjusted odd
dimensions: every cell is walkable, the cell graph is a tree, and the number
of opened midpoint walls is one less than the number of cells. -/
theorem generateMazeKruskal_perfect (size : GridSize) (stream : ℕ → ℕ)
    (hr : 1 ≤ size.rows) (hc : 1 ≤ size.cols) :
    (∀ p ∈ cellFinset (generateMazeKruskal size stream).rows
        (generateMazeKruskal size stream).cols,
      (generateMazeKruskal size stream).cell p = 1) ∧
    (mazeGraph (generateMazeKruskal size stream).rows
      (generateMazeKruskal size stream).cols
      (generateMazeKruskal size stream).cell).Connected ∧
    (mazeGraph (generateMazeKruskal size stream).rows
      (generateMazeKruskal size stream).cols
      (generateMazeKruskal size stream).cell).IsAcyclic ∧
    (openedMids (generateMazeKruskal size stream).rows
      (generateMazeKruskal size stream).cols
      (generateMazeKruskal size stream).cell).card + 1 =
      (cellFinset (generateMazeKruskal size stream).rows
        (generateMazeKruskal size stream).cols).card := by
  classical
  set rows := adjDim size.rows with hrowsdef
  set cols := adjDim size.cols with hcolsdef
  have hr1 : 1 ≤ rows := one_le_adjDim hr
  have hc1 : 1 ≤ cols := one_le_adjDim hc
  have hG : generateMazeKruskal size stream =
      { rows := rows, cols := cols,
        cell := ((fisherYates stream 0 ((wallList rows cols).length - 1)
            (wallList rows cols)).foldl (kruskalStep (rows * cols + 1))
          ((fun p => if p ∈ cellFinset rows cols then 1 else 0), fun p => p)).1 } := rfl
  have hcard : (cellFinset rows cols).card ≤ rows * cols := by
    calc (cellFinset rows cols).card
        ≤ (Finset.range rows ×ˢ Finset.range cols).card := Finset.card_filter_le _ _
      _ = rows * cols := by
          rw [Finset.card_product, Finset.card_range, Finset.card_range]
  have hfuel : (cellFinset rows cols).card < rows * cols + 1 := by omega
  have hmemW : ∀ x, (x ∈ fisherYates stream 0 ((wallList rows cols).length - 1)
      (wallList rows cols) ↔ x ∈ wallList rows cols) := by
    rcases Nat.eq_zero_or_pos (wallList rows cols).length with h0 | h0
    · rw [List.length_eq_zero] at h0
      rw [h0]
      intro x
      exact Iff.rfl
    · intro x
      exact fisherYates_mem stream _ 0 _ (by omega) x
  have hall : ∀ w ∈ fisherYates stream 0 ((wallList rows cols).length - 1)
      (wallList rows cols), w.1 ∈ cellFinset rows cols ∧
      w.2 ∈ cellFinset rows cols ∧ Adj2 w.1 w.2 :=
    fun w hw => wallList_endpoints w ((hmemW w).1 hw)
  obtain ⟨hinvF, hperF, -⟩ := kruskalFold_spec hfuel
    (fisherYates stream 0 ((wallList rows cols).length - 1) (wallList rows cols))
    ((fun p => if p ∈ cellFinset rows cols then 1 else 0), fun p => p)
    (kruskalInit_inv rows cols) hall
  set stF := (fisherYates stream 0 ((wallList rows cols).length - 1)
      (wallList rows cols)).foldl (kruskalStep (rows * cols + 1))
    ((fun p => if p ∈ cellFinset rows cols then 1 else 0), fun p => p) with hstF_def
  obtain ⟨wfF, cellsWF, edgeSameF, sameReachF, acycF, countF⟩ := hinvF
  have h00 : (0, 0) ∈ cellFinset rows cols := mem_cellFinset.2 ⟨hr1, hc1, rfl, rfl⟩
  have hadjsame : ∀ p q : Pos, p ∈ cellFinset rows cols → q ∈ cellFinset rows cols →
      Adj2 p q → sameSet stF.2 p q := by
    intro p q hp hq hadj
    rcases wallList_complete hp hq hadj with h | h
    · exact hperF (p, q) ((hmemW _).2 h)
    · exact sameSet_symm (hperF (q, p) ((hmemW _).2 h))
  have hallsame : ∀ p ∈ cellFinset rows cols, sameSet stF.2 (0, 0) p := by
    have hS : ((cellFinset rows cols).filter fun p => sameSet stF.2 (0, 0) p) =
        cellFinset rows cols := by
      apply closed_eq_cellFinset (Finset.filter_subset _ _)
      · exact Finset.mem_filter.2 ⟨h00, sameSet_refl wfF _⟩
      · intro p hp q hq hadj
        rw [Finset.mem_filter] at hp
        exact Finset.mem_filter.2 ⟨hq, sameSet_trans hp.2 (hadjsame p q hp.1 hq hadj)⟩
    intro p hp
    have hmem : p ∈ (cellFinset rows cols).filter fun p => sameSet stF.2 (0, 0) p := by
      rw [hS]
      exact hp
    exact (Finset.mem_filter.1 hmem).2
  have hconn : (mazeGraph rows cols stF.1).Connected := by
    rw [SimpleGraph.connected_iff]
    refine ⟨?_, ⟨⟨(0, 0), h00⟩⟩⟩
    intro u v
    have hu : sameSet stF.2 (0, 0) u.1 := hallsame u.1 u.2
    have hv : sameSet stF.2 (0, 0) v.1 := hallsame v.1 v.2
    exact sameReachF u v (sameSet_trans (sameSet_symm hu) hv)
  obtain ⟨r0, hr0⟩ := wfF.exists_reaches (0, 0)
  have hroots : ((cellFinset rows cols).filter fun x => stF.2 x = x) = {r0} := by
    ext x
    rw [Finset.mem_filter, Finset.mem_singleton]
    constructor
    · rintro ⟨hxD, hxroot⟩
      obtain ⟨r, h1, h2⟩ := hallsame x hxD
      have hxr : x = r := reaches_unique (reaches_self hxroot) h2
      have hr0r : r0 = r := reaches_unique hr0 h1
      rw [hxr, hr0r]
    · rintro rfl
      exact ⟨wfF.reaches_mem h00 hr0, hr0.2⟩
  have hcount1 : (openedMids rows cols stF.1).card + 1 = (cellFinset rows cols).card := by
    rw [hroots, Finset.card_singleton] at countF
    omega
  rw [hG]
  exact ⟨cellsWF, hconn, acycF, hcount1⟩

/-! ## Claim-level notions -/

/-- A grid is a perfect maze when every maze cell is walkable, the cell graph
over the walkable cells and opened midpoints is connected and acyclic, and
the opened midpoints number exactly one less than the maze cells. -/
def IsPerfectMaze (G : Grid) : Prop :=
  (∀ p ∈ cellFinset G.rows G.cols, G.cell p = 1) ∧
  (mazeGraph G.rows G.cols G.cell).Connected ∧
  (mazeGraph G.rows G.cols G.cell).IsAcyclic ∧
  (openedMids G.rows G.cols G.cell).card + 1 = (cellFinset G.rows G.cols).card

theorem toLists_shape (G : Grid) :
    G.toLists.length = G.rows ∧ ∀ r ∈ G.toLists, r.length = G.cols := by
  constructor
  · simp [Grid.toLists]
  · intro r hr
    simp only [Grid.toLists, List.mem_map, List.mem_range] at hr
    obtain ⟨i, -, rfl⟩ := hr
    simp

theorem generateRandomMaze_cell_zero (size : GridSize) (d : ℚ) (rand : ℕ → ℚ)
    (r c : ℕ) (hr : r < size.rows) (hc : c < size.cols) :
    ((generateRandomMaze size d rand).getD r []).getD c 0 =
      if rand (r * size.cols + c) < d then 0 else 1 := by
  have hr2 : r < (generateRandomMaze size d rand).length := by
    simpa [generateRandomMaze] using hr
  rw [List.getD_eq_getElem _ _ hr2]
  have h3 : (generateRandomMaze size d rand)[r] =
      (List.range size.cols).map
        (fun col => if rand (r * size.cols + col) < d then 0 else 1) := by
    simp [generateRandomMaze]
  rw [h3]
  have hc2 : c < ((List.range size.cols).map
      (fun col => if rand (r * size.cols + col) < d then 0 else 1)).length := by
    simpa using hc
  rw [List.getD_eq_getElem _ _ hc2]
  simp

theorem updateCell_get_zero (grid : List (List CellValue)) (row col : ℤ) (v : CellValue)
    (i : ℕ) (hi : i < grid.length) (j : ℕ) (hj : j < (grid.getD i []).length) :
    ((updateCell grid row col v).getD i []).getD j 0 =
      if (i : ℤ) = row ∧ (j : ℤ) = col then v else (grid.getD i []).getD j 0 := by
  rw [List.getD_eq_getElem _ _ hi] at hj ⊢
  have hi2 : i < (updateCell grid row col v).length := by
    simpa [updateCell_length] using hi
  rw [List.getD_eq_getElem _ _ hi2]
  have h3 : (updateCell grid row col v)[i] =
      grid[i].mapIdx fun colIndex cell =>
        if (i : ℤ) = row ∧ (colIndex : ℤ) = col then v else cell := by
    unfold updateCell
    exact getElem_mapIdx grid _ i hi hi2
  rw [h3]
  have hj2 : j < (grid[i].mapIdx fun colIndex cell =>
      if (i : ℤ) = row ∧ (colIndex : ℤ) = col then v else cell).length := by
    simpa [List.length_mapIdx] using hj
  rw [List.getD_eq_getElem _ _ hj2, List.getD_eq_getElem _ _ hj]
  exact getElem_mapIdx grid[i] _ j hj hj2

/-- Parent maps reachable during a Kruskal run: the initial identity map,
closed under find (with its path compression) and union on cell keys, always
called with the ample fuel the run supplies. -/
inductive UFReachable (D : Finset Pos) : (Pos → Pos) → Prop where
  | init : UFReachable D fun p => p
  | findStep {par : Pos → Pos} (x : Pos) {fuel : ℕ} (h : UFReachable D par)
      (hfuel : D.card < fuel) : UFReachable D (find fuel par x).2
  | unionStep {par : Pos → Pos} (a b : Pos) {fuel : ℕ} (h : UFReachable D par)
      (hfuel : D.card < fuel) (ha : a ∈ D) (hb : b ∈ D) :
      UFReachable D (union fuel par a b)

theorem ufreachable_wf {D : Finset Pos} {par : Pos → Pos} (h : UFReachable D par) :
    UFWf D par := by
  induction h with
  | init => exact ⟨fun x hx => hx, fun _ _ => rfl, fun _ _ _ _ => rfl⟩
  | @findStep q x fuel h hfuel ih =>
    obtain ⟨d, hd, hroot⟩ := ih.exists_rootdepth x
    exact (find_spec d q ih x hroot fuel (by omega)).2.1
  | @unionStep q a b fuel h hfuel ha hb ih =>
    obtain ⟨ra, hra⟩ := ih.exists_reaches a
    obtain ⟨rb, hrb⟩ := ih.exists_reaches b
    exact (union_spec ih ha hb hra hrb hfuel).1

/-- A Prim state whose single frontier cell has no walkable neighbor,
exercising the skip branch of the main loop. -/
def primSkipState : PrimState :=
  { g := fun p => if p = (0, 0) then 1 else 0
    vis := {(0, 0)}
    frontier := [(4, 4)]
    k := 0 }

/-! ## The claims -/

/-- C1: for every positive grid size and every random stream, each of the
four perfect-maze generators returns a grid in which every maze cell is
walkable and the cell graph over the maze cells and opened midpoints is
connected and acyclic with exactly (number of maze cells - 1) opened
midpoints. -/
theorem claim_perfect_generators (size : GridSize) (stream : ℕ → ℕ)
    (hr : 1 ≤ size.rows) (hc : 1 ≤ size.cols) :
    IsPerfectMaze (generateMazeDFS size stream) ∧
    IsPerfectMaze (generateMazePrim size stream) ∧
    IsPerfectMaze (generateMazeKruskal size stream) ∧
    IsPerfectMaze (generateMazeBinaryTree size stream) := by
  refine ⟨?_, ?_, ?_, ?_⟩
  · exact generateMazeDFS_perfect size stream hr hc
  · exact generateMazePrim_perfect size stream hr hc
  · exact generateMazeKruskal_perfect size stream hr hc
  · obtain ⟨h1, h2, h3, h4, -, -⟩ := generateMazeBinaryTree_perfect size stream hr hc
    exact ⟨h1, h2, h3, h4⟩

theorem claim_perfect_generators_witness :
    1 ≤ (GridSize.mk 5 5).rows ∧ 1 ≤ (GridSize.mk 5 5).cols ∧
    (IsPerfectMaze (generateMazeDFS ⟨5, 5⟩ (fun _ => 0)) ∧
      IsPerfectMaze (generateMazePrim ⟨5, 5⟩ (fun _ => 0)) ∧
      IsPerfectMaze (generateMazeKruskal ⟨5, 5⟩ (fun _ => 0)) ∧
      IsPerfectMaze (generateMazeBinaryTree ⟨5, 5⟩ (fun _ => 0))) :=
  ⟨by decide, by decide,
    claim_perfect_generators ⟨5, 5⟩ (fun _ => 0) (by decide) (by decide)⟩

/-- C2: for every positive requested size, each perfect-maze generator
returns a grid with (requested - 1) rows and columns when the requested
dimension is even and exactly the requested dimension when it is odd, and
generateRandomMaze keeps the requested dimensions exactly, every row of
identical length. -/
theorem claim_grid_dimensions (size : GridSize) (stream : ℕ → ℕ)
    (wallDensity : ℚ) (rand : ℕ → ℚ) (hr : 1 ≤ size.rows) (hc : 1 ≤ size.cols) :
    (∀ G ∈ [generateMazeDFS size stream, generateMazePrim size stream,
        generateMazeKruskal size stream, generateMazeBinaryTree size stream],
      G.toLists.length =
        (if size.rows % 2 = 0 then size.rows - 1 else size.rows) ∧
      ∀ r ∈ G.toLists,
        r.length = (if size.cols % 2 = 0 then size.cols - 1 else size.cols)) ∧
    (generateRandomMaze size wallDensity rand).length = size.rows ∧
    (∀ r ∈ generateRandomMaze size wallDensity rand, r.length = size.cols) := by
  refine ⟨?_, generateRandomMaze_length size wallDensity rand,
    generateRandomMaze_row_length size wallDensity rand⟩
  intro G hG
  rcases List.mem_cons.1 hG with rfl | hG
  · exact toLists_shape _
  rcases List.mem_cons.1 hG with rfl | hG
  · exact toLists_shape _
  rcases List.mem_cons.1 hG with rfl | hG
  · exact toLists_shape _
  rw [List.mem_singleton] at hG
  subst hG
  exact toLists_shape _

theorem claim_grid_dimensions_witness :
    1 ≤ (GridSize.mk 6 7).rows ∧ 1 ≤ (GridSize.mk 6 7).cols ∧
    ((∀ G ∈ [generateMazeDFS ⟨6, 7⟩ (fun _ => 0), generateMazePrim ⟨6, 7⟩ (fun _ => 0),
        generateMazeKruskal ⟨6, 7⟩ (fun _ => 0), generateMazeBinaryTree ⟨6, 7⟩ (fun _ => 0)],
      G.toLists.length =
        (if (GridSize.mk 6 7).rows % 2 = 0 then (GridSize.mk 6 7).rows - 1
          else (GridSize.mk 6 7).rows) ∧
      ∀ r ∈ G.toLists,
        r.length = (if (GridSize.mk 6 7).cols % 2 = 0 then (GridSize.mk 6 7).cols - 1
          else (GridSize.mk 6 7).cols)) ∧
    (generateRandomMaze ⟨6, 7⟩ (1 / 2) (fun _ => 1 / 4)).length = (GridSize.mk 6 7).rows ∧
    (∀ r ∈ generateRandomMaze ⟨6, 7⟩ (1 / 2) (fun _ => 1 / 4),
      r.length = (GridSize.mk 6 7).cols)) :=
  ⟨by decide, by decide,
    claim_grid_dimensions ⟨6, 7⟩ (fun _ => 0) (1 / 2) (fun _ => 1 / 4)
      (by decide) (by decide)⟩

/-- C3 (amended): in a binary-tree maze the maze cell that opens zero walls
from its own up/right candidates is the TOP-right corner (0, cols - 1), not
the bottom-right one; every other maze cell opens at least one of its own
candidate walls, and the whole cell graph, including the bottom maze-cell
row and the rightmost maze-cell column, is connected to the tree. -/
theorem claim_binarytree_leaf (size : GridSize) (stream : ℕ → ℕ)
    (hr : 1 ≤ size.rows) (hc : 1 ≤ size.cols) :
    btCorner (generateMazeBinaryTree size stream).cols =
      (0, (generateMazeBinaryTree size stream).cols - 1) ∧
    selfOpened (generateMazeBinaryTree size stream).cell
      (btCorner (generateMazeBinaryTree size stream).cols) = 0 ∧
    (∀ p ∈ cellFinset (generateMazeBinaryTree size stream).rows
        (generateMazeBinaryTree size stream).cols,
      p ≠ btCorner (generateMazeBinaryTree size stream).cols →
        1 ≤ selfOpened (generateMazeBinaryTree size stream).cell p) ∧
    (mazeGraph (generateMazeBinaryTree size stream).rows
      (generateMazeBinaryTree size stream).cols
      (generateMazeBinaryTree size stream).cell).Connected := by
  obtain ⟨-, h2, -, -, h5, h6⟩ := generateMazeBinaryTree_perfect size stream hr hc
  exact ⟨rfl, h5, h6, h2⟩

theorem claim_binarytree_leaf_witness :
    1 ≤ (GridSize.mk 5 5).rows ∧ 1 ≤ (GridSize.mk 5 5).cols ∧
    (btCorner (generateMazeBinaryTree ⟨5, 5⟩ (fun _ => 0)).cols =
      (0, (generateMazeBinaryTree ⟨5, 5⟩ (fun _ => 0)).cols - 1) ∧
    selfOpened (generateMazeBinaryTree ⟨5, 5⟩ (fun _ => 0)).cell
      (btCorner (generateMazeBinaryTree ⟨5, 5⟩ (fun _ => 0)).cols) = 0 ∧
    (∀ p ∈ cellFinset (generateMazeBinaryTree ⟨5, 5⟩ (fun _ => 0)).rows
        (generateMazeBinaryTree ⟨5, 5⟩ (fun _ => 0)).cols,
      p ≠ btCorner (generateMazeBinaryTree ⟨5, 5⟩ (fun _ => 0)).cols →
        1 ≤ selfOpened (generateMazeBinaryTree ⟨5, 5⟩ (fun _ => 0)).cell p) ∧
    (mazeGraph (generateMazeBinaryTree ⟨5, 5⟩ (fun _ => 0)).rows
      (generateMazeBinaryTree ⟨5, 5⟩ (fun _ => 0)).cols
      (generateMazeBinaryTree ⟨5, 5⟩ (fun _ => 0)).cell).Connected) :=
  ⟨by decide, by decide,
    claim_binarytree_leaf ⟨5, 5⟩ (fun _ => 0) (by decide) (by decide)⟩

/-- C3 counterexample: at the 5 x 5 request with the all-zero stream, the
BOTTOM-right maze cell (4, 4) opens one of its own walls (its up wall), so
the bottom-right cell is not the zero-self-opened leaf the claim names. -/
theorem claim_binarytree_leaf_counterexample :
    ¬ selfOpened (generateMazeBinaryTree ⟨5, 5⟩ (fun _ => 0)).cell (4, 4) = 0 := by
  decide

/-- C4 (code bug): no generator fails fast on an undersized request; at the
0 x 0 request the Kruskal and binary-tree embeddings silently return a grid
with no rows, and the density generator silently returns the empty list,
instead of signalling an invalid grid size. -/
theorem claim_undersized_no_failfast :
    (generateMazeKruskal ⟨0, 0⟩ (fun _ => 0)).toLists = [] ∧
    (generateMazeBinaryTree ⟨0, 0⟩ (fun _ => 0)).toLists = [] ∧
    generateRandomMaze ⟨0, 0⟩ 0 (fun _ => 0) = [] :=
  ⟨rfl, rfl, rfl⟩

/-- C5: generateRandomMaze sets each cell to 0 (Wall) exactly when that
cell's uniform sample is strictly below the density and to 1 (Walkable)
otherwise; with samples in [0, 1), density 0 makes the cell walkable and
density 1 makes it a wall. -/
theorem claim_random_density (size : GridSize) (wallDensity : ℚ) (rand : ℕ → ℚ)
    (row col : ℕ) (hrow : row < size.rows) (hcol : col < size.cols) :
    ((generateRandomMaze size wallDensity rand).getD row []).getD col 0 =
      (if rand (row * size.cols + col) < wallDensity then 0 else 1) ∧
    (wallDensity = 0 → 0 ≤ rand (row * size.cols + col) →
      ((generateRandomMaze size wallDensity rand).getD row []).getD col 0 = 1) ∧
    (wallDensity = 1 → rand (row * size.cols + col) < 1 →
      ((generateRandomMaze size wallDensity rand).getD row []).getD col 0 = 0) := by
  have hcell := generateRandomMaze_cell_zero size wallDensity rand row col hrow hcol
  refine ⟨hcell, ?_, ?_⟩
  · intro hd hsample
    rw [hcell, hd]
    rw [if_neg (by exact fun hlt => absurd (lt_of_le_of_lt hsample hlt) (lt_irrefl 0))]
  · intro hd hsample
    rw [hcell, hd]
    rw [if_pos hsample]

theorem claim_random_density_witness :
    0 < (GridSize.mk 2 3).rows ∧ 1 < (GridSize.mk 2 3).cols ∧
    (((generateRandomMaze ⟨2, 3⟩ (1 / 2) (fun k => 1 / 4)).getD 0 []).getD 1 0 =
      (if (fun k : ℕ => (1 : ℚ) / 4) (0 * (GridSize.mk 2 3).cols + 1) < 1 / 2
        then 0 else 1) ∧
    ((1 : ℚ) / 2 = 0 → 0 ≤ (fun k : ℕ => (1 : ℚ) / 4) (0 * (GridSize.mk 2 3).cols + 1) →
      ((generateRandomMaze ⟨2, 3⟩ (1 / 2) (fun k => 1 / 4)).getD 0 []).getD 1 0 = 1) ∧
    ((1 : ℚ) / 2 = 1 → (fun k : ℕ => (1 : ℚ) / 4) (0 * (GridSize.mk 2 3).cols + 1) < 1 →
      ((generateRandomMaze ⟨2, 3⟩ (1 / 2) (fun k => 1 / 4)).getD 0 []).getD 1 0 = 0)) :=
  ⟨by decide, by decide,
    claim_random_density ⟨2, 3⟩ (1 / 2) (fun k => 1 / 4) 0 1 (by decide) (by decide)⟩

/-- C6: a Prim iteration that dequeues a frontier cell with no already
walkable two-step neighbor leaves every cell of the grid unchanged: the
step only removes the cell from the frontier and advances the random
counter. -/
theorem claim_prim_skip (rows cols : ℕ) (stream : ℕ → ℕ) (s : PrimState)
    (hne : s.frontier ≠ [])
    (hnone : dirNbrs rows cols (fun q => s.g q = 1)
      (s.frontier.getD (stream s.k % s.frontier.length) (0, 0)) = []) :
    (primStep rows cols stream s).g = s.g ∧
    primStep rows cols stream s =
      { s with frontier := s.frontier.eraseIdx (stream s.k % s.frontier.length)
               k := s.k + 1 } := by
  have hunf : primStep rows cols stream s =
      { s with frontier := s.frontier.eraseIdx (stream s.k % s.frontier.length)
               k := s.k + 1 } := by
    unfold primStep
    rw [if_neg hne]
    dsimp only
    rw [if_pos hnone]
  exact ⟨by rw [hunf], hunf⟩

theorem claim_prim_skip_witness :
    primSkipState.frontier ≠ [] ∧
    dirNbrs 5 5 (fun q => primSkipState.g q = 1)
      (primSkipState.frontier.getD
        ((fun _ : ℕ => 0) primSkipState.k % primSkipState.frontier.length) (0, 0)) = [] ∧
    ((primStep 5 5 (fun _ => 0) primSkipState).g = primSkipState.g ∧
      primStep 5 5 (fun _ => 0) primSkipState =
        { primSkipState with
            frontier := primSkipState.frontier.eraseIdx
              ((fun _ : ℕ => 0) primSkipState.k % primSkipState.frontier.length)
            k := primSkipState.k + 1 }) :=
  ⟨by decide, by decide,
    claim_prim_skip 5 5 (fun _ => 0) primSkipState (by decide) (by decide)⟩

/-- C7: on every parent map reachable from the initial one-singleton-per-cell
state, find returns the representative of its argument's set, a repeated
find returns the same representative, after union the two finds agree, and a
union of two already-unified elements leaves the induced partition
unchanged. -/
theorem claim_unionfind_contract {D : Finset Pos} {par : Pos → Pos}
    (hpar : UFReachable D par) {fuel : ℕ} (hfuel : D.card < fuel)
    {a b : Pos} (ha : a ∈ D) (hb : b ∈ D) :
    (∀ x, Reaches par x (find fuel par x).1) ∧
    (∀ x, (find fuel (find fuel par x).2 x).1 = (find fuel par x).1) ∧
    (find fuel (union fuel par a b) a).1 = (find fuel (union fuel par a b) b).1 ∧
    ((find fuel par a).1 = (find fuel par b).1 →
      ∀ x y, (sameSet (union fuel par a b) x y ↔ sameSet par x y)) := by
  have wf := ufreachable_wf hpar
  have hfr : ∀ (q : Pos → Pos), UFWf D q → ∀ x, Reaches q x (find fuel q x).1 := by
    intro q wfq x
    obtain ⟨d, hd, hroot⟩ := wfq.exists_rootdepth x
    have h := (find_spec d q wfq x hroot fuel (by omega)).1
    rw [h]
    exact ⟨⟨d, rfl⟩, hroot⟩
  have hwf2 : ∀ (q : Pos → Pos), UFWf D q → ∀ x, UFWf D (find fuel q x).2 ∧
      (∀ y r, Reaches q y r → Reaches (find fuel q x).2 y r) := by
    intro q wfq x
    obtain ⟨d, hd, hroot⟩ := wfq.exists_rootdepth x
    have h := find_spec d q wfq x hroot fuel (by omega)
    exact ⟨h.2.1, h.2.2.2⟩
  obtain ⟨ra, hra⟩ := wf.exists_reaches a
  obtain ⟨rb, hrb⟩ := wf.exists_reaches b
  obtain ⟨wfU, hmapU, -, -, -⟩ := union_spec wf ha hb hra hrb hfuel
  refine ⟨hfr par wf, ?_, ?_, ?_⟩
  · intro x
    obtain ⟨wf2, mono2⟩ := hwf2 par wf x
    exact reaches_unique (hfr (find fuel par x).2 wf2 x) (mono2 x _ (hfr par wf x))
  · have hraU : Reaches (union fuel par a b) a ra := by
      have h := hmapU a ra hra
      rwa [ite_self] at h
    have hfa := hfr (union fuel par a b) wfU a
    have hfb := hfr (union fuel par a b) wfU b
    by_cases hne : ra ≠ rb
    · have hrbU : Reaches (union fuel par a b) b ra := by
        have h := hmapU b rb hrb
        rwa [if_pos ⟨hne, rfl⟩] at h
      exact (reaches_unique hfa hraU).trans (reaches_unique hfb hrbU).symm
    · have heq : ra = rb := of_not_not hne
      have hrbU : Reaches (union fuel par a b) b rb := by
        have h := hmapU b rb hrb
        rwa [if_neg (fun hc => hc.1 heq)] at h
      rw [heq] at hraU
      exact (reaches_unique hfa hraU).trans (reaches_unique hfb hrbU).symm
  · intro hfind x y
    have heq : ra = rb := by
      have h1 : (find fuel par a).1 = ra := reaches_unique (hfr par wf a) hra
      have h2 : (find fuel par b).1 = rb := reaches_unique (hfr par wf b) hrb
      rw [h1, h2] at hfind
      exact hfind
    have hmapU' : ∀ z r, Reaches par z r → Reaches (union fuel par a b) z r := by
      intro z r h
      have h2 := hmapU z r h
      rwa [if_neg (fun hc => hc.1 heq)] at h2
    have hiff := reaches_iff_of_mono wf hmapU'
    constructor
    · rintro ⟨r, h1, h2⟩
      exact ⟨r, (hiff _ _).1 h1, (hiff _ _).1 h2⟩
    · rintro ⟨r, h1, h2⟩
      exact ⟨r, hmapU' _ _ h1, hmapU' _ _ h2⟩

theorem claim_unionfind_contract_witness :
    UFReachable (cellFinset 3 3) (fun p => p) ∧ (cellFinset 3 3).card < 5 ∧
    (0, 0) ∈ cellFinset 3 3 ∧ (0, 2) ∈ cellFinset 3 3 ∧
    ((∀ x, Reaches (fun p => p) x (find 5 (fun p => p) x).1) ∧
    (∀ x, (find 5 (find 5 (fun p => p) x).2 x).1 = (find 5 (fun p => p) x).1) ∧
    (find 5 (union 5 (fun p => p) (0, 0) (0, 2)) (0, 0)).1 =
      (find 5 (union 5 (fun p => p) (0, 0) (0, 2)) (0, 2)).1 ∧
    ((find 5 (fun p : Pos => p) (0, 0)).1 = (find 5 (fun p : Pos => p) (0, 2)).1 →
      ∀ x y, (sameSet (union 5 (fun p => p) (0, 0) (0, 2)) x y ↔
        sameSet (fun p => p) x y))) :=
  ⟨UFReachable.init, by decide, by decide, by decide,
    claim_unionfind_contract
      (UFReachable.init : UFReachable (cellFinset 3 3) (fun p => p))
      (by decide) (by decide) (by decide)⟩

/-- C8: on every parent map reachable during a Kruskal run, find terminates:
the parent chain of any element stabilizes at a root within a depth bounded
by the number of cells in the domain, and any fuel beyond that depth gives
the same result as depth + 1 recursion steps. -/
theorem claim_find_terminates {D : Finset Pos} {par : Pos → Pos}
    (hpar : UFReachable D par) (x : Pos) :
    ∃ d ≤ D.card, par (par^[d] x) = par^[d] x ∧
      ∀ fuel, d < fuel → find fuel par x = find (d + 1) par x := by
  have wf := ufreachable_wf hpar
  obtain ⟨d, hd, hroot⟩ := wf.exists_rootdepth x
  exact ⟨d, hd, hroot, fun fuel hf => find_stable d par wf x hroot fuel hf⟩

theorem claim_find_terminates_witness :
    UFReachable (cellFinset 3 3) (fun p => p) ∧
    ∃ d ≤ (cellFinset 3 3).card,
      (fun p : Pos => p) ((fun p : Pos => p)^[d] (0, 0)) = (fun p : Pos => p)^[d] (0, 0) ∧
      ∀ fuel, d < fuel →
        find fuel (fun p => p) (0, 0) = find (d + 1) (fun p => p) (0, 0) :=
  ⟨UFReachable.init, claim_find_terminates UFReachable.init (0, 0)⟩

/-- C9: for an in-bounds position, updateCell returns a grid holding the new
value at that position and the input's value everywhere else, with the same
dimensions; the input grid itself is a pure value and is left unmodified. -/
theorem claim_updateCell_frame (grid : List (List CellValue)) (row col : ℕ)
    (value : CellValue) (hrow : row < grid.length)
    (hcol : col < (grid.getD row []).length) :
    ((updateCell grid (row : ℤ) (col : ℤ) value).getD row []).getD col 0 = value ∧
    (∀ i j : ℕ, i < grid.length → j < (grid.getD i []).length →
      ¬(i = row ∧ j = col) →
      ((updateCell grid (row : ℤ) (col : ℤ) value).getD i []).getD j 0 =
        (grid.getD i []).getD j 0) ∧
    (updateCell grid (row : ℤ) (col : ℤ) value).length = grid.length ∧
    (∀ i : ℕ, i < grid.length →
      ((updateCell grid (row : ℤ) (col : ℤ) value).getD i []).length =
        (grid.getD i []).length) := by
  refine ⟨?_, ?_, updateCell_length grid _ _ value,
    fun i hi => updateCell_row_length grid _ _ value i hi⟩
  · rw [updateCell_get_zero grid _ _ value row hrow col hcol]
    rw [if_pos ⟨rfl, rfl⟩]
  · intro i j hi hj hne
    rw [updateCell_get_zero grid _ _ value i hi j hj]
    rw [if_neg ?_]
    rintro ⟨h1, h2⟩
    exact hne ⟨Int.ofNat.inj h1, Int.ofNat.inj h2⟩

theorem claim_updateCell_frame_witness :
    0 < ([[3, 4], [5, 6]] : List (List CellValue)).length ∧
    1 < (([[3, 4], [5, 6]] : List (List CellValue)).getD 0 []).length ∧
    (((updateCell [[3, 4], [5, 6]] ((0 : ℕ) : ℤ) ((1 : ℕ) : ℤ) 9).getD 0 []).getD 1 0 = 9 ∧
    (∀ i j : ℕ, i < ([[3, 4], [5, 6]] : List (List CellValue)).length →
      j < (([[3, 4], [5, 6]] : List (List CellValue)).getD i []).length →
      ¬(i = 0 ∧ j = 1) →
      ((updateCell [[3, 4], [5, 6]] ((0 : ℕ) : ℤ) ((1 : ℕ) : ℤ) 9).getD i []).getD j 0 =
        (([[3, 4], [5, 6]] : List (List CellValue)).getD i []).getD j 0) ∧
    (updateCell [[3, 4], [5, 6]] ((0 : ℕ) : ℤ) ((1 : ℕ) : ℤ) 9).length =
      ([[3, 4], [5, 6]] : List (List CellValue)).length ∧
    (∀ i : ℕ, i < ([[3, 4], [5, 6]] : List (List CellValue)).length →
      ((updateCell [[3, 4], [5, 6]] ((0 : ℕ) : ℤ) ((1 : ℕ) : ℤ) 9).getD i []).length =
        (([[3, 4], [5, 6]] : List (List CellValue)).getD i []).length)) :=
  ⟨by decide, by decide,
    claim_updateCell_frame [[3, 4], [5, 6]] 0 1 9 (by decide) (by decide)⟩

/-- C10: updateCell is total: every call returns a grid of the same
dimensions, and a call whose integer position is out of bounds, including
negative indices, returns a grid equal to the input rather than failing. -/
theorem claim_updateCell_total (grid : List (List CellValue)) (row col : ℤ)
    (value : CellValue) :
    (updateCell grid row col value).length = grid.length ∧
    (∀ i : ℕ, i < grid.length →
      ((updateCell grid row col value).getD i []).length =
        (grid.getD i []).length) ∧
    ((row < 0 ∨ (grid.length : ℤ) ≤ row ∨ col < 0 ∨
        (∀ i : ℕ, i < grid.length → ((grid.getD i []).length : ℤ) ≤ col)) →
      updateCell grid row col value = grid) := by
  refine ⟨updateCell_length grid row col value,
    fun i hi => updateCell_row_length grid row col value i hi, ?_⟩
  intro hoob
  apply List.ext_getElem (updateCell_length grid row col value)
  intro i h1 h2
  have hrow : (updateCell grid row col value)[i] =
      grid[i].mapIdx fun colIndex cell =>
        if (i : ℤ) = row ∧ (colIndex : ℤ) = col then value else cell := by
    unfold updateCell
    exact getElem_mapIdx grid _ i h2 h1
  rw [hrow]
  apply List.ext_getElem (by simp [List.length_mapIdx])
  intro j hj1 hj2
  have hjlen : j < grid[i].length := by
    simpa [List.length_mapIdx] using hj1
  rw [getElem_mapIdx grid[i] _ j hjlen hj1]
  rw [if_neg ?_]
  rintro ⟨hir, hjc⟩
  rcases hoob with h | h | h | h
  · omega
  · omega
  · omega
  · have hb := h i h2
    rw [List.getD_eq_getElem _ _ h2] at hb
    omega

end GridMaze
